import Mathlib

/-!
Formal model of the tinyset repository (src/u64set.rs): the adaptive
integer-set container `U64Set` with its nine storage representations, the
Robin-Hood slot table (`search`, `steal`, backward-shift deletion), the
companion map `U64Map`, and the `Fits64` encodings.

Conventions of the embedding:
* machine integers are `Nat` (or `Int` for signed values) with explicit
  `% 2 ^ w` where overflow can occur; `x & mask` with `mask = L - 1` for a
  power of two `L` is written `x % L`;
* counts (`sz` fields) are plain `Nat`;
* fallible steps (a Rust `panic!`, `assert!`, `unimplemented!()`, index out
  of bounds, or a loop that need not terminate) are modelled with `Option`:
  `none` means the operation does not complete normally.  Loops whose
  termination is data-dependent take an explicit fuel argument chosen large
  enough that every normally-terminating run of the source completes; for
  the `search`/`search_from` loops the fuel mirrors the source's
  `assert!(dist <= v.len())` exactly.
-/

namespace TS

/-- Inline capacities of the set representations (`NUM_U8` .. `NUM_U64`). -/
def NUM_U8 : Nat := 22

/-- Inline capacity of the 16-bit small form. -/
def NUM_U16 : Nat := 11

/-- Inline capacity of the 32-bit small form. -/
def NUM_U32 : Nat := 5

/-- Inline capacity of the 64-bit small form. -/
def NUM_U64 : Nat := 2

/-- Modelled from the spec: the sentinel `u8::invalid()` (trait `HasInvalid`,
defined in tinyset.rs which is not under src/) is the maximum representable
value of the width, `2 ^ 8 - 1`. -/
def inv8 : Nat := 2 ^ 8 - 1

/-- Modelled from the spec: `u16::invalid() = 2 ^ 16 - 1`. -/
def inv16 : Nat := 2 ^ 16 - 1

/-- Modelled from the spec: `u32::invalid() = 2 ^ 32 - 1`. -/
def inv32 : Nat := 2 ^ 32 - 1

/-- Modelled from the spec: `u64::invalid() = 2 ^ 64 - 1`. -/
def inv64 : Nat := 2 ^ 64 - 1

/-- Modelled from the spec: `hash_usize` (trait `HasInvalid`, tinyset.rs, not
under src/) is a deterministic width-specific mixing function, and the spec
requires that no property depend on the particular mix.  Accordingly every
development below is parametric in an arbitrary `hash : Nat → Nat`; this
standard multiplicative mixer is used only to evaluate concrete scenarios. -/
def mixHash (x : Nat) : Nat := (x * 11400714819323198485) % 2 ^ 64

/-- Doubling loop behind `nextPow2`; the fuel `n` always suffices because
doubling from 1 reaches `n` within `log2 n < n` steps. -/
def nextPow2Go (n : Nat) : Nat → Nat → Nat
  | 0, acc => acc
  | fuel + 1, acc => if n ≤ acc then acc else nextPow2Go n fuel (2 * acc)

/-- Smallest power of two that is at least `n` (Rust
`usize::next_power_of_two`; `0` and `1` map to `1`). -/
def nextPow2 (n : Nat) : Nat := nextPow2Go n n 1

/-- The raw-capacity rule `capacity_to_rawcapacity(cap) =
(cap*11/10).next_power_of_two()` (u64set.rs:90). -/
def capacityToRaw (cap : Nat) : Nat := nextPow2 (cap * 11 / 10)

/-- Largest number of `u64` cells one Rust box can hold: the language
guarantees that an allocation request above `isize::MAX` bytes fails, and
one cell is 8 bytes, so a `vec![u64::invalid(); n]` with
`n > (2^63 - 1) / 8` panics.  The limit is modelled for the
relocatable-sentinel (`Badu64`) boxes, whose length feeds the fuel of the
sentinel scan; the fixed-sentinel arms' behaviour is length-generic beyond
indexing, so their allocations are left exact. -/
def ALLOC_U64 : Nat := 2 ^ 60 - 1

/-- Cyclic distance `(a - b) & mask` of the source, for a table of length
`L`: the value `(a - b) % L`, written without truncated subtraction.  For
`L` a power of two this is exactly `a.wrapping_sub(b) & (L-1)`. -/
def dsub (L a b : Nat) : Nat := (a + (L - b % L)) % L

/-- Result of a probe (u64set.rs:18). -/
inductive SearchResult where
  | Present (i : Nat)
  | Empty (i : Nat)
  | Richer (i : Nat)
deriving Repr, DecidableEq

/-- Core loop shared by `search` (u64set.rs:2077) and `search_from`
(u64set.rs:2099): walk from probe distance `dist`, one slot per step.  The
fuel mirrors `assert!(dist <= v.len())`: a call with fuel `v.length + 1 -
dist` can raise `dist` to `v.length` and then fails (models the assert). -/
def searchLoop (hash : Nat → Nat) (v : List Nat) (elem inv : Nat) :
    Nat → Nat → Option SearchResult
  | 0, _ => none
  | fuel + 1, dist =>
    let L := v.length
    let i := (hash elem + dist) % L
    let x := v.getD i 0
    if x = inv then some (SearchResult.Empty i)
    else if x = elem then some (SearchResult.Present i)
    else if dsub L i (hash x) < dist then some (SearchResult.Richer i)
    else searchLoop hash v elem inv fuel (dist + 1)

/-- The function `search` (u64set.rs:2077). -/
def search (hash : Nat → Nat) (v : List Nat) (elem inv : Nat) :
    Option SearchResult :=
  searchLoop hash v elem inv (v.length + 1) 0

/-- The function `search_from` (u64set.rs:2099): identical walk, starting at
index `istart`, with initial distance `(istart - hash elem) & mask`. -/
def searchFrom (hash : Nat → Nat) (v : List Nat) (istart elem inv : Nat) :
    Option SearchResult :=
  let d0 := dsub v.length istart (hash elem)
  searchLoop hash v elem inv (v.length + 1 - d0) d0

/-- Loop of `steal` (u64set.rs:2121).  Each `Richer` step swaps the carried
element into the richer slot and continues with the displaced occupant.  The
outer loop of the source has no termination guard; fuel `v.length + 1`
suffices for every terminating run because the walk advances by at least one
slot per iteration and stops at the first empty slot. -/
def stealLoop (hash : Nat → Nat) (inv : Nat) :
    Nat → List Nat → Nat → Nat → Option (List Nat)
  | 0, _, _, _ => none
  | fuel + 1, v, i, elem =>
    match searchFrom hash v i elem inv with
    | none => none
    | some (SearchResult.Present _) => some v
    | some (SearchResult.Empty j) => some (v.set j elem)
    | some (SearchResult.Richer j) =>
        stealLoop hash inv fuel (v.set j elem) j (v.getD j 0)

/-- The function `steal` (u64set.rs:2121). -/
def steal (hash : Nat → Nat) (v : List Nat) (i elem inv : Nat) :
    Option (List Nat) :=
  stealLoop hash inv (v.length + 1) v i elem

/-- Loop of `mapsteal` (u64set.rs:3499): like `stealLoop` but moving the
companion value array in lockstep. -/
def mapStealLoop (hash : Nat → Nat) (inv : Nat) :
    Nat → List Nat → List Nat → Nat → Nat → Nat → Option (List Nat × List Nat)
  | 0, _, _, _, _, _ => none
  | fuel + 1, ks, vs, i, elem, val =>
    match searchFrom hash ks i elem inv with
    | none => none
    | some (SearchResult.Present j) => some (ks, vs.set j val)
    | some (SearchResult.Empty j) => some (ks.set j elem, vs.set j val)
    | some (SearchResult.Richer j) =>
        mapStealLoop hash inv fuel (ks.set j elem) (vs.set j val) j
          (ks.getD j 0) (vs.getD j 0)

/-- The function `mapsteal` (u64set.rs:3499). -/
def mapsteal (hash : Nat → Nat) (ks vs : List Nat) (i elem val inv : Nat) :
    Option (List Nat × List Nat) :=
  mapStealLoop hash inv (ks.length + 1) ks vs i elem val

/-- Backward-shift deletion loop, repeated verbatim in each heap arm of
`U64Set::remove` (u64set.rs:968, 994, 1020, 1046, 1074): shift successors
back until an empty or at-home slot, then write the sentinel. -/
def backShiftLoop (hash : Nat → Nat) (inv : Nat) :
    Nat → List Nat → Nat → Option (List Nat)
  | 0, _, _ => none
  | fuel + 1, v, i =>
    let L := v.length
    let ip1 := (i + 1) % L
    let x := v.getD ip1 0
    if x = inv ∨ dsub L (hash x) ip1 = 0 then some (v.set i inv)
    else backShiftLoop hash inv fuel (v.set i x) ip1

/-- Map/value lockstep variant of the backward-shift loop, used by
`U64Map::remove` heap arms (u64set.rs:3282, 3310, 3338, 3369). -/
def mapBackShiftLoop (hash : Nat → Nat) (inv : Nat) :
    Nat → List Nat → List Nat → Nat → Option (List Nat × List Nat)
  | 0, _, _, _ => none
  | fuel + 1, ks, vs, i =>
    let L := ks.length
    let ip1 := (i + 1) % L
    let x := ks.getD ip1 0
    if x = inv ∨ dsub L (hash x) ip1 = 0 then some (ks.set i inv, vs)
    else mapBackShiftLoop hash inv fuel (ks.set i x) (vs.set i (vs.getD ip1 0)) ip1

/-- Loop body of `Iter::next` (u64set.rs:1599), fully forced into a list:
skip sentinel cells, yield `nleft` values.  Running out of slice models the
`slice[0]` panic. -/
def iterLoop (inv : Nat) : List Nat → Nat → Option (List Nat)
  | _, 0 => some []
  | [], _ + 1 => none
  | x :: rest, nleft + 1 =>
    if x = inv then iterLoop inv rest (nleft + 1)
    else (iterLoop inv rest nleft).map (fun l => x :: l)

/-- Loop body of `Drain::next` (u64set.rs:1671), fully forced: pop values
from the back of the vector, skipping sentinels; an empty pop models the
`unwrap` panic. -/
def drainLoop (inv : Nat) (slice : List Nat) (nleft : Nat) :
    Option (List Nat) :=
  iterLoop inv slice.reverse nleft

/-- The nine storage representations of `Data` (u64set.rs:38).  For
`Badu64` the list is the whole box: table cells followed by one trailing
cell that stores the current (relocatable) sentinel. -/
inductive Data where
  | Su8 (sz : Nat) (v : List Nat)
  | Vu8 (sz : Nat) (v : List Nat)
  | Su16 (sz : Nat) (v : List Nat)
  | Vu16 (sz : Nat) (v : List Nat)
  | Su32 (sz : Nat) (v : List Nat)
  | Vu32 (sz : Nat) (v : List Nat)
  | Su64 (sz : Nat) (v : List Nat)
  | Vu64 (sz : Nat) (v : List Nat)
  | Badu64 (sz : Nat) (v : List Nat)
deriving Repr, DecidableEq

/-- `Data::new()` (u64set.rs:51). -/
def dataNew : Data := Data.Su8 0 (List.replicate NUM_U8 inv8)

/-- `Data::with_max_cap` (u64set.rs:54).  The `Badu64` arm's box
allocation is subject to the Rust allocation limit (see `ALLOC_U64`);
exceeding it panics, modelled as `none`. -/
def withMaxCap (max cap : Nat) : Option Data :=
  if max < inv8 then
    if cap ≤ NUM_U8 then some (Data.Su8 0 (List.replicate NUM_U8 inv8))
    else some (Data.Vu8 0 (List.replicate (nextPow2 (cap * 11 / 10)) inv8))
  else if max < inv16 then
    if cap ≤ NUM_U16 then some (Data.Su16 0 (List.replicate NUM_U16 inv16))
    else some (Data.Vu16 0 (List.replicate (nextPow2 (cap * 11 / 10)) inv16))
  else if max < inv32 then
    if cap ≤ NUM_U32 then some (Data.Su32 0 (List.replicate NUM_U32 inv32))
    else some (Data.Vu32 0 (List.replicate (nextPow2 (cap * 11 / 10)) inv32))
  else if max < inv64 then
    if cap ≤ NUM_U64 then some (Data.Su64 0 (List.replicate NUM_U64 inv64))
    else some (Data.Vu64 0 (List.replicate (nextPow2 (cap * 11 / 10)) inv64))
  else
    if nextPow2 ((cap + 1) * 11 / 10) + 1 ≤ ALLOC_U64 then
      some (Data.Badu64 0
        (List.replicate (nextPow2 ((cap + 1) * 11 / 10) + 1) inv64))
    else none

/-- `U64Set::with_capacity` (u64set.rs:102); the state is the wrapped
`Data`. -/
def withCapacity (cap : Nat) : Data :=
  if cap ≤ NUM_U8 then dataNew
  else if cap < inv8 then Data.Vu8 0 (List.replicate (capacityToRaw cap) inv8)
  else if cap < inv16 then Data.Vu16 0 (List.replicate (capacityToRaw cap) inv16)
  else if cap < inv32 then Data.Vu32 0 (List.replicate (capacityToRaw cap) inv32)
  else Data.Vu64 0 (List.replicate (capacityToRaw cap) inv64)

/-- `U64Set::with_max_and_capacity` (u64set.rs:117). -/
def withMaxAndCapacity (max cap : Nat) : Option Data := withMaxCap max cap

/-- `U64Set::len` (u64set.rs:121). -/
def lenD : Data → Nat
  | Data.Su8 sz _ => sz
  | Data.Vu8 sz _ => sz
  | Data.Su16 sz _ => sz
  | Data.Vu16 sz _ => sz
  | Data.Su32 sz _ => sz
  | Data.Vu32 sz _ => sz
  | Data.Su64 sz _ => sz
  | Data.Vu64 sz _ => sz
  | Data.Badu64 sz _ => sz

/-- `U64Set::rawcapacity` (u64set.rs:135). -/
def rawCapacity : Data → Nat
  | Data.Su8 _ _ => NUM_U8
  | Data.Vu8 _ v => v.length
  | Data.Su16 _ _ => NUM_U16
  | Data.Vu16 _ v => v.length
  | Data.Su32 _ _ => NUM_U32
  | Data.Vu32 _ v => v.length
  | Data.Su64 _ _ => NUM_U64
  | Data.Vu64 _ v => v.length
  | Data.Badu64 _ v => v.length - 1

/-- Inline-arm body of `insert_unchecked` (u64set.rs:445 etc.): scan the
prefix of length `sz`; append on absence.  Result: new array, new size, and
whether the value was newly inserted (`Ok` in the source).  Writing past the
fixed array is an index panic, hence `none`. -/
def smallInsert (sz : Nat) (v : List Nat) (value : Nat) :
    Option (List Nat × Nat × Bool) :=
  if (v.take sz).contains value then some (v, sz, false)
  else if sz < v.length then some (v.set sz value, sz + 1, true)
  else none

/-- Heap-arm body of `insert_unchecked` (u64set.rs:489 etc.): search, then
store at an empty slot or displace a richer occupant and run `steal`.
Returns the table and whether the element was new (the source also bumps
`sz` exactly in those cases). -/
def tableInsert (hash : Nat → Nat) (inv : Nat) (v : List Nat) (value : Nat) :
    Option (List Nat × Bool) :=
  match search hash v value inv with
  | none => none
  | some (SearchResult.Present _) => some (v, false)
  | some (SearchResult.Empty i) => some (v.set i value, true)
  | some (SearchResult.Richer i) =>
      match steal hash (v.set i value) i (v.getD i 0) inv with
      | none => none
      | some w => some (w, true)

/-- `U64Set::contains` (u64set.rs:763).  The outer `Option` is panic
fidelity; the inner one is the source's `Option<usize>`. -/
def containsOp (hash : Nat → Nat) : Data → Nat → Option (Option Nat)
  | Data.Su8 sz v, value =>
      if value ≥ inv8 then some none
      else some ((v.take sz).findIdx? (fun y => y == value % 2 ^ 8))
  | Data.Su16 sz v, value =>
      if value ≥ inv16 then some none
      else some ((v.take sz).findIdx? (fun y => y == value % 2 ^ 16))
  | Data.Su32 sz v, value =>
      if value ≥ inv32 then some none
      else some ((v.take sz).findIdx? (fun y => y == value % 2 ^ 32))
  | Data.Su64 sz v, value =>
      if value ≥ inv64 then some none
      else some ((v.take sz).findIdx? (fun y => y == value % 2 ^ 64))
  | Data.Vu8 _ v, value =>
      if value ≥ inv8 then some none
      else
        match search hash v (value % 2 ^ 8) inv8 with
        | none => none
        | some (SearchResult.Present i) => some (some i)
        | some _ => some none
  | Data.Vu16 _ v, value =>
      if value ≥ inv16 then some none
      else
        match search hash v (value % 2 ^ 16) inv16 with
        | none => none
        | some (SearchResult.Present i) => some (some i)
        | some _ => some none
  | Data.Vu32 _ v, value =>
      if value ≥ inv32 then some none
      else
        match search hash v (value % 2 ^ 32) inv32 with
        | none => none
        | some (SearchResult.Present i) => some (some i)
        | some _ => some none
  | Data.Vu64 _ v, value =>
      if value ≥ inv64 then some none
      else
        match search hash v (value % 2 ^ 64) inv64 with
        | none => none
        | some (SearchResult.Present i) => some (some i)
        | some _ => some none
  | Data.Badu64 _ v, value =>
      let inv := v.getD (v.length - 1) 0
      if value = inv then some none
      else
        match search hash v.dropLast (value % 2 ^ 64) inv with
        | none => none
        | some (SearchResult.Present i) => some (some i)
        | some _ => some none

/-- New-sentinel scan of the `Badu64` arm of `insert_unchecked`
(u64set.rs:566): decrement (wrapping) while the candidate is contained.  The
candidate walk is finite in every terminating run; fuel one more than the
box length is enough because at most `rawcapacity` values are contained. -/
def badFindInvalid (hash : Nat → Nat) (d : Data) :
    Nat → Nat → Option Nat
  | 0, _ => none
  | fuel + 1, cand =>
    match containsOp hash d cand with
    | none => none
    | some (some _) =>
        badFindInvalid hash d fuel ((cand + (2 ^ 64 - 1)) % 2 ^ 64)
    | some none => some cand

/-- `U64Set::insert_unchecked` (u64set.rs:443).  The `Bool` is `is_ok()` of
the source's `Result<usize,usize>`: `true` means newly inserted (every
caller in scope uses only that bit). -/
def insertUnchecked (hash : Nat → Nat) : Data → Nat → Option (Data × Bool)
  | Data.Su8 sz v, value =>
      (smallInsert sz v (value % 2 ^ 8)).map
        (fun r => (Data.Su8 r.2.1 r.1, r.2.2))
  | Data.Su16 sz v, value =>
      (smallInsert sz v (value % 2 ^ 16)).map
        (fun r => (Data.Su16 r.2.1 r.1, r.2.2))
  | Data.Su32 sz v, value =>
      (smallInsert sz v (value % 2 ^ 32)).map
        (fun r => (Data.Su32 r.2.1 r.1, r.2.2))
  | Data.Su64 sz v, value =>
      (smallInsert sz v (value % 2 ^ 64)).map
        (fun r => (Data.Su64 r.2.1 r.1, r.2.2))
  | Data.Vu8 sz v, value =>
      (tableInsert hash inv8 v (value % 2 ^ 8)).map
        (fun r => (Data.Vu8 (if r.2 then sz + 1 else sz) r.1, r.2))
  | Data.Vu16 sz v, value =>
      (tableInsert hash inv16 v (value % 2 ^ 16)).map
        (fun r => (Data.Vu16 (if r.2 then sz + 1 else sz) r.1, r.2))
  | Data.Vu32 sz v, value =>
      (tableInsert hash inv32 v (value % 2 ^ 32)).map
        (fun r => (Data.Vu32 (if r.2 then sz + 1 else sz) r.1, r.2))
  | Data.Vu64 sz v, value =>
      (tableInsert hash inv64 v (value % 2 ^ 64)).map
        (fun r => (Data.Vu64 (if r.2 then sz + 1 else sz) r.1, r.2))
  | Data.Badu64 sz v, value =>
      let value := value % 2 ^ 64
      let oldInv := v.getD (v.length - 1) 0
      let newInv : Option Nat :=
        if value = oldInv then
          badFindInvalid hash (Data.Badu64 sz v) (v.length + 2)
            ((oldInv + (2 ^ 64 - 1)) % 2 ^ 64)
        else some oldInv
      match newInv with
      | none => none
      | some inv2 =>
        let w := if oldInv ≠ inv2
          then v.map (fun x => if x = oldInv then inv2 else x) else v
        match tableInsert hash inv2 w.dropLast value with
        | none => none
        | some (t2, b) =>
            some (Data.Badu64 (if b then sz + 1 else sz)
              (t2 ++ [w.getD (w.length - 1) 0]), b)

/-- Rebuild loop shared by every promotion arm of `reserve` /
`reserve_with_max`: insert each listed value with `insert_unchecked`,
discarding the `Result` (the source's `.ok()`). -/
def foldInsert (hash : Nat → Nat) : Data → List Nat → Option Data
  | d, [] => some d
  | d, x :: xs =>
    match insertUnchecked hash d x with
    | none => none
    | some (d2, _) => foldInsert hash d2 xs

/-- One cell of the in-place rehash of a resize arm (u64set.rs:263 etc.):
sentinel cells are skipped, others are re-searched and stolen in, without
touching `sz`. -/
def tableReinsert (hash : Nat → Nat) (inv : Nat) (w : List Nat) (x : Nat) :
    Option (List Nat) :=
  if x = inv then some w
  else
    match search hash w x inv with
    | none => none
    | some (SearchResult.Present _) => some w
    | some (SearchResult.Empty i) => some (w.set i x)
    | some (SearchResult.Richer i) =>
        steal hash (w.set i x) i (w.getD i 0) inv

/-- Fold of `tableReinsert` over the old array of a resize arm. -/
def rehashAll (hash : Nat → Nat) (inv : Nat) : List Nat → List Nat → Option (List Nat)
  | w, [] => some w
  | w, x :: xs =>
    match tableReinsert hash inv w x with
    | none => none
    | some w2 => rehashAll hash inv w2 xs

/-- `U64Set::iter` forced to a list (u64set.rs:1356 together with
`Iter::next`, u64set.rs:1599). -/
def iterListD : Data → Option (List Nat)
  | Data.Su8 sz v => iterLoop inv8 (v.take sz) sz
  | Data.Vu8 sz v => iterLoop inv8 v sz
  | Data.Su16 sz v => iterLoop inv16 (v.take sz) sz
  | Data.Vu16 sz v => iterLoop inv16 v sz
  | Data.Su32 sz v => iterLoop inv32 (v.take sz) sz
  | Data.Vu32 sz v => iterLoop inv32 v sz
  | Data.Su64 sz v => iterLoop inv64 (v.take sz) sz
  | Data.Vu64 sz v => iterLoop inv64 v sz
  | Data.Badu64 sz v => iterLoop (v.getD (v.length - 1) 0) v.dropLast sz

/-- `U64Set::reserve` (u64set.rs:151).  Only the `Su8` arms are
implemented; every other representation hits `unimplemented!()`. -/
def reserveOp (hash : Nat → Nat) : Data → Nat → Option Data
  | Data.Su8 sz v, additional =>
      if sz + additional > NUM_U8 then
        foldInsert hash
          (Data.Vu8 0 (List.replicate (nextPow2 ((sz + additional) * 11 / 10)) inv8))
          (v.take sz)
      else some (Data.Su8 sz v)
  | _, _ => none

/-- `U64Set::reserve_with_max` (u64set.rs:169), arm for arm.  The guard
order of the source is kept: width escalation first, then inline overflow or
the load-factor resize.  The `Vu64` arm with `max >= u64::invalid()` is
`unimplemented!()` (u64set.rs:256). -/
def reserveWithMax (hash : Nat → Nat) : Data → Nat → Nat → Option Data
  | Data.Su8 sz v, max, additional =>
      if max ≥ inv8 then
        match withMaxCap max (sz + additional) with
        | none => none
        | some d0 => foldInsert hash d0 (v.take sz)
      else if sz + additional > NUM_U8 then
        foldInsert hash
          (Data.Vu8 0 (List.replicate (nextPow2 ((sz + additional) * 11 / 10)) inv8))
          (v.take sz)
      else some (Data.Su8 sz v)
  | Data.Su16 sz v, max, additional =>
      if max ≥ inv16 then
        match withMaxCap max (sz + additional) with
        | none => none
        | some d0 => foldInsert hash d0 (v.take sz)
      else if sz + additional > NUM_U16 then
        foldInsert hash
          (Data.Vu16 0 (List.replicate (nextPow2 ((sz + additional) * 11 / 10)) inv16))
          (v.take sz)
      else some (Data.Su16 sz v)
  | Data.Su32 sz v, max, additional =>
      if max ≥ inv32 then
        match withMaxCap max (sz + additional) with
        | none => none
        | some d0 => foldInsert hash d0 (v.take sz)
      else if sz + additional > NUM_U32 then
        foldInsert hash
          (Data.Vu32 0 (List.replicate (nextPow2 ((sz + additional) * 11 / 10)) inv32))
          (v.take sz)
      else some (Data.Su32 sz v)
  | Data.Su64 sz v, max, additional =>
      if max ≥ inv64 then
        match withMaxCap max (sz + additional) with
        | none => none
        | some d0 => foldInsert hash d0 (v.take sz)
      else if sz + additional > NUM_U64 then
        foldInsert hash
          (Data.Vu64 0 (List.replicate (nextPow2 ((sz + additional) * 11 / 10)) inv64))
          (v.take sz)
      else some (Data.Su64 sz v)
  | Data.Vu8 sz v, max, additional =>
      if max ≥ inv8 then
        match iterListD (Data.Vu8 sz v) with
        | none => none
        | some l =>
            match withMaxCap max (sz + additional) with
            | none => none
            | some d0 => foldInsert hash d0 l
      else if sz + additional > v.length * 10 / 11 then
        (rehashAll hash inv8
          (List.replicate (nextPow2 ((sz + additional) * 11 / 10)) inv8) v).map
          (fun w => Data.Vu8 sz w)
      else some (Data.Vu8 sz v)
  | Data.Vu16 sz v, max, additional =>
      if max ≥ inv16 then
        match iterListD (Data.Vu16 sz v) with
        | none => none
        | some l =>
            match withMaxCap max (sz + additional) with
            | none => none
            | some d0 => foldInsert hash d0 l
      else if sz + additional > v.length * 10 / 11 then
        (rehashAll hash inv16
          (List.replicate (nextPow2 ((sz + additional) * 11 / 10)) inv16) v).map
          (fun w => Data.Vu16 sz w)
      else some (Data.Vu16 sz v)
  | Data.Vu32 sz v, max, additional =>
      if max ≥ inv32 then
        match iterListD (Data.Vu32 sz v) with
        | none => none
        | some l =>
            match withMaxCap max (sz + additional) with
            | none => none
            | some d0 => foldInsert hash d0 l
      else if sz + additional > v.length * 10 / 11 then
        (rehashAll hash inv32
          (List.replicate (nextPow2 ((sz + additional) * 11 / 10)) inv32) v).map
          (fun w => Data.Vu32 sz w)
      else some (Data.Vu32 sz v)
  | Data.Vu64 sz v, max, additional =>
      if max ≥ inv64 then none
      else if sz + additional > v.length * 10 / 11 then
        (rehashAll hash inv64
          (List.replicate (nextPow2 ((sz + additional) * 11 / 10)) inv64) v).map
          (fun w => Data.Vu64 sz w)
      else some (Data.Vu64 sz v)
  | Data.Badu64 sz v, _max, additional =>
      if sz + additional + 1 > v.length * 10 / 11 then
        let inv := v.getD (v.length - 1) 0
        if nextPow2 ((sz + additional + 1) * 11 / 10) + 1 ≤ ALLOC_U64 then
          (rehashAll hash inv
            (List.replicate (nextPow2 ((sz + additional + 1) * 11 / 10)) inv)
            v).map
            (fun w => Data.Badu64 sz (w ++ [inv]))
        else none
      else some (Data.Badu64 sz v)

/-- `U64Set::insert` (u64set.rs:437): reserve for one more element of value
`elem`, then `insert_unchecked`. -/
def insertOp (hash : Nat → Nat) (d : Data) (x : Nat) : Option (Data × Bool) :=
  match reserveWithMax hash d x 1 with
  | none => none
  | some d2 => insertUnchecked hash d2 x

/-- Inline-arm body of `U64Set::remove` (u64set.rs:878 etc.): locate by
scan, swap the last prefix element into the hole, decrement the count. -/
def smallRemove (sz : Nat) (v : List Nat) (value : Nat) :
    List Nat × Nat × Bool :=
  match (v.take sz).findIdx? (fun y => y == value) with
  | none => (v, sz, false)
  | some i => (v.set i (v.getD (sz - 1) 0), sz - 1, true)

/-- `U64Set::remove` (u64set.rs:875). -/
def removeOp (hash : Nat → Nat) : Data → Nat → Option (Data × Bool)
  | Data.Su8 sz v, value =>
      if value ≥ inv8 then some (Data.Su8 sz v, false)
      else
        let r := smallRemove sz v (value % 2 ^ 8)
        some (Data.Su8 r.2.1 r.1, r.2.2)
  | Data.Su16 sz v, value =>
      if value ≥ inv16 then some (Data.Su16 sz v, false)
      else
        let r := smallRemove sz v (value % 2 ^ 16)
        some (Data.Su16 r.2.1 r.1, r.2.2)
  | Data.Su32 sz v, value =>
      if value ≥ inv32 then some (Data.Su32 sz v, false)
      else
        let r := smallRemove sz v (value % 2 ^ 32)
        some (Data.Su32 r.2.1 r.1, r.2.2)
  | Data.Su64 sz v, value =>
      if value ≥ inv64 then some (Data.Su64 sz v, false)
      else
        let r := smallRemove sz v (value % 2 ^ 64)
        some (Data.Su64 r.2.1 r.1, r.2.2)
  | Data.Vu8 sz v, value =>
      if value ≥ inv8 then some (Data.Vu8 sz v, false)
      else
        match search hash v (value % 2 ^ 8) inv8 with
        | none => none
        | some (SearchResult.Present i) =>
            (backShiftLoop hash inv8 (v.length + 1) v i).map
              (fun w => (Data.Vu8 (sz - 1) w, true))
        | some _ => some (Data.Vu8 sz v, false)
  | Data.Vu16 sz v, value =>
      if value ≥ inv16 then some (Data.Vu16 sz v, false)
      else
        match search hash v (value % 2 ^ 16) inv16 with
        | none => none
        | some (SearchResult.Present i) =>
            (backShiftLoop hash inv16 (v.length + 1) v i).map
              (fun w => (Data.Vu16 (sz - 1) w, true))
        | some _ => some (Data.Vu16 sz v, false)
  | Data.Vu32 sz v, value =>
      if value ≥ inv32 then some (Data.Vu32 sz v, false)
      else
        match search hash v (value % 2 ^ 32) inv32 with
        | none => none
        | some (SearchResult.Present i) =>
            (backShiftLoop hash inv32 (v.length + 1) v i).map
              (fun w => (Data.Vu32 (sz - 1) w, true))
        | some _ => some (Data.Vu32 sz v, false)
  | Data.Vu64 sz v, value =>
      if value ≥ inv64 then some (Data.Vu64 sz v, false)
      else
        match search hash v (value % 2 ^ 64) inv64 with
        | none => none
        | some (SearchResult.Present i) =>
            (backShiftLoop hash inv64 (v.length + 1) v i).map
              (fun w => (Data.Vu64 (sz - 1) w, true))
        | some _ => some (Data.Vu64 sz v, false)
  | Data.Badu64 sz v, value =>
      let inv := v.getD (v.length - 1) 0
      if value = inv then some (Data.Badu64 sz v, false)
      else
        match search hash v.dropLast (value % 2 ^ 64) inv with
        | none => none
        | some (SearchResult.Present i) =>
            (backShiftLoop hash inv (v.length - 1 + 1) v.dropLast i).map
              (fun w => (Data.Badu64 (sz - 1) (w ++ [inv]), true))
        | some _ => some (Data.Badu64 sz v, false)

/-- State of the container immediately after `U64Set::drain` returns
(u64set.rs:1418): storage replaced by a fresh sentinel-filled array of the
same shape, count zeroed, before the iterator yields anything. -/
def drainedD : Data → Data
  | Data.Su8 _ _ => Data.Su8 0 (List.replicate NUM_U8 inv8)
  | Data.Vu8 _ v => Data.Vu8 0 (List.replicate v.length inv8)
  | Data.Su16 _ _ => Data.Su16 0 (List.replicate NUM_U16 inv16)
  | Data.Vu16 _ v => Data.Vu16 0 (List.replicate v.length inv16)
  | Data.Su32 _ _ => Data.Su32 0 (List.replicate NUM_U32 inv32)
  | Data.Vu32 _ v => Data.Vu32 0 (List.replicate v.length inv32)
  | Data.Su64 _ _ => Data.Su64 0 (List.replicate NUM_U64 inv64)
  | Data.Vu64 _ v => Data.Vu64 0 (List.replicate v.length inv64)
  | Data.Badu64 _ v => Data.Badu64 0 (List.replicate v.length inv64)

/-- Values yielded by the `Drain` iterator of `U64Set::drain`, fully
forced (u64set.rs:1418 with `Drain::next`, u64set.rs:1671): the small forms
hand the iterator their live prefix, the heap forms the whole old array
(for `Badu64` including the trailing sentinel cell, whose value is also the
skip sentinel). -/
def drainListD : Data → Option (List Nat)
  | Data.Su8 sz v => drainLoop inv8 (v.take sz) sz
  | Data.Vu8 sz v => drainLoop inv8 v sz
  | Data.Su16 sz v => drainLoop inv16 (v.take sz) sz
  | Data.Vu16 sz v => drainLoop inv16 v sz
  | Data.Su32 sz v => drainLoop inv32 (v.take sz) sz
  | Data.Vu32 sz v => drainLoop inv32 v sz
  | Data.Su64 sz v => drainLoop inv64 (v.take sz) sz
  | Data.Vu64 sz v => drainLoop inv64 v sz
  | Data.Badu64 sz v => drainLoop (v.getD (v.length - 1) 0) v sz

/-- An abstract operation of the test harness: insert or remove a value. -/
inductive Op where
  | ins (x : Nat)
  | rem (x : Nat)
deriving Repr, DecidableEq

/-- Run a sequence of operations, stopping with `none` at the first one
that does not complete normally. -/
def runOps (hash : Nat → Nat) : Data → List Op → Option Data
  | d, [] => some d
  | d, Op.ins x :: ops =>
    match insertOp hash d x with
    | none => none
    | some (d2, _) => runOps hash d2 ops
  | d, Op.rem x :: ops =>
    match removeOp hash d x with
    | none => none
    | some (d2, _) => runOps hash d2 ops

/-- Number of live (non-sentinel) cells of a table. -/
def liveCount (inv : Nat) (v : List Nat) : Nat :=
  (v.filter (fun x => x != inv)).length

/-- The list of live (non-sentinel) cells of a table, in slot order. -/
def liveList (inv : Nat) (v : List Nat) : List Nat :=
  v.filter (fun x => x != inv)

/-- Boolean form of membership, `contains(x).is_some()` of the source. -/
def containsB (hash : Nat → Nat) (d : Data) (x : Nat) : Bool :=
  match containsOp hash d x with
  | some (some _) => true
  | _ => false

/-- The current sentinel of a relocatable-sentinel (`Badu64`) state. -/
def currentSentinel : Data → Option Nat
  | Data.Badu64 _ v => some (v.getD (v.length - 1) 0)
  | _ => none

/-- Modelled from the spec (the reference definition for the refinement
claim about sentinel relocation, spec section 4.2: in the relocatable form,
if x equals the current sentinel, first pick a new sentinel by decrementing
with wrap until a value not already contained is found, rewrite all
occurrences of the old sentinel cell in the array to the new sentinel, and
only then perform the ordinary search and insert). -/
def specBadInsert (hash : Nat → Nat) (sz : Nat) (v : List Nat) (x : Nat) :
    Option (Data × Bool) :=
  let x := x % 2 ^ 64
  let oldS := v.getD (v.length - 1) 0
  let pick : Option Nat :=
    if x = oldS then
      badFindInvalid hash (Data.Badu64 sz v) (v.length + 2)
        ((oldS + (2 ^ 64 - 1)) % 2 ^ 64)
    else some oldS
  match pick with
  | none => none
  | some s2 =>
    let w := v.map (fun c => if c = oldS then s2 else c)
    match tableInsert hash s2 w.dropLast x with
    | none => none
    | some (t2, b) =>
        some (Data.Badu64 (if b then sz + 1 else sz)
          (t2 ++ [w.getD (w.length - 1) 0]), b)

/-! The adaptive map `U64Map` (u64set.rs:2531).  The inline capacities are
those of the 64-bit platform (u64set.rs:2512). -/

/-- Inline capacity of the 8-bit small map form. -/
def MAP_NUM_U8 : Nat := 23

/-- Inline capacity of the 16-bit small map form. -/
def MAP_NUM_U16 : Nat := 15

/-- Inline capacity of the 32-bit small map form. -/
def MAP_NUM_U32 : Nat := 9

/-- Inline capacity of the 64-bit small map form. -/
def MAP_NUM_U64 : Nat := 4

/-- The eight storage representations of `U64Map` (u64set.rs:2531).  In the
`Vu64` form the key list is one longer than the value list; its trailing
cell stores the relocatable sentinel. -/
inductive MapD where
  | Su8 (sz : Nat) (keys vals : List Nat)
  | Vu8 (sz : Nat) (keys vals : List Nat)
  | Su16 (sz : Nat) (keys vals : List Nat)
  | Vu16 (sz : Nat) (keys vals : List Nat)
  | Su32 (sz : Nat) (keys vals : List Nat)
  | Vu32 (sz : Nat) (keys vals : List Nat)
  | Su64 (sz : Nat) (keys vals : List Nat)
  | Vu64 (sz : Nat) (keys vals : List Nat)
deriving Repr, DecidableEq

/-- `U64Map::with_capacity` (u64set.rs:2575). -/
def mapWithCapacity (cap : Nat) : MapD :=
  let nextcap := capacityToRaw cap
  if cap ≤ MAP_NUM_U8 then
    MapD.Su8 0 (List.replicate MAP_NUM_U8 0) (List.replicate MAP_NUM_U8 0)
  else if cap < inv8 then
    MapD.Vu8 0 (List.replicate nextcap inv8) (List.replicate nextcap inv8)
  else if cap < inv16 then
    MapD.Vu16 0 (List.replicate nextcap inv16) (List.replicate nextcap inv16)
  else if cap < inv32 then
    MapD.Vu32 0 (List.replicate nextcap inv32) (List.replicate nextcap inv32)
  else
    MapD.Vu64 0 (List.replicate (nextcap + 1) inv64) (List.replicate nextcap inv64)

/-- `U64Map::with_maxes_cap` (u64set.rs:2605).  Note that the inline-size
guards use the set constants `NUM_U8` .. `NUM_U64`, not the larger
`MAP_NUM_*` ones. -/
def withMaxesCap (maxK maxV cap : Nat) : MapD :=
  let mk := if maxK > maxV then maxK else maxV
  let nextcap := capacityToRaw cap
  if mk < inv8 then
    if cap ≤ NUM_U8 ∧ maxV < 256 then
      MapD.Su8 0 (List.replicate MAP_NUM_U8 0) (List.replicate MAP_NUM_U8 0)
    else
      MapD.Vu8 0 (List.replicate nextcap inv8) (List.replicate nextcap inv8)
  else if mk < inv16 then
    if cap ≤ NUM_U16 ∧ maxV < 256 then
      MapD.Su16 0 (List.replicate MAP_NUM_U16 inv16) (List.replicate MAP_NUM_U16 0)
    else
      MapD.Vu16 0 (List.replicate nextcap inv16) (List.replicate nextcap inv16)
  else if mk < inv32 then
    if cap ≤ NUM_U32 ∧ maxV < 256 then
      MapD.Su32 0 (List.replicate MAP_NUM_U32 inv32) (List.replicate MAP_NUM_U32 0)
    else
      MapD.Vu32 0 (List.replicate nextcap inv32) (List.replicate nextcap inv32)
  else
    if cap ≤ NUM_U64 ∧ maxV < 256 then
      MapD.Su64 0 (List.replicate MAP_NUM_U64 0) (List.replicate MAP_NUM_U64 0)
    else
      MapD.Vu64 0 (List.replicate (nextcap + 1) inv64) (List.replicate nextcap 137)

/-- `U64Map::get` (u64set.rs:3088). -/
def mapGet (hash : Nat → Nat) : MapD → Nat → Option (Option Nat)
  | MapD.Su8 sz keys vals, k =>
      if k ≥ inv8 then some none
      else
        match (keys.take sz).findIdx? (fun y => y == k % 2 ^ 8) with
        | none => some none
        | some i => some (some (vals.getD i 0))
  | MapD.Su16 sz keys vals, k =>
      if k ≥ inv16 then some none
      else
        match (keys.take sz).findIdx? (fun y => y == k % 2 ^ 16) with
        | none => some none
        | some i => some (some (vals.getD i 0))
  | MapD.Su32 sz keys vals, k =>
      if k ≥ inv32 then some none
      else
        match (keys.take sz).findIdx? (fun y => y == k % 2 ^ 32) with
        | none => some none
        | some i => some (some (vals.getD i 0))
  | MapD.Su64 sz keys vals, k =>
      match (keys.take sz).findIdx? (fun y => y == k % 2 ^ 64) with
      | none => some none
      | some i => some (some (vals.getD i 0))
  | MapD.Vu8 _ keys vals, k =>
      if k ≥ inv8 then some none
      else
        match search hash keys (k % 2 ^ 8) inv8 with
        | none => none
        | some (SearchResult.Present i) => some (some (vals.getD i 0))
        | some _ => some none
  | MapD.Vu16 _ keys vals, k =>
      if k ≥ inv16 then some none
      else
        match search hash keys (k % 2 ^ 16) inv16 with
        | none => none
        | some (SearchResult.Present i) => some (some (vals.getD i 0))
        | some _ => some none
  | MapD.Vu32 _ keys vals, k =>
      if k ≥ inv32 then some none
      else
        match search hash keys (k % 2 ^ 32) inv32 with
        | none => none
        | some (SearchResult.Present i) => some (some (vals.getD i 0))
        | some _ => some none
  | MapD.Vu64 _ keys vals, k =>
      let inv := keys.getD (keys.length - 1) 0
      if k = inv then some none
      else
        match search hash keys.dropLast (k % 2 ^ 64) inv with
        | none => none
        | some (SearchResult.Present i) => some (some (vals.getD i 0))
        | some _ => some none

/-- New-sentinel scan of the `Vu64` arm of `U64Map::insert_unchecked`
(u64set.rs:2803): decrement (wrapping) while `get` finds the candidate. -/
def mapFindInvalid (hash : Nat → Nat) (m : MapD) : Nat → Nat → Option Nat
  | 0, _ => none
  | fuel + 1, cand =>
    match mapGet hash m cand with
    | none => none
    | some (some _) =>
        mapFindInvalid hash m fuel ((cand + (2 ^ 64 - 1)) % 2 ^ 64)
    | some none => some cand

/-- `U64Map::insert_unchecked` (u64set.rs:2662): the returned inner option
is the previously associated value, when the key was present. -/
def mapInsertUnchecked (hash : Nat → Nat) :
    MapD → Nat → Nat → Option (MapD × Option Nat)
  | MapD.Su8 sz keys vals, k, v =>
      let k := k % 2 ^ 8
      match (keys.take sz).findIdx? (fun y => y == k) with
      | some i =>
          some (MapD.Su8 sz keys (vals.set i (v % 2 ^ 8)), some (vals.getD i 0))
      | none =>
          if sz < keys.length ∧ sz < vals.length then
            some (MapD.Su8 (sz + 1) (keys.set sz k) (vals.set sz (v % 2 ^ 8)), none)
          else none
  | MapD.Su16 sz keys vals, k, v =>
      let k := k % 2 ^ 16
      match (keys.take sz).findIdx? (fun y => y == k) with
      | some i =>
          some (MapD.Su16 sz keys (vals.set i (v % 2 ^ 8)), some (vals.getD i 0))
      | none =>
          if sz < keys.length ∧ sz < vals.length then
            some (MapD.Su16 (sz + 1) (keys.set sz k) (vals.set sz (v % 2 ^ 8)), none)
          else none
  | MapD.Su32 sz keys vals, k, v =>
      let k := k % 2 ^ 32
      match (keys.take sz).findIdx? (fun y => y == k) with
      | some i =>
          some (MapD.Su32 sz keys (vals.set i (v % 2 ^ 8)), some (vals.getD i 0))
      | none =>
          if sz < keys.length ∧ sz < vals.length then
            some (MapD.Su32 (sz + 1) (keys.set sz k) (vals.set sz (v % 2 ^ 8)), none)
          else none
  | MapD.Su64 sz keys vals, k, v =>
      let k := k % 2 ^ 64
      match (keys.take sz).findIdx? (fun y => y == k) with
      | some i =>
          some (MapD.Su64 sz keys (vals.set i (v % 2 ^ 8)), some (vals.getD i 0))
      | none =>
          if sz < keys.length ∧ sz < vals.length then
            some (MapD.Su64 (sz + 1) (keys.set sz k) (vals.set sz (v % 2 ^ 8)), none)
          else none
  | MapD.Vu8 sz keys vals, k, v =>
      let k := k % 2 ^ 8
      let v := v % 2 ^ 8
      match search hash keys k inv8 with
      | none => none
      | some (SearchResult.Present i) =>
          some (MapD.Vu8 sz keys (vals.set i v), some (vals.getD i 0))
      | some (SearchResult.Empty i) =>
          some (MapD.Vu8 (sz + 1) (keys.set i k) (vals.set i v), none)
      | some (SearchResult.Richer i) =>
          match mapsteal hash (keys.set i k) (vals.set i v) i
            (keys.getD i 0) (vals.getD i 0) inv8 with
          | none => none
          | some (ks2, vs2) => some (MapD.Vu8 (sz + 1) ks2 vs2, none)
  | MapD.Vu16 sz keys vals, k, v =>
      let k := k % 2 ^ 16
      let v := v % 2 ^ 16
      match search hash keys k inv16 with
      | none => none
      | some (SearchResult.Present i) =>
          some (MapD.Vu16 sz keys (vals.set i v), some (vals.getD i 0))
      | some (SearchResult.Empty i) =>
          some (MapD.Vu16 (sz + 1) (keys.set i k) (vals.set i v), none)
      | some (SearchResult.Richer i) =>
          match mapsteal hash (keys.set i k) (vals.set i v) i
            (keys.getD i 0) (vals.getD i 0) inv16 with
          | none => none
          | some (ks2, vs2) => some (MapD.Vu16 (sz + 1) ks2 vs2, none)
  | MapD.Vu32 sz keys vals, k, v =>
      let k := k % 2 ^ 32
      let v := v % 2 ^ 32
      match search hash keys k inv32 with
      | none => none
      | some (SearchResult.Present i) =>
          some (MapD.Vu32 sz keys (vals.set i v), some (vals.getD i 0))
      | some (SearchResult.Empty i) =>
          some (MapD.Vu32 (sz + 1) (keys.set i k) (vals.set i v), none)
      | some (SearchResult.Richer i) =>
          match mapsteal hash (keys.set i k) (vals.set i v) i
            (keys.getD i 0) (vals.getD i 0) inv32 with
          | none => none
          | some (ks2, vs2) => some (MapD.Vu32 (sz + 1) ks2 vs2, none)
  | MapD.Vu64 sz keys vals, k, v =>
      let k := k % 2 ^ 64
      let v := v % 2 ^ 64
      let oldInv := keys.getD (keys.length - 1) 0
      let newInv : Option Nat :=
        if k = oldInv then
          mapFindInvalid hash (MapD.Vu64 sz keys vals) (keys.length + 2)
            ((oldInv + (2 ^ 64 - 1)) % 2 ^ 64)
        else some oldInv
      match newInv with
      | none => none
      | some inv2 =>
        let ks := if oldInv ≠ inv2
          then keys.map (fun x => if x = oldInv then inv2 else x) else keys
        let t := ks.dropLast
        let last := ks.getD (ks.length - 1) 0
        match search hash t k inv2 with
        | none => none
        | some (SearchResult.Present i) =>
            some (MapD.Vu64 sz (t ++ [last]) (vals.set i v), some (vals.getD i 0))
        | some (SearchResult.Empty i) =>
            some (MapD.Vu64 (sz + 1) (t.set i k ++ [last]) (vals.set i v), none)
        | some (SearchResult.Richer i) =>
            match mapsteal hash (t.set i k) (vals.set i v) i
              (t.getD i 0) (vals.getD i 0) inv2 with
            | none => none
            | some (ks2, vs2) =>
                some (MapD.Vu64 (sz + 1) (ks2 ++ [last]) vs2, none)

/-- Rebuild fold of the map promotion arms: insert each key/value pair of
the old representation with `insert_unchecked`, discarding the result. -/
def mapFoldInsert (hash : Nat → Nat) : MapD → List (Nat × Nat) → Option MapD
  | m, [] => some m
  | m, (k, v) :: rest =>
    match mapInsertUnchecked hash m k v with
    | none => none
    | some (m2, _) => mapFoldInsert hash m2 rest

/-- In-place rehash fold of the map resize arms (u64set.rs:2944 etc.):
sentinel keys are skipped, other key/value pairs are re-searched and stolen
into the fresh arrays, without touching `sz`. -/
def mapRehash (hash : Nat → Nat) (inv : Nat) :
    List Nat → List Nat → List (Nat × Nat) → Option (List Nat × List Nat)
  | ks, vs, [] => some (ks, vs)
  | ks, vs, (k, v) :: rest =>
    if k = inv then mapRehash hash inv ks vs rest
    else
      match search hash ks k inv with
      | none => none
      | some (SearchResult.Present _) => mapRehash hash inv ks vs rest
      | some (SearchResult.Empty i) =>
          mapRehash hash inv (ks.set i k) (vs.set i v) rest
      | some (SearchResult.Richer i) =>
          match mapsteal hash (ks.set i k) (vs.set i v) i
            (ks.getD i 0) (vs.getD i 0) inv with
          | none => none
          | some (ks2, vs2) => mapRehash hash inv ks2 vs2 rest

/-- `U64Map::reserve_with_maxes` (u64set.rs:2849), arm for arm.  The `Su16`
escalation arm (u64set.rs:2872) reproduces the source faithfully: the
promoted map `n` is built and then dropped (`Some(n);` is a no-op
statement), so the state is left unchanged. -/
def mapReserveWithMaxes (hash : Nat → Nat) :
    MapD → Nat → Nat → Nat → Option MapD
  | MapD.Su8 sz keys vals, maxK, maxV, additional =>
      let mk := if maxK > maxV then maxK else maxV
      if mk ≥ inv8 then
        mapFoldInsert hash (withMaxesCap mk maxV (sz + additional))
          ((keys.take sz).zip (vals.take sz))
      else if sz + additional > MAP_NUM_U8 then
        let nextcap := capacityToRaw (sz + additional)
        mapFoldInsert hash
          (MapD.Vu8 0 (List.replicate nextcap inv8) (List.replicate nextcap 0))
          ((keys.take sz).zip (vals.take sz))
      else some (MapD.Su8 sz keys vals)
  | MapD.Su16 sz keys vals, maxK, maxV, additional =>
      let mk := if maxK > maxV then maxK else maxV
      if mk ≥ inv16 ∨ maxV > 255 then
        match
          mapFoldInsert hash (withMaxesCap mk maxV (sz + additional))
            ((keys.take sz).zip (vals.take sz)) with
        | none => none
        | some _ => some (MapD.Su16 sz keys vals)
      else if sz + additional > MAP_NUM_U16 then
        let nextcap := capacityToRaw (sz + additional)
        mapFoldInsert hash
          (MapD.Vu16 0 (List.replicate nextcap inv16) (List.replicate nextcap 0))
          ((keys.take sz).zip (vals.take sz))
      else some (MapD.Su16 sz keys vals)
  | MapD.Su32 sz keys vals, maxK, maxV, additional =>
      let mk := if maxK > maxV then maxK else maxV
      if mk ≥ inv32 ∨ maxV > 255 then
        mapFoldInsert hash (withMaxesCap mk maxV (sz + additional))
          ((keys.take sz).zip (vals.take sz))
      else if sz + additional > MAP_NUM_U32 then
        let nextcap := capacityToRaw (sz + additional)
        mapFoldInsert hash
          (MapD.Vu32 0 (List.replicate nextcap inv32) (List.replicate nextcap 0))
          ((keys.take sz).zip (vals.take sz))
      else some (MapD.Su32 sz keys vals)
  | MapD.Su64 sz keys vals, maxK, maxV, additional =>
      let mk := if maxK > maxV then maxK else maxV
      if maxV > 255 then
        mapFoldInsert hash (withMaxesCap mk maxV (sz + additional))
          ((keys.take sz).zip (vals.take sz))
      else if sz + additional > MAP_NUM_U64 then
        let nextcap := capacityToRaw (sz + additional)
        mapFoldInsert hash
          (MapD.Vu64 0 (List.replicate (nextcap + 1) inv64) (List.replicate nextcap 0))
          ((keys.take sz).zip (vals.take sz))
      else some (MapD.Su64 sz keys vals)
  | MapD.Vu8 sz keys vals, maxK, maxV, additional =>
      let mk := if maxK > maxV then maxK else maxV
      if mk ≥ inv8 then
        mapFoldInsert hash (withMaxesCap mk maxV (sz + additional))
          ((keys.zip vals).filter (fun p => p.1 != inv8))
      else if sz + additional > keys.length * 10 / 11 then
        let newcap := capacityToRaw (sz + additional)
        (mapRehash hash inv8 (List.replicate newcap inv8)
          (List.replicate newcap 0) (keys.zip vals)).map
          (fun r => MapD.Vu8 sz r.1 r.2)
      else some (MapD.Vu8 sz keys vals)
  | MapD.Vu16 sz keys vals, maxK, maxV, additional =>
      let mk := if maxK > maxV then maxK else maxV
      if mk ≥ inv16 then
        mapFoldInsert hash (withMaxesCap mk maxV (sz + additional))
          ((keys.zip vals).filter (fun p => p.1 != inv16))
      else if sz + additional > keys.length * 10 / 11 then
        let newcap := capacityToRaw (sz + additional)
        (mapRehash hash inv16 (List.replicate newcap inv16)
          (List.replicate newcap 0) (keys.zip vals)).map
          (fun r => MapD.Vu16 sz r.1 r.2)
      else some (MapD.Vu16 sz keys vals)
  | MapD.Vu32 sz keys vals, maxK, maxV, additional =>
      let mk := if maxK > maxV then maxK else maxV
      if mk ≥ inv32 then
        mapFoldInsert hash (withMaxesCap mk maxV (sz + additional))
          ((keys.zip vals).filter (fun p => p.1 != inv32))
      else if sz + additional > keys.length * 10 / 11 then
        let newcap := capacityToRaw (sz + additional)
        (mapRehash hash inv32 (List.replicate newcap inv32)
          (List.replicate newcap 0) (keys.zip vals)).map
          (fun r => MapD.Vu32 sz r.1 r.2)
      else some (MapD.Vu32 sz keys vals)
  | MapD.Vu64 sz keys vals, maxK, maxV, additional =>
      let mk := if maxK > maxV then maxK else maxV
      if mk ≥ inv64 then
        let inv := keys.getD (keys.length - 1) 0
        mapFoldInsert hash (withMaxesCap mk maxV (sz + additional))
          ((keys.dropLast.zip vals).filter (fun p => p.1 != inv))
      else if sz + additional > keys.length * 10 / 11 then
        let newcap := capacityToRaw (sz + additional)
        let inv := keys.getD (keys.length - 1) 0
        (mapRehash hash inv (List.replicate newcap inv)
          (List.replicate newcap 0) (keys.dropLast.zip vals)).map
          (fun r => MapD.Vu64 sz (r.1 ++ [inv]) r.2)
      else some (MapD.Vu64 sz keys vals)

/-- `U64Map::insert` (u64set.rs:3082): `reserve_with_maxes(k, v, 1)` then
`insert_unchecked(k, v)`. -/
def mapInsert (hash : Nat → Nat) (m : MapD) (k v : Nat) :
    Option (MapD × Option Nat) :=
  match mapReserveWithMaxes hash m k v 1 with
  | none => none
  | some m2 => mapInsertUnchecked hash m2 k v

/-- `U64Map::len` (u64set.rs:3388). -/
def mapLen : MapD → Nat
  | MapD.Su8 sz _ _ => sz
  | MapD.Vu8 sz _ _ => sz
  | MapD.Su16 sz _ _ => sz
  | MapD.Vu16 sz _ _ => sz
  | MapD.Su32 sz _ _ => sz
  | MapD.Vu32 sz _ _ => sz
  | MapD.Su64 sz _ _ => sz
  | MapD.Vu64 sz _ _ => sz

/-! The `Fits64` encodings (u64set.rs:2142).  Unsigned values of width `w`
are natural numbers below `2 ^ w`; signed values of width `w` are integers
in `[-2 ^ (w-1), 2 ^ (w-1))`.  Overflowing machine arithmetic is modelled
by explicit wrapping. -/

/-- Interpretation of the low `w` bits as a two's-complement signed value
(`as iN` on a value already reduced, and the wrapping of overflowing signed
arithmetic). -/
def wrapI (w : Nat) (x : Int) : Int :=
  (x + 2 ^ (w - 1)) % 2 ^ w - 2 ^ (w - 1)

/-- Conversion `as uN` of a signed value: two's-complement bits of `x` in
width `w` (for `w = 64` this is sign extension into `u64`). -/
def iAsU (w : Nat) (x : Int) : Nat := (x % (2 ^ w : Int)).toNat

/-- The `to_u64` of `define_ifits` (u64set.rs:2189):
`((self.abs() as u64) << 1) + ((self as uN) >> (w-1))`, with `abs`
wrapping at the minimum value. -/
def iToU64 (w : Nat) (x : Int) : Nat :=
  let a := iAsU 64 (wrapI w (if x < 0 then -x else x)) * 2 % 2 ^ 64
  let b := iAsU w x / 2 ^ (w - 1)
  (a + b) % 2 ^ 64

/-- The `from_u64` of `define_ifits` (u64set.rs:2182):
`abs = (x >> 1) as iN; neg = (x & 1) as iN; abs * (neg * (-2) + 1)`,
with wrapping multiplication. -/
def iFromU64 (w : Nat) (x : Nat) : Int :=
  let abs := wrapI w (Int.ofNat (x / 2 % 2 ^ w))
  let neg : Int := Int.ofNat (x % 2)
  wrapI w (abs * (neg * (-2) + 1))

/-- The `to_u64` of `define_fits` for unsigned types (u64set.rs:2160):
plain widening. -/
def uToU64 (x : Nat) : Nat := x

/-- The `from_u64` of `define_fits` for an unsigned type of width `w`
(u64set.rs:2160): truncation `x as uN`. -/
def uFromU64 (w : Nat) (x : Nat) : Nat := x % 2 ^ w

/-- The `to_u64` of `Fits64 for char` (u64set.rs:2173): the code point. -/
def charToU64 (c : Nat) : Nat := c

/-- The `from_u64` of `Fits64 for char` (u64set.rs:2173):
`std::char::from_u32(x as u32).unwrap()`; `none` models the `unwrap` panic
on a non-scalar value. -/
def charFromU64 (x : Nat) : Option Nat :=
  let c := x % 2 ^ 32
  if c < 55296 ∨ (57344 ≤ c ∧ c < 1114112) then some c else none

/-! Invariants of the Robin-Hood slot table and well-formedness of
container states, used to state and prove the reachable-state claims. -/

/-- Value stored in slot `i` of a table (in-bounds in every use). -/
def slotVal (v : List Nat) (i : Nat) : Nat := v.getD i 0

/-- Probe distance of the occupant of slot `i`: `(i - hash v[i]) & mask`. -/
def slotDist (hash : Nat → Nat) (v : List Nat) (i : Nat) : Nat :=
  dsub v.length i (hash (slotVal v i))

/-- Local Robin-Hood ordering invariant: an occupied slot that is not at
its home has an occupied predecessor whose probe distance is at most one
smaller. -/
def LI (hash : Nat → Nat) (inv : Nat) (v : List Nat) : Prop :=
  ∀ i < v.length,
    slotVal v ((i + 1) % v.length) ≠ inv →
    slotDist hash v ((i + 1) % v.length) ≠ 0 →
    slotVal v i ≠ inv ∧
    slotDist hash v ((i + 1) % v.length) ≤ slotDist hash v i + 1

/-- Global Robin-Hood ordering invariant, as the spec words it: for every
live slot, every slot on the probe path from its home to it is live with
probe distance at least the offset along the path. -/
def RHInv (hash : Nat → Nat) (inv : Nat) (v : List Nat) : Prop :=
  ∀ i < v.length, slotVal v i ≠ inv →
    ∀ t < slotDist hash v i,
      slotVal v ((hash (slotVal v i) + t) % v.length) ≠ inv ∧
      t ≤ slotDist hash v ((hash (slotVal v i) + t) % v.length)

/-- No value occurs in two distinct live slots. -/
def nodupLive (inv : Nat) (v : List Nat) : Prop :=
  ∀ y, y ≠ inv → v.count y ≤ 1

/-- Facts established by a probe walk of length `d` for `elem`: every slot
passed is live, differs from `elem`, and is at least as far from its own
home as the walk is from `elem`'s. -/
def walkOK (hash : Nat → Nat) (inv : Nat) (v : List Nat) (elem d : Nat) :
    Prop :=
  ∀ t < d,
    slotVal v ((hash elem + t) % v.length) ≠ inv ∧
    slotVal v ((hash elem + t) % v.length) ≠ elem ∧
    t ≤ slotDist hash v ((hash elem + t) % v.length)

/-- Well-formedness of one heap slot table: nonempty, Robin-Hood ordered,
width-bounded cells, no duplicate live values, a length field equal to the
number of live slots, and — when the table is full — an at-home occupant
(the slot after the last-filled empty slot), which bounds the
backward-shift loop of `remove`. -/
def WFtable (hash : Nat → Nat) (inv wbound sz : Nat) (v : List Nat) :
    Prop :=
  0 < v.length ∧ LI hash inv v ∧ (∀ y ∈ v, y < wbound) ∧
  nodupLive inv v ∧ sz = liveCount inv v ∧
  (liveCount inv v = v.length → ∃ s, s < v.length ∧
    slotVal v s ≠ inv ∧ slotDist hash v s = 0)

/-- Well-formedness of an inline (small) form: fixed array size, count
within capacity, and a live prefix of admissible, pairwise distinct
values. -/
def WFsmall (inv cap sz : Nat) (v : List Nat) : Prop :=
  v.length = cap ∧ sz ≤ cap ∧ (∀ y ∈ v.take sz, y < inv) ∧
  (v.take sz).Nodup

/-- Well-formedness of a container state; the heap forms additionally
carry the load-factor bound maintained by `reserve`. -/
def WF (hash : Nat → Nat) : Data → Prop
  | Data.Su8 sz v => WFsmall inv8 NUM_U8 sz v
  | Data.Vu8 sz v => WFtable hash inv8 (2 ^ 8) sz v ∧ 11 * sz ≤ 10 * v.length + 9
  | Data.Su16 sz v => WFsmall inv16 NUM_U16 sz v
  | Data.Vu16 sz v => WFtable hash inv16 (2 ^ 16) sz v ∧ 11 * sz ≤ 10 * v.length + 9
  | Data.Su32 sz v => WFsmall inv32 NUM_U32 sz v
  | Data.Vu32 sz v => WFtable hash inv32 (2 ^ 32) sz v ∧ 11 * sz ≤ 10 * v.length + 9
  | Data.Su64 sz v => WFsmall inv64 NUM_U64 sz v
  | Data.Vu64 sz v => WFtable hash inv64 (2 ^ 64) sz v ∧ 11 * sz ≤ 10 * v.length + 9
  | Data.Badu64 sz v => ∃ t inv, v = t ++ [inv] ∧ inv < 2 ^ 64 ∧
      WFtable hash inv (2 ^ 64) sz t ∧
      11 * (sz + 1) ≤ 10 * (t.length + 1) + 9 ∧
      t.length + 1 ≤ ALLOC_U64

/-- The Robin-Hood ordering invariant of a state, trivial for inline
forms. -/
def RHInvData (hash : Nat → Nat) : Data → Prop
  | Data.Vu8 _ v => RHInv hash inv8 v
  | Data.Vu16 _ v => RHInv hash inv16 v
  | Data.Vu32 _ v => RHInv hash inv32 v
  | Data.Vu64 _ v => RHInv hash inv64 v
  | Data.Badu64 _ v => RHInv hash (v.getD (v.length - 1) 0) v.dropLast
  | _ => True

/-- Load bound of a state in terms of the actual number of live slots. -/
def loadOK : Data → Prop
  | Data.Vu8 _ v => 11 * liveCount inv8 v ≤ 10 * v.length + 9
  | Data.Vu16 _ v => 11 * liveCount inv16 v ≤ 10 * v.length + 9
  | Data.Vu32 _ v => 11 * liveCount inv32 v ≤ 10 * v.length + 9
  | Data.Vu64 _ v => 11 * liveCount inv64 v ≤ 10 * v.length + 9
  | Data.Badu64 _ v =>
      11 * (liveCount (v.getD (v.length - 1) 0) v.dropLast + 1) ≤
        10 * v.length + 9
  | _ => True

/-- Room for `n` more elements, as established by a successful reserve:
the inline forms can append, the heap forms keep the load bound after `n`
insertions. -/
def roomFor : Data → Nat → Prop
  | Data.Su8 sz _, n => sz + n ≤ NUM_U8
  | Data.Su16 sz _, n => sz + n ≤ NUM_U16
  | Data.Su32 sz _, n => sz + n ≤ NUM_U32
  | Data.Su64 sz _, n => sz + n ≤ NUM_U64
  | Data.Vu8 sz v, n => 11 * (sz + n) ≤ 10 * v.length + 9
  | Data.Vu16 sz v, n => 11 * (sz + n) ≤ 10 * v.length + 9
  | Data.Vu32 sz v, n => 11 * (sz + n) ≤ 10 * v.length + 9
  | Data.Vu64 sz v, n => 11 * (sz + n) ≤ 10 * v.length + 9
  | Data.Badu64 sz v, n => 11 * (sz + n + 1) ≤ 10 * v.length + 9

/-- Admissibility of a value in the width of a state (the
relocatable-sentinel form accepts any value after truncation). -/
def valueFits : Data → Nat → Prop
  | Data.Su8 _ _, x => x < inv8
  | Data.Vu8 _ _, x => x < inv8
  | Data.Su16 _ _, x => x < inv16
  | Data.Vu16 _ _, x => x < inv16
  | Data.Su32 _ _, x => x < inv32
  | Data.Vu32 _ _, x => x < inv32
  | Data.Su64 _ _, x => x < inv64
  | Data.Vu64 _ _, x => x < inv64
  | Data.Badu64 _ _, _ => True

/-- The truncation (`as uN` cast) applied to a value by the insert arm of
each representation. -/
def truncD : Data → Nat → Nat
  | Data.Su8 _ _, x => x % 2 ^ 8
  | Data.Vu8 _ _, x => x % 2 ^ 8
  | Data.Su16 _ _, x => x % 2 ^ 16
  | Data.Vu16 _ _, x => x % 2 ^ 16
  | Data.Su32 _ _, x => x % 2 ^ 32
  | Data.Vu32 _ _, x => x % 2 ^ 32
  | Data.Su64 _ _, x => x % 2 ^ 64
  | Data.Vu64 _ _, x => x % 2 ^ 64
  | Data.Badu64 _ _, x => x % 2 ^ 64

/-- Multiplicity of a value among the stored (live) contents of a state:
the live prefix for inline forms, the non-sentinel cells for heap forms. -/
def countD : Data → Nat → Nat
  | Data.Su8 sz v, y => (v.take sz).count y
  | Data.Su16 sz v, y => (v.take sz).count y
  | Data.Su32 sz v, y => (v.take sz).count y
  | Data.Su64 sz v, y => (v.take sz).count y
  | Data.Vu8 _ v, y => (liveList inv8 v).count y
  | Data.Vu16 _ v, y => (liveList inv16 v).count y
  | Data.Vu32 _ v, y => (liveList inv32 v).count y
  | Data.Vu64 _ v, y => (liveList inv64 v).count y
  | Data.Badu64 _ v, y =>
      (liveList (v.getD (v.length - 1) 0) v.dropLast).count y

/-- Discriminant of the nine representations. -/
def formIdx : Data → Nat
  | Data.Su8 _ _ => 0
  | Data.Vu8 _ _ => 1
  | Data.Su16 _ _ => 2
  | Data.Vu16 _ _ => 3
  | Data.Su32 _ _ => 4
  | Data.Vu32 _ _ => 5
  | Data.Su64 _ _ => 6
  | Data.Vu64 _ _ => 7
  | Data.Badu64 _ _ => 8

/-- States reachable by the public constructor and operation surface. -/
inductive Reach (hash : Nat → Nat) : Data → Prop where
  | capacity (cap : Nat) : Reach hash (withCapacity cap)
  | maxCapacity (max cap : Nat) (d : Data) :
      withMaxAndCapacity max cap = some d → Reach hash d
  | insertStep (d d2 : Data) (x : Nat) (b : Bool) :
      Reach hash d → insertOp hash d x = some (d2, b) → Reach hash d2
  | removeStep (d d2 : Data) (x : Nat) (b : Bool) :
      Reach hash d → removeOp hash d x = some (d2, b) → Reach hash d2
  | reserveStep (d d2 : Data) (n : Nat) :
      Reach hash d → reserveOp hash d n = some d2 → Reach hash d2
  | reserveMaxStep (d d2 : Data) (max n : Nat) :
      Reach hash d → reserveWithMax hash d max n = some d2 → Reach hash d2
  | drainStep (d : Data) : Reach hash d → Reach hash (drainedD d)

/-! Lemmas. -/

/-- Iterated remainder collapses. -/
theorem mod_mod (x L : Nat) : x % L % L = x % L :=
  Nat.mod_mod_of_dvd x dvd_rfl

/-- Cyclic distances are below the table length. -/
theorem dsub_lt (L a b : Nat) (h : 0 < L) : dsub L a b < L :=
  Nat.mod_lt _ h

/-- The cyclic distance of `b + t` from `b` is `t mod L`. -/
theorem dsub_offset (L b t : Nat) (h : 0 < L) :
    dsub L ((b + t) % L) b = t % L := by
  unfold dsub
  rw [Nat.mod_add_mod]
  have h2 : b % L < L := Nat.mod_lt b h
  have h4 := Nat.div_add_mod b L
  have h3 : b + t + (L - b % L) = t + L * (b / L) + L := by omega
  rw [h3, Nat.add_mod_right, Nat.add_mul_mod_self_left]

/-- Walking the cyclic distance from `b` to `a` reaches `a`. -/
theorem dsub_recover (L a b : Nat) (h : 0 < L) (ha : a < L) :
    (b + dsub L a b) % L = a := by
  unfold dsub
  rw [Nat.add_mod_mod]
  have h2 : b % L < L := Nat.mod_lt b h
  have h4 := Nat.div_add_mod b L
  have h3 : b + (a + (L - b % L)) = a + L * (b / L) + L := by omega
  rw [h3, Nat.add_mod_right, Nat.add_mul_mod_self_left, Nat.mod_eq_of_lt ha]

/-- Cyclic distance ignores a remainder on its second argument. -/
theorem dsub_mod_right (L a b : Nat) : dsub L a (b % L) = dsub L a b := by
  unfold dsub
  rw [mod_mod]

/-- Zero cyclic distance means equal residues. -/
theorem dsub_eq_zero_iff (L a b : Nat) (h : 0 < L) :
    dsub L a b = 0 ↔ a % L = b % L := by
  unfold dsub
  have h2 : b % L < L := Nat.mod_lt b h
  have ha : a % L < L := Nat.mod_lt a h
  rw [← Nat.mod_add_mod]
  constructor
  · intro hz
    have h5 : (a % L + (L - b % L)) % L = 0 := hz
    have h6 : a % L + (L - b % L) < 2 * L := by omega
    have h7 := Nat.div_add_mod (a % L + (L - b % L)) L
    have h8 : (a % L + (L - b % L)) / L < 2 :=
      Nat.div_lt_of_lt_mul (by omega)
    interval_cases h9 : (a % L + (L - b % L)) / L <;> omega
  · intro he
    have h5 : a % L + (L - b % L) = L := by omega
    rw [h5, Nat.mod_self]

/-- Successors are injective modulo `L` below `L`. -/
theorem mod_succ_inj (L a b : Nat) (ha : a < L) (hb : b < L)
    (he : (a + 1) % L = (b + 1) % L) : a = b := by
  have h1 : (a + 1) % L = if a + 1 = L then 0 else a + 1 := by
    split
    · next he2 => rw [he2, Nat.mod_self]
    · exact Nat.mod_eq_of_lt (by omega)
  have h2 : (b + 1) % L = if b + 1 = L then 0 else b + 1 := by
    split
    · next he2 => rw [he2, Nat.mod_self]
    · exact Nat.mod_eq_of_lt (by omega)
  split at h1 <;> split at h2 <;> omega

/-- Cyclic distance advances by one with the successor slot. -/
theorem dsub_succ (L a b : Nat) :
    dsub L ((a + 1) % L) b = (dsub L a b + 1) % L := by
  unfold dsub
  rw [Nat.mod_add_mod, Nat.mod_add_mod]
  congr 1
  omega

/-- Reading the slot just written. -/
theorem getD_set_self (v : List Nat) (i x d : Nat) (h : i < v.length) :
    (v.set i x).getD i d = x := by
  rw [List.getD_eq_getElem?_getD, List.getElem?_set_self h]
  rfl

/-- Reading another slot after a write. -/
theorem getD_set_ne (v : List Nat) (i p x d : Nat) (h : i ≠ p) :
    (v.set i x).getD p d = v.getD p d := by
  rw [List.getD_eq_getElem?_getD, List.getElem?_set_ne h,
    ← List.getD_eq_getElem?_getD]

/-- Value of the slot just written. -/
theorem slotVal_set_self (v : List Nat) (i x : Nat) (h : i < v.length) :
    slotVal (v.set i x) i = x :=
  getD_set_self v i x 0 h

/-- Value of an untouched slot. -/
theorem slotVal_set_ne (v : List Nat) (i p x : Nat) (h : i ≠ p) :
    slotVal (v.set i x) p = slotVal v p :=
  getD_set_ne v i p x 0 h

/-- Probe distance of an untouched slot. -/
theorem slotDist_set_ne (hash : Nat → Nat) (v : List Nat) (i p x : Nat)
    (h : i ≠ p) : slotDist hash (v.set i x) p = slotDist hash v p := by
  unfold slotDist
  rw [List.length_set, slotVal_set_ne v i p x h]

/-- Probe distance of the slot just written. -/
theorem slotDist_set_self (hash : Nat → Nat) (v : List Nat) (i x : Nat)
    (h : i < v.length) :
    slotDist hash (v.set i x) i = dsub v.length i (hash x) := by
  unfold slotDist
  rw [List.length_set, slotVal_set_self v i x h]

/-- In-bounds slot values are members of the table. -/
theorem slotVal_mem (v : List Nat) (i : Nat) (h : i < v.length) :
    slotVal v i ∈ v := by
  unfold slotVal
  rw [List.getD_eq_getElem?_getD, List.getElem?_eq_getElem h]
  exact List.getElem_mem h

/-- A write decomposes the table around the written slot. -/
theorem set_decomp (v : List Nat) (i x : Nat) (h : i < v.length) :
    v.set i x = v.take i ++ x :: v.drop (i + 1) := by
  rw [List.set_eq_take_append_cons_drop]
  simp [h]

/-- The table decomposes around any in-bounds slot. -/
theorem self_decomp (v : List Nat) (i : Nat) (h : i < v.length) :
    v = v.take i ++ slotVal v i :: v.drop (i + 1) := by
  have h2 := set_decomp v i (slotVal v i) h
  rw [← h2]
  apply List.ext_getElem
  · simp
  · intro j hj hj2
    by_cases hij : i = j
    · subst hij
      rw [List.getElem_set_self]
      unfold slotVal
      rw [List.getD_eq_getElem?_getD, List.getElem?_eq_getElem h]
      rfl
    · rw [List.getElem_set_ne hij]

/-- Count of live slots after a write, in addition form. -/
theorem liveCount_set (inv : Nat) (v : List Nat) (i x : Nat)
    (h : i < v.length) :
    liveCount inv (v.set i x) + (if slotVal v i ≠ inv then 1 else 0) =
      liveCount inv v + (if x ≠ inv then 1 else 0) := by
  unfold liveCount
  rw [set_decomp v i x h]
  conv_rhs => rw [self_decomp v i h]
  rw [List.filter_append, List.filter_append, List.filter_cons,
    List.filter_cons]
  by_cases hx : x = inv <;> by_cases ho : slotVal v i = inv <;>
    simp [hx, ho, List.length_append] <;> omega

/-- Count of a value after a write, in addition form. -/
theorem count_set_add (v : List Nat) (i x y : Nat) (h : i < v.length) :
    (v.set i x).count y + (if slotVal v i = y then 1 else 0) =
      v.count y + (if x = y then 1 else 0) := by
  rw [set_decomp v i x h]
  conv_rhs => rw [self_decomp v i h]
  rw [List.count_append, List.count_append, List.count_cons,
    List.count_cons]
  by_cases hx : x = y <;> by_cases ho : slotVal v i = y <;>
    simp [hx, ho] <;> omega

/-- The local invariant follows from the global one. -/
theorem LI_of_RHInv (hash : Nat → Nat) (inv : Nat) (v : List Nat)
    (h0 : 0 < v.length) (hg : RHInv hash inv v) : LI hash inv v := by
  intro i hi hocc hdist
  set L := v.length with hL
  set j := (i + 1) % L with hj
  have hjL : j < L := Nat.mod_lt _ h0
  have hd := hg j hjL hocc
  set dj := slotDist hash v j with hdj
  have h1 : dj - 1 < dj := by omega
  have h2 := hd (dj - 1) h1
  set p := (hash (slotVal v j) + (dj - 1)) % L with hp
  have hpL : p < L := Nat.mod_lt _ h0
  have hpi : p = i := by
    apply mod_succ_inj L p i hpL hi
    have h3 : (p + 1) % L = (hash (slotVal v j) + dj) % L := by
      rw [hp, Nat.mod_add_mod]
      congr 1
      omega
    have h4 : (hash (slotVal v j) + dj) % L = j := by
      rw [hdj]
      unfold slotDist
      exact dsub_recover L j _ h0 hjL
    rw [h3, h4, hj]
  rw [hpi] at h2
  exact ⟨h2.1, by omega⟩

/-- The global invariant follows from the local one: step back `k` slots
along the probe path of a live slot. -/
theorem RHInv_back (hash : Nat → Nat) (inv : Nat) (v : List Nat)
    (h0 : 0 < v.length) (hl : LI hash inv v) (k : Nat) :
    ∀ i < v.length, slotVal v i ≠ inv → k ≤ slotDist hash v i →
      slotVal v ((hash (slotVal v i) + (slotDist hash v i - k)) % v.length)
          ≠ inv ∧
      slotDist hash v i - k ≤
        slotDist hash v
          ((hash (slotVal v i) + (slotDist hash v i - k)) % v.length) := by
  induction k with
  | zero =>
      intro i hi hocc _
      have h4 : (hash (slotVal v i) + (slotDist hash v i - 0)) % v.length
          = i := by
        simp only [Nat.sub_zero]
        unfold slotDist
        exact dsub_recover _ i _ h0 hi
      rw [h4]
      exact ⟨hocc, by omega⟩
  | succ m ih =>
      intro i hi hocc hk
      have hm := ih i hi hocc (by omega)
      set L := v.length with hL
      set d := slotDist hash v i with hd
      set q := (hash (slotVal v i) + (d - m)) % L with hq
      have hqL : q < L := Nat.mod_lt _ h0
      have hqd : d - m ≤ slotDist hash v q := hm.2
      have hqocc : slotVal v q ≠ inv := hm.1
      have hqnz : slotDist hash v q ≠ 0 := by omega
      set p := (hash (slotVal v i) + (d - (m + 1))) % L with hp
      have hpL : p < L := Nat.mod_lt _ h0
      have hpq : (p + 1) % L = q := by
        rw [hp, Nat.mod_add_mod]
        have : hash (slotVal v i) + (d - (m + 1)) + 1 =
            hash (slotVal v i) + (d - m) := by omega
        rw [this, hq]
      have hli := hl p hpL
      rw [hpq] at hli
      have h5 := hli hqocc hqnz
      exact ⟨h5.1, by omega⟩

/-- The global invariant follows from the local one. -/
theorem RHInv_of_LI (hash : Nat → Nat) (inv : Nat) (v : List Nat)
    (h0 : 0 < v.length) (hl : LI hash inv v) : RHInv hash inv v := by
  intro i hi hocc t ht
  have h := RHInv_back hash inv v h0 hl (slotDist hash v i - t) i hi hocc
    (by omega)
  have h2 : slotDist hash v i - (slotDist hash v i - t) = t := by omega
  rw [h2] at h
  exact ⟨h.1, by omega⟩

/-- Full characterization of the probe loop: with matching fuel and the
facts collected so far, it returns a result whose kind determines the slot
found, together with the walk facts up to it. -/
theorem searchLoop_char (hash : Nat → Nat) (inv : Nat) (v : List Nat)
    (elem : Nat) (h0 : 0 < v.length) :
    ∀ fuel d, fuel + d = v.length + 1 → walkOK hash inv v elem d →
    ∃ r, searchLoop hash v elem inv fuel d = some r ∧
      ((∃ i e, r = SearchResult.Empty i ∧ d ≤ e ∧ e < v.length ∧
          i = (hash elem + e) % v.length ∧ slotVal v i = inv ∧
          walkOK hash inv v elem e) ∨
       (∃ i e, r = SearchResult.Present i ∧ d ≤ e ∧ e < v.length ∧
          i = (hash elem + e) % v.length ∧ slotVal v i = elem ∧
          walkOK hash inv v elem e) ∨
       (∃ i e, r = SearchResult.Richer i ∧ d ≤ e ∧ e ≤ v.length ∧
          i = (hash elem + e) % v.length ∧ slotVal v i ≠ inv ∧
          slotVal v i ≠ elem ∧ slotDist hash v i < e ∧
          walkOK hash inv v elem e)) := by
  intro fuel
  induction fuel with
  | zero =>
      intro d hfd hwalk
      exfalso
      have h1 := hwalk v.length (by omega)
      have h2 : slotDist hash v ((hash elem + v.length) % v.length)
          < v.length := dsub_lt _ _ _ h0
      omega
  | succ fuel ih =>
      intro d hfd hwalk
      simp only [searchLoop]
      set L := v.length with hL
      set i := (hash elem + d) % L with hi
      have hiL : i < L := Nat.mod_lt _ h0
      by_cases h1 : v.getD i 0 = inv
      · refine ⟨SearchResult.Empty i, by rw [if_pos h1],
          Or.inl ⟨i, d, rfl, le_refl _, ?_, rfl, h1, hwalk⟩⟩
        by_contra hdL
        have hdL2 : d = L := by omega
        have h2 := hwalk 0 (by omega)
        have h3 : (hash elem + 0) % L = i := by
          rw [hi, hdL2, Nat.add_zero, Nat.add_mod_right]
        rw [h3] at h2
        exact h2.1 h1
      · by_cases h2 : v.getD i 0 = elem
        · refine ⟨SearchResult.Present i, by rw [if_neg h1, if_pos h2],
            Or.inr (Or.inl ⟨i, d, rfl, le_refl _, ?_, rfl, h2, hwalk⟩)⟩
          by_contra hdL
          have hdL2 : d = L := by omega
          have h3 := hwalk 0 (by omega)
          have h4 : (hash elem + 0) % L = i := by
            rw [hi, hdL2, Nat.add_zero, Nat.add_mod_right]
          rw [h4] at h3
          exact h3.2.1 h2
        · by_cases h3 : dsub L i (hash (v.getD i 0)) < d
          · exact ⟨SearchResult.Richer i,
              by rw [if_neg h1, if_neg h2, if_pos h3],
              Or.inr (Or.inr ⟨i, d, rfl, le_refl _, by omega, rfl, h1, h2,
                h3, hwalk⟩)⟩
          · have hwalk2 : walkOK hash inv v elem (d + 1) := by
              intro t ht
              by_cases h4 : t < d
              · exact hwalk t h4
              · have h5 : t = d := by omega
                subst h5
                refine ⟨h1, h2, ?_⟩
                have hsd : slotDist hash v ((hash elem + t) % v.length) =
                    dsub L i (hash (v.getD i 0)) := rfl
                omega
            have h6 := ih (d + 1) (by omega) hwalk2
            rw [if_neg h1, if_neg h2, if_neg h3]
            obtain ⟨r, hr, hcase⟩ := h6
            refine ⟨r, hr, ?_⟩
            rcases hcase with ⟨i2, e, hA, hB, hC, hD, hE, hF⟩ |
              ⟨i2, e, hA, hB, hC, hD, hE, hF⟩ |
              ⟨i2, e, hA, hB, hC, hD, hE, hF, hG, hH⟩
            · exact Or.inl ⟨i2, e, hA, by omega, hC, hD, hE, hF⟩
            · exact Or.inr (Or.inl ⟨i2, e, hA, by omega, hC, hD, hE, hF⟩)
            · exact Or.inr (Or.inr ⟨i2, e, hA, by omega, hC, hD, hE, hF,
                hG, hH⟩)
/-- A search from scratch always completes with a characterized result. -/
theorem search_char (hash : Nat → Nat) (inv : Nat) (v : List Nat)
    (elem : Nat) (h0 : 0 < v.length) :
    ∃ r, search hash v elem inv = some r ∧
      ((∃ i e, r = SearchResult.Empty i ∧ e < v.length ∧
          i = (hash elem + e) % v.length ∧ slotVal v i = inv ∧
          walkOK hash inv v elem e) ∨
       (∃ i e, r = SearchResult.Present i ∧ e < v.length ∧
          i = (hash elem + e) % v.length ∧ slotVal v i = elem ∧
          walkOK hash inv v elem e) ∨
       (∃ i e, r = SearchResult.Richer i ∧ e ≤ v.length ∧
          i = (hash elem + e) % v.length ∧ slotVal v i ≠ inv ∧
          slotVal v i ≠ elem ∧ slotDist hash v i < e ∧
          walkOK hash inv v elem e)) := by
  have h := searchLoop_char hash inv v elem h0 (v.length + 1) 0 (by omega)
    (by intro t ht; omega)
  obtain ⟨r, hr, hd⟩ := h
  refine ⟨r, hr, ?_⟩
  rcases hd with ⟨i, e, h1, _, h3, h4, h5, h6⟩ | ⟨i, e, h1, _, h3, h4, h5, h6⟩ |
    ⟨i, e, h1, _, h3, h4, h5, h6, h7, h8⟩
  · exact Or.inl ⟨i, e, h1, h3, h4, h5, h6⟩
  · exact Or.inr (Or.inl ⟨i, e, h1, h3, h4, h5, h6⟩)
  · exact Or.inr (Or.inr ⟨i, e, h1, h3, h4, h5, h6, h7, h8⟩)

/-- A search from a given start index completes with a characterized
result, provided the prefix facts up to the start are available. -/
theorem searchFrom_char (hash : Nat → Nat) (inv : Nat) (v : List Nat)
    (elem istart : Nat) (h0 : 0 < v.length)
    (hpre : walkOK hash inv v elem (dsub v.length istart (hash elem))) :
    ∃ r, searchFrom hash v istart elem inv = some r ∧
      ((∃ i e, r = SearchResult.Empty i ∧
          dsub v.length istart (hash elem) ≤ e ∧ e < v.length ∧
          i = (hash elem + e) % v.length ∧ slotVal v i = inv ∧
          walkOK hash inv v elem e) ∨
       (∃ i e, r = SearchResult.Present i ∧
          dsub v.length istart (hash elem) ≤ e ∧ e < v.length ∧
          i = (hash elem + e) % v.length ∧ slotVal v i = elem ∧
          walkOK hash inv v elem e) ∨
       (∃ i e, r = SearchResult.Richer i ∧
          dsub v.length istart (hash elem) ≤ e ∧ e ≤ v.length ∧
          i = (hash elem + e) % v.length ∧ slotVal v i ≠ inv ∧
          slotVal v i ≠ elem ∧ slotDist hash v i < e ∧
          walkOK hash inv v elem e)) := by
  have hd0 : dsub v.length istart (hash elem) < v.length := dsub_lt _ _ _ h0
  have h := searchLoop_char hash inv v elem h0
    (v.length + 1 - dsub v.length istart (hash elem))
    (dsub v.length istart (hash elem)) (by omega) hpre
  exact h

/-- Soundness of `Present`: the found slot holds the element. -/
theorem searchLoop_present_val (hash : Nat → Nat) (inv : Nat)
    (v : List Nat) (elem : Nat) (h0 : 0 < v.length) :
    ∀ fuel d i, searchLoop hash v elem inv fuel d =
      some (SearchResult.Present i) → slotVal v i = elem ∧ i < v.length ∧
        slotVal v i ≠ inv := by
  intro fuel
  induction fuel with
  | zero => intro d i h; simp [searchLoop] at h
  | succ fuel ih =>
      intro d i h
      simp only [searchLoop] at h
      by_cases h1 : v.getD ((hash elem + d) % v.length) 0 = inv
      · rw [if_pos h1] at h
        simp at h
      · rw [if_neg h1] at h
        by_cases h2 : v.getD ((hash elem + d) % v.length) 0 = elem
        · rw [if_pos h2] at h
          simp only [Option.some.injEq, SearchResult.Present.injEq] at h
          subst h
          refine ⟨h2, Nat.mod_lt _ h0, ?_⟩
          intro hc
          exact h1 hc
        · rw [if_neg h2] at h
          by_cases h3 : dsub v.length ((hash elem + d) % v.length)
              (hash (v.getD ((hash elem + d) % v.length) 0)) < d
          · rw [if_pos h3] at h
            simp at h
          · rw [if_neg h3] at h
            exact ih (d + 1) i h

/-- Completeness: under the global invariant, a search for a live value
ends with `Present` at a slot holding it. -/
theorem searchLoop_finds (hash : Nat → Nat) (inv : Nat) (v : List Nat)
    (elem : Nat) (h0 : 0 < v.length) (hRH : RHInv hash inv v)
    (hne : elem ≠ inv) (j : Nat) (hj : j < v.length)
    (hv : slotVal v j = elem) :
    ∀ fuel d, fuel + d = v.length + 1 →
      d ≤ dsub v.length j (hash elem) →
    ∃ i, searchLoop hash v elem inv fuel d =
      some (SearchResult.Present i) ∧ slotVal v i = elem ∧
      i < v.length := by
  intro fuel
  induction fuel with
  | zero =>
      intro d hfd hd
      exfalso
      have := dsub_lt v.length j (hash elem) h0
      omega
  | succ fuel ih =>
      intro d hfd hd
      have hdj : slotDist hash v j = dsub v.length j (hash elem) := by
        unfold slotDist
        rw [hv]
      simp only [searchLoop]
      set L := v.length with hL
      set i := (hash elem + d) % L with hi
      have hiL : i < L := Nat.mod_lt _ h0
      by_cases hdd : d = dsub L j (hash elem)
      · have hij : i = j := by
          rw [hi, hdd]
          exact dsub_recover L j (hash elem) h0 hj
        rw [hij]
        have h1 : v.getD j 0 = elem := hv
        have h2 : ¬ v.getD j 0 = inv := by rw [h1]; exact hne
        refine ⟨j, ?_, hv, hj⟩
        rw [if_neg h2, if_pos h1]
      · have hlt : d < dsub L j (hash elem) := by omega
        have hocc : slotVal v j ≠ inv := by rw [hv]; exact hne
        have h3 := hRH j hj hocc d (by omega)
        rw [hv] at h3
        have h4 : slotVal v i ≠ inv := h3.1
        have h5 : d ≤ slotDist hash v i := h3.2
        have h6 : ¬ v.getD i 0 = inv := h4
        by_cases h7 : v.getD i 0 = elem
        · refine ⟨i, ?_, h7, hiL⟩
          rw [if_neg h6, if_pos h7]
        · have h8 : ¬ dsub L i (hash (v.getD i 0)) < d := by
            have : slotDist hash v i = dsub L i (hash (v.getD i 0)) := rfl
            omega
          have h9 := ih (d + 1) (by omega) (by omega)
          obtain ⟨i2, hi2, hv2, hl2⟩ := h9
          refine ⟨i2, ?_, hv2, hl2⟩
          rw [if_neg h6, if_neg h7, if_neg h8]
          exact hi2

/-- Membership decided by `search`: under the invariant, the element is in
some slot exactly when the search says `Present`. -/
theorem search_mem_iff (hash : Nat → Nat) (inv : Nat) (v : List Nat)
    (elem : Nat) (h0 : 0 < v.length) (hLI : LI hash inv v)
    (hne : elem ≠ inv) :
    (∃ i, search hash v elem inv = some (SearchResult.Present i)) ↔
      ∃ j, j < v.length ∧ slotVal v j = elem := by
  constructor
  · intro ⟨i, hi⟩
    have h := searchLoop_present_val hash inv v elem h0 (v.length + 1) 0 i hi
    exact ⟨i, h.2.1, h.1⟩
  · intro ⟨j, hj, hv⟩
    have hRH := RHInv_of_LI hash inv v h0 hLI
    have h := searchLoop_finds hash inv v elem h0 hRH hne j hj hv
      (v.length + 1) 0 (by omega) (by omega)
    obtain ⟨i, hi, _, _⟩ := h
    exact ⟨i, hi⟩

/-- Difference of two offsets from a common base, as a cyclic distance. -/
theorem dsub_offsets (L b s t : Nat) (h0 : 0 < L) (hts : t ≤ s)
    (hsL : s - t < L) :
    dsub L ((b + s) % L) ((b + t) % L) = s - t := by
  have h1 : (b + s) % L = ((b + t) + (s - t)) % L := by
    congr 1
    omega
  rw [h1, dsub_mod_right]
  rw [dsub_offset L (b + t) (s - t) h0]
  exact Nat.mod_eq_of_lt hsL

/-- Membership after a write. -/
theorem mem_set_or (v : List Nat) (i x y : Nat) (h : i < v.length)
    (hm : y ∈ v.set i x) : y ∈ v ∨ y = x := by
  rw [set_decomp v i x h] at hm
  rcases List.mem_append.mp hm with h1 | h1
  · exact Or.inl (List.mem_of_mem_take h1)
  · rcases List.mem_cons.mp h1 with h2 | h2
    · exact Or.inr h2
    · exact Or.inl (List.mem_of_mem_drop h2)

/-- Writing the walked element at the end of its probe walk preserves the
local invariant: the written slot was either empty or held a strictly
poorer occupant, and every slot passed on the walk is live and no closer
to its home than the walk offset. -/
theorem LI_set_walk (hash : Nat → Nat) (inv : Nat) (v : List Nat)
    (c e : Nat) (h0 : 0 < v.length) (hLI : LI hash inv v) (hc : c ≠ inv)
    (he : e < v.length) (hwalk : walkOK hash inv v c e)
    (hplace : slotVal v ((hash c + e) % v.length) = inv ∨
      slotDist hash v ((hash c + e) % v.length) ≤ e) :
    LI hash inv (v.set ((hash c + e) % v.length) c) := by
  set L := v.length with hL
  set i := (hash c + e) % L with hi
  have hiL : i < L := Nat.mod_lt _ h0
  have hwlen : (v.set i c).length = L := by
    rw [List.length_set]
  have hdistI : slotDist hash (v.set i c) i = e := by
    rw [slotDist_set_self hash v i c hiL, ← hL, hi, dsub_offset L _ _ h0]
    exact Nat.mod_eq_of_lt he
  intro q hq hocc hdz
  rw [hwlen] at hq
  set j := (q + 1) % L with hj
  have hjL : j < L := Nat.mod_lt _ h0
  have hql : (q + 1) % (v.set i c).length = j := by
    rw [hwlen, hj]
  rw [hql] at hocc hdz ⊢
  by_cases hji : j = i
  · rw [hji] at hocc hdz ⊢
    rw [hdistI] at hdz ⊢
    have he1 : 1 ≤ e := by omega
    have hL2 : 2 ≤ L := by omega
    have hqi : q ≠ i := by
      intro hqe
      have h2 : (q + 1) % L = q := by rw [← hj, hji, ← hqe]
      have h3 : (q + 1) % L = if q + 1 = L then 0 else q + 1 := by
        split
        · next he2 => rw [he2, Nat.mod_self]
        · exact Nat.mod_eq_of_lt (by omega)
      split at h3 <;> omega
    have hq2 : q = (hash c + (e - 1)) % L := by
      apply mod_succ_inj L q _ hq (Nat.mod_lt _ h0)
      have h5 : hash c + (e - 1) + 1 = hash c + e := by omega
      rw [Nat.mod_add_mod, h5, ← hi, ← hj]
      exact hji
    have hwf := hwalk (e - 1) (by omega)
    rw [← hq2] at hwf
    refine ⟨?_, ?_⟩
    · rw [slotVal_set_ne v i q c (Ne.symm hqi)]
      exact hwf.1
    · rw [slotDist_set_ne hash v i q c (Ne.symm hqi)]
      have h6 := hwf.2.2
      omega
  · by_cases hqi : q = i
    · rw [slotVal_set_ne v i j c (Ne.symm hji)] at hocc
      rw [slotDist_set_ne hash v i j c (Ne.symm hji)] at hdz
      have hold := hLI q hq
      rw [← hj] at hold
      have h5 := hold hocc hdz
      rcases hplace with hiv | hle
      · exfalso
        apply h5.1
        rw [hqi]
        exact hiv
      · refine ⟨?_, ?_⟩
        · rw [hqi, slotVal_set_self v i c hiL]
          exact hc
        · rw [slotDist_set_ne hash v i j c (Ne.symm hji), hqi, hdistI]
          have h6 := h5.2
          rw [hqi] at h6
          omega
    · rw [slotVal_set_ne v i j c (Ne.symm hji)] at hocc
      rw [slotDist_set_ne hash v i j c (Ne.symm hji)] at hdz
      have hold := hLI q hq
      rw [← hj] at hold
      have h5 := hold hocc hdz
      refine ⟨?_, ?_⟩
      · rw [slotVal_set_ne v i q c (Ne.symm hqi)]
        exact h5.1
      · rw [slotDist_set_ne hash v i j c (Ne.symm hji),
          slotDist_set_ne hash v i q c (Ne.symm hqi)]
        exact h5.2

/-- Slot values are the list entries. -/
theorem slotVal_eq_getElem (v : List Nat) (i : Nat) (h : i < v.length) :
    slotVal v i = v[i] := by
  unfold slotVal
  rw [List.getD_eq_getElem?_getD, List.getElem?_eq_getElem h]
  rfl

/-- Membership in the table is occupancy of some slot. -/
theorem mem_iff_slot (v : List Nat) (y : Nat) :
    y ∈ v ↔ ∃ j, j < v.length ∧ slotVal v j = y := by
  constructor
  · intro hm
    obtain ⟨i, hi, he⟩ := List.mem_iff_getElem.mp hm
    exact ⟨i, hi, by rw [slotVal_eq_getElem v i hi]; exact he⟩
  · intro ⟨j, hj, he⟩
    rw [← he]
    exact slotVal_mem v j hj

/-- A table whose live count is below its length has an empty slot. -/
theorem exists_empty_slot (inv : Nat) (v : List Nat)
    (h : liveCount inv v < v.length) :
    ∃ E, E < v.length ∧ slotVal v E = inv := by
  by_contra hno
  push_neg at hno
  have hall : ∀ a ∈ v, (a != inv) = true := by
    intro a ha
    obtain ⟨j, hj, he⟩ := (mem_iff_slot v a).mp ha
    have h2 := hno j hj
    rw [he] at h2
    simpa using h2
  have h3 : liveCount inv v = v.length := by
    unfold liveCount
    rw [List.filter_eq_self.mpr hall]
  omega

/-- Under the local invariant, a search that does not answer `Present`
certifies absence. -/
theorem search_count_zero (hash : Nat → Nat) (inv : Nat) (v : List Nat)
    (value : Nat) (h0 : 0 < v.length) (hLI : LI hash inv v)
    (hval : value ≠ inv)
    (hns : ∀ i, search hash v value inv ≠ some (SearchResult.Present i)) :
    v.count value = 0 := by
  rw [List.count_eq_zero]
  intro hmem
  obtain ⟨j, hj, he⟩ := (mem_iff_slot v value).mp hmem
  have hRH := RHInv_of_LI hash inv v h0 hLI
  obtain ⟨i2, hi2, _, _⟩ := searchLoop_finds hash inv v value h0 hRH hval
    j hj he (v.length + 1) 0 (by omega) (by omega)
  exact hns i2 hi2

/-- In a table with at least two slots, no slot is its own successor. -/
theorem succ_mod_ne (L i : Nat) (hL : 2 ≤ L) (hi : i < L) :
    (i + 1) % L ≠ i := by
  have h3 : (i + 1) % L = if i + 1 = L then 0 else i + 1 := by
    split
    · next he2 => rw [he2, Nat.mod_self]
    · exact Nat.mod_eq_of_lt (by omega)
  split at h3 <;> omega

/-- Live cells and sentinel cells partition the table. -/
theorem liveCount_add_count_inv (inv : Nat) (v : List Nat) :
    liveCount inv v + v.count inv = v.length := by
  induction v with
  | nil => rfl
  | cons x xs ih =>
      unfold liveCount at ih ⊢
      rw [List.filter_cons, List.count_cons, List.length_cons]
      by_cases h : x = inv
      · subst h
        simp only [bne_self_eq_false, Bool.false_eq_true, if_false,
          beq_self_eq_true, if_true]
        omega
      · have h1 : (x != inv) = true := by simpa using h
        have h2 : (x == inv) = false := by simpa using h
        rw [h1, h2]
        simp only [if_true, Bool.false_eq_true, if_false, List.length_cons]
        omega

/-- Two distinct slots holding the same value witness a count of two. -/
theorem count_two_aux (v : List Nat) (i j a : Nat) (hi : i < v.length)
    (hj : j < v.length) (hij : i < j) (hvi : slotVal v i = a)
    (hvj : slotVal v j = a) : 2 ≤ v.count a := by
  have hmem : a ∈ v.take j := by
    refine List.mem_iff_getElem.mpr ⟨i, ?_, ?_⟩
    · rw [List.length_take]
      omega
    · rw [List.getElem_take]
      rw [← slotVal_eq_getElem v i hi]
      exact hvi
  have h1 : v.count a = (v.take j).count a +
      ((slotVal v j) :: v.drop (j + 1)).count a := by
    conv_lhs => rw [self_decomp v j hj]
    rw [List.count_append]
  rw [hvj, List.count_cons] at h1
  simp only [beq_self_eq_true, if_true] at h1
  have h3 : (v.take j).count a ≠ 0 := fun hz =>
    (List.count_eq_zero.mp hz) hmem
  omega

/-- Two distinct slots holding the same value witness a count of two. -/
theorem count_two (v : List Nat) (i j a : Nat) (hi : i < v.length)
    (hj : j < v.length) (hij : i ≠ j) (hvi : slotVal v i = a)
    (hvj : slotVal v j = a) : 2 ≤ v.count a := by
  rcases Nat.lt_or_ge i j with h | h
  · exact count_two_aux v i j a hi hj h hvi hvj
  · exact count_two_aux v j i a hj hi (by omega) hvj hvi

/-- Filling the unique empty slot of a table leaves an at-home occupant:
the slot just after the filled one (the start of the run that followed the
empty slot). -/
theorem full_after_fill (hash : Nat → Nat) (inv : Nat) (v : List Nat)
    (j c : Nat) (h0 : 0 < v.length) (hLI : LI hash inv v)
    (hjL : j < v.length) (hjv : slotVal v j = inv) (hc : c ≠ inv)
    (hfull : liveCount inv v + 1 = v.length) :
    ∃ s, s < v.length ∧ slotVal (v.set j c) s ≠ inv ∧
      slotDist hash (v.set j c) s = 0 := by
  by_cases hL1 : v.length = 1
  · refine ⟨j, by omega, ?_, ?_⟩
    · rw [slotVal_set_self v j c hjL]
      exact hc
    · rw [slotDist_set_self hash v j c hjL]
      unfold dsub
      rw [hL1, Nat.mod_one]
  · have hL2 : 2 ≤ v.length := by omega
    have hcnt1 : v.count inv = 1 := by
      have := liveCount_add_count_inv inv v
      omega
    have hsL : (j + 1) % v.length < v.length := Nat.mod_lt _ h0
    have hsj : (j + 1) % v.length ≠ j := succ_mod_ne v.length j hL2 hjL
    have hocc : slotVal v ((j + 1) % v.length) ≠ inv := by
      intro he
      have h2 := count_two v j ((j + 1) % v.length) inv hjL hsL
        (Ne.symm hsj) hjv he
      omega
    have hdz : slotDist hash v ((j + 1) % v.length) = 0 := by
      by_contra hnz
      have h5 := hLI j hjL
      exact (h5 hocc hnz).1 hjv
    refine ⟨(j + 1) % v.length, hsL, ?_, ?_⟩
    · rw [slotVal_set_ne v j _ c (Ne.symm hsj)]
      exact hocc
    · rw [slotDist_set_ne hash v j _ c (Ne.symm hsj)]
      exact hdz

/-- Entering a steal after a `Richer` exit: writing the searched element
over the richer occupant re-establishes every hypothesis the steal loop
needs for the displaced occupant, preserves the live count, and removes
the displaced occupant from the table. -/
theorem steal_entry (hash : Nat → Nat) (inv : Nat) (v : List Nat)
    (c e j : Nat) (h0 : 0 < v.length) (hLI : LI hash inv v)
    (hnd : nodupLive inv v) (hc : c ≠ inv) (hcnt : v.count c = 0)
    (hje : j = (hash c + e) % v.length) (heLt : e < v.length)
    (hjocc : slotVal v j ≠ inv) (hjne : slotVal v j ≠ c)
    (hjd : slotDist hash v j < e) (hwalk : walkOK hash inv v c e) :
    LI hash inv (v.set j c) ∧ slotVal (v.set j c) j ≠ inv ∧
    dsub (v.set j c).length j (hash (slotVal v j)) <
      slotDist hash (v.set j c) j ∧
    (∀ t < dsub (v.set j c).length j (hash (slotVal v j)),
      slotVal (v.set j c)
        ((hash (slotVal v j) + t) % (v.set j c).length) ≠ inv ∧
      t ≤ slotDist hash (v.set j c)
        ((hash (slotVal v j) + t) % (v.set j c).length)) ∧
    nodupLive inv (v.set j c) ∧ (v.set j c).count (slotVal v j) = 0 ∧
    liveCount inv (v.set j c) = liveCount inv v := by
  have hjL : j < v.length := by
    rw [hje]
    exact Nat.mod_lt _ h0
  have hdist2 : slotDist hash (v.set j c) j = e := by
    rw [slotDist_set_self hash v j c hjL, hje, dsub_offset _ _ _ h0]
    exact Nat.mod_eq_of_lt heLt
  have hjd2 : slotDist hash v ((hash c + e) % v.length) < e := by
    rw [← hje]
    exact hjd
  have hLI2 : LI hash inv (v.set j c) := by
    have h3 := LI_set_walk hash inv v c e h0 hLI hc heLt hwalk
      (Or.inr (Nat.le_of_lt hjd2))
    rw [← hje] at h3
    exact h3
  have hocc2 : slotVal (v.set j c) j ≠ inv := by
    rw [slotVal_set_self v j c hjL]
    exact hc
  have hdjr : dsub v.length j (hash (slotVal v j)) =
      slotDist hash v j := rfl
  have hrich2 : dsub (v.set j c).length j (hash (slotVal v j)) <
      slotDist hash (v.set j c) j := by
    rw [List.length_set, hdist2, hdjr]
    omega
  have hRH := RHInv_of_LI hash inv v h0 hLI
  have hpre2 : ∀ t < dsub (v.set j c).length j (hash (slotVal v j)),
      slotVal (v.set j c)
        ((hash (slotVal v j) + t) % (v.set j c).length) ≠ inv ∧
      t ≤ slotDist hash (v.set j c)
        ((hash (slotVal v j) + t) % (v.set j c).length) := by
    intro t ht
    rw [List.length_set] at ht ⊢
    rw [hdjr] at ht
    have h9 := dsub_lt v.length j (hash (slotVal v j)) h0
    rw [hdjr] at h9
    have h5 := hRH j hjL hjocc t ht
    set p := (hash (slotVal v j) + t) % v.length with hp
    have hpj : p ≠ j := by
      intro hpe
      have h6 : dsub v.length p (hash (slotVal v j)) = t := by
        rw [hp, dsub_offset _ _ _ h0]
        exact Nat.mod_eq_of_lt (by omega)
      rw [hpe, hdjr] at h6
      omega
    refine ⟨?_, ?_⟩
    · rw [slotVal_set_ne v j p c (Ne.symm hpj)]
      exact h5.1
    · rw [slotDist_set_ne hash v j p c (Ne.symm hpj)]
      exact h5.2
  have hnd2 : nodupLive inv (v.set j c) := by
    intro y hy
    have h2 := count_set_add v j c y hjL
    have h5 := hnd y hy
    by_cases h4 : c = y
    · rw [if_pos h4] at h2
      have h6 : v.count y = 0 := by
        rw [← h4]
        exact hcnt
      split at h2 <;> omega
    · rw [if_neg h4] at h2
      split at h2 <;> omega
  have hcnt2 : (v.set j c).count (slotVal v j) = 0 := by
    have h2 := count_set_add v j c (slotVal v j) hjL
    rw [if_pos rfl, if_neg (fun he2 => hjne he2.symm)] at h2
    have h5 := hnd (slotVal v j) hjocc
    omega
  have hlc2 : liveCount inv (v.set j c) = liveCount inv v := by
    have h1 := liveCount_set inv v j c hjL
    rw [if_pos hjocc, if_pos hc] at h1
    omega
  exact ⟨hLI2, hocc2, hrich2, hpre2, hnd2, hcnt2, hlc2⟩

/-- The loop of `steal` (u64set.rs:2121) succeeds and preserves the table
shape: carrying a displaced element along Richer swaps toward a fixed
empty slot `E`, it terminates at an empty slot, keeps the local invariant,
adds exactly the carried element to the table, and raises the live count
by one.  The hypotheses are exactly what the Richer exit of a search
provides for the displaced occupant. -/
theorem stealLoop_spec (hash : Nat → Nat) (inv E : Nat) :
    ∀ fuel (v : List Nat) (i c : Nat),
      0 < v.length → LI hash inv v → i < v.length → c ≠ inv →
      slotVal v i ≠ inv →
      dsub v.length i (hash c) < slotDist hash v i →
      (∀ t < dsub v.length i (hash c),
        slotVal v ((hash c + t) % v.length) ≠ inv ∧
        t ≤ slotDist hash v ((hash c + t) % v.length)) →
      nodupLive inv v → v.count c = 0 →
      E < v.length → slotVal v E = inv →
      dsub v.length E i < fuel →
      ∃ w, stealLoop hash inv fuel v i c = some w ∧
        w.length = v.length ∧ LI hash inv w ∧
        liveCount inv w = liveCount inv v + 1 ∧
        (∀ y, y ≠ inv → w.count y = v.count y +
          (if y = c then 1 else 0)) ∧
        (liveCount inv w = w.length → ∃ s, s < w.length ∧
          slotVal w s ≠ inv ∧ slotDist hash w s = 0) := by
  intro fuel
  induction fuel with
  | zero =>
      intro v i c h0 hLI hiL hc hocc hricher hpre hnd hcnt hEL hEv hfuel
      omega
  | succ fuel ih =>
      intro v i c h0 hLI hiL hc hocc hricher hpre hnd hcnt hEL hEv hfuel
      have hcnotin : c ∉ v := List.count_eq_zero.mp hcnt
      have hwpre : walkOK hash inv v c (dsub v.length i (hash c)) := by
        intro t ht
        refine ⟨(hpre t ht).1, ?_, (hpre t ht).2⟩
        intro he
        apply hcnotin
        rw [← he]
        exact slotVal_mem v _ (Nat.mod_lt _ h0)
      obtain ⟨r, hr, hcase⟩ := searchFrom_char hash inv v c i h0 hwpre
      rcases hcase with ⟨j, e, hrE, hde, heL, hje, hjv, hwalk⟩ |
        ⟨j, e, hrP, hde, heL, hje, hjv, hwalk⟩ |
        ⟨j, e, hrR, hde, heL, hje, hjocc, hjne, hjd, hwalk⟩
      · subst hrE
        have key : stealLoop hash inv (fuel + 1) v i c =
            some (v.set j c) := by
          simp only [stealLoop]
          rw [hr]
        have hjL : j < v.length := by
          rw [hje]
          exact Nat.mod_lt _ h0
        have hjv2 : slotVal v ((hash c + e) % v.length) = inv := by
          rw [← hje]
          exact hjv
        have hLIw := LI_set_walk hash inv v c e h0 hLI hc heL hwalk
          (Or.inl hjv2)
        rw [← hje] at hLIw
        refine ⟨v.set j c, key, List.length_set v j c, hLIw, ?_, ?_, ?_⟩
        · have h1 := liveCount_set inv v j c hjL
          rw [if_neg (fun hcon => hcon hjv), if_pos hc] at h1
          omega
        · intro y hy
          have h2 := count_set_add v j c y hjL
          have hjy : ¬ slotVal v j = y := by
            rw [hjv]
            exact fun he2 => hy he2.symm
          by_cases hyc : y = c
          · rw [if_pos hyc]
            rw [if_neg hjy, if_pos hyc.symm] at h2
            omega
          · rw [if_neg hyc]
            rw [if_neg hjy, if_neg (fun he2 => hyc he2.symm)] at h2
            omega
        · intro hfull
          rw [List.length_set] at hfull
          have h1 := liveCount_set inv v j c hjL
          rw [if_neg (fun hcon => hcon hjv), if_pos hc] at h1
          have hfull2 : liveCount inv v + 1 = v.length := by omega
          obtain ⟨s, hs1, hs2, hs3⟩ := full_after_fill hash inv v j c h0
            hLI hjL hjv hc hfull2
          exact ⟨s, by rw [List.length_set]; exact hs1, hs2, hs3⟩
      · exfalso
        apply hcnotin
        rw [← hjv]
        exact slotVal_mem v j (by rw [hje]; exact Nat.mod_lt _ h0)
      · subst hrR
        have key : stealLoop hash inv (fuel + 1) v i c =
            stealLoop hash inv fuel (v.set j c) j (v.getD j 0) := by
          simp only [stealLoop]
          rw [hr]
        have hjL : j < v.length := by
          rw [hje]
          exact Nat.mod_lt _ h0
        have heLt : e < v.length := by
          by_contra hge
          have h3 := hwalk (dsub v.length E (hash c))
            (by have := dsub_lt v.length E (hash c) h0; omega)
          rw [dsub_recover _ E _ h0 hEL] at h3
          exact h3.1 hEv
        obtain ⟨hLI2, hocc2, hrich2, hpre2, hnd2, hcnt2, hlc2⟩ :=
          steal_entry hash inv v c e j h0 hLI hnd hc hcnt hje heLt hjocc
            hjne hjd hwalk
        have h0' : 0 < (v.set j c).length := by
          rw [List.length_set]
          exact h0
        have hjLset : j < (v.set j c).length := by
          rw [List.length_set]
          exact hjL
        have hEL2 : E < (v.set j c).length := by
          rw [List.length_set]
          exact hEL
        have hEv2 : slotVal (v.set j c) E = inv := by
          have hEj : j ≠ E := fun he2 => hjocc (by rw [he2]; exact hEv)
          rw [slotVal_set_ne v j E c hEj]
          exact hEv
        have hfuel2 : dsub (v.set j c).length E j < fuel := by
          rw [List.length_set]
          have htE := dsub_lt v.length E (hash c) h0
          have hd0 := dsub_lt v.length i (hash c) h0
          have haa : dsub v.length i (hash c) < e := by
            rcases Nat.lt_or_ge (dsub v.length i (hash c)) e with h5 | h5
            · exact h5
            · exfalso
              have h6 : e = dsub v.length i (hash c) := by omega
              have h7 : j = i := by
                rw [hje, h6]
                exact dsub_recover _ i _ h0 hiL
              rw [h7] at hjd
              omega
          have hbb : e ≤ dsub v.length E (hash c) := by
            by_contra h5
            push_neg at h5
            have h6 := hwalk _ h5
            rw [dsub_recover _ E _ h0 hEL] at h6
            exact h6.1 hEv
          have hEi : dsub v.length E i =
              dsub v.length E (hash c) - dsub v.length i (hash c) := by
            conv_lhs => rw [← dsub_recover v.length E (hash c) h0 hEL,
              ← dsub_recover v.length i (hash c) h0 hiL]
            exact dsub_offsets v.length (hash c) _ _ h0 (by omega) (by omega)
          have hEj2 : dsub v.length E j =
              dsub v.length E (hash c) - e := by
            conv_lhs => rw [← dsub_recover v.length E (hash c) h0 hEL, hje]
            exact dsub_offsets v.length (hash c) _ _ h0 (by omega) (by omega)
          omega
        obtain ⟨w, hw, hwlen, hwLI, hwlc, hwcnt, hwstop⟩ := ih (v.set j c) j
          (slotVal v j) h0' hLI2 hjLset hjocc hocc2 hrich2 hpre2 hnd2
          hcnt2 hEL2 hEv2 hfuel2
        refine ⟨w, by rw [key]; exact hw, ?_, hwLI, ?_, ?_, hwstop⟩
        · rw [hwlen, List.length_set]
        · rw [hwlc, hlc2]
        · intro y hy
          have h8 := hwcnt y hy
          have h7 := count_set_add v j c y hjL
          by_cases h5 : y = slotVal v j
          · have h6 : y ≠ c := by
              rw [h5]
              exact hjne
            rw [if_neg h6]
            rw [if_pos h5.symm, if_neg (fun he2 => h6 he2.symm)] at h7
            rw [if_pos h5] at h8
            omega
          · rw [if_neg (fun he2 => h5 he2.symm)] at h7
            rw [if_neg h5] at h8
            by_cases h9 : y = c
            · rw [if_pos h9]
              rw [if_pos h9.symm] at h7
              omega
            · rw [if_neg h9]
              rw [if_neg (fun he2 => h9 he2.symm)] at h7
              omega

/-- The heap-arm insert body succeeds on a table with a free slot and
preserves the invariants: either the value was present (nothing changes,
`Ok(false)` of the source) or it was absent and is added exactly once
(`Ok(true)`), raising the live count by one. -/
theorem tableInsert_spec (hash : Nat → Nat) (inv : Nat) (v : List Nat)
    (value : Nat) (h0 : 0 < v.length) (hLI : LI hash inv v)
    (hnd : nodupLive inv v) (hval : value ≠ inv)
    (hroom : liveCount inv v < v.length) :
    ∃ w b, tableInsert hash inv v value = some (w, b) ∧
      w.length = v.length ∧ LI hash inv w ∧ nodupLive inv w ∧
      ((b = false ∧ w = v ∧ v.count value = 1) ∨
       (b = true ∧ v.count value = 0 ∧
        liveCount inv w = liveCount inv v + 1 ∧
        ∀ y, y ≠ inv → w.count y = v.count y +
          (if y = value then 1 else 0))) ∧
      (liveCount inv w = w.length → ∃ s, s < w.length ∧
        slotVal w s ≠ inv ∧ slotDist hash w s = 0) := by
  obtain ⟨E, hEL, hEv⟩ := exists_empty_slot inv v hroom
  obtain ⟨r, hr, hcase⟩ := search_char hash inv v value h0
  rcases hcase with ⟨j, e, hrE, heL, hje, hjv, hwalk⟩ |
    ⟨j, e, hrP, heL, hje, hjv, hwalk⟩ |
    ⟨j, e, hrR, heL, hje, hjocc, hjne, hjd, hwalk⟩
  · subst hrE
    have key : tableInsert hash inv v value = some (v.set j value, true) := by
      simp only [tableInsert, hr]
    have hjL : j < v.length := by
      rw [hje]
      exact Nat.mod_lt _ h0
    have hcnt0 : v.count value = 0 := by
      apply search_count_zero hash inv v value h0 hLI hval
      intro i2 hi2
      rw [hr] at hi2
      simp at hi2
    have hjv2 : slotVal v ((hash value + e) % v.length) = inv := by
      rw [← hje]
      exact hjv
    have hLIw := LI_set_walk hash inv v value e h0 hLI hval heL hwalk
      (Or.inl hjv2)
    rw [← hje] at hLIw
    have hjy : ∀ y, y ≠ inv → ¬ slotVal v j = y := by
      intro y hy
      rw [hjv]
      exact fun he2 => hy he2.symm
    have hcounts : ∀ y, y ≠ inv → (v.set j value).count y = v.count y +
        (if y = value then 1 else 0) := by
      intro y hy
      have h2 := count_set_add v j value y hjL
      by_cases hyc : y = value
      · rw [if_pos hyc]
        rw [if_neg (hjy y hy), if_pos hyc.symm] at h2
        omega
      · rw [if_neg hyc]
        rw [if_neg (hjy y hy), if_neg (fun he2 => hyc he2.symm)] at h2
        omega
    refine ⟨v.set j value, true, key, List.length_set v j value, hLIw, ?_,
      Or.inr ⟨rfl, hcnt0, ?_, hcounts⟩, ?_⟩
    · intro y hy
      rw [hcounts y hy]
      have h5 := hnd y hy
      by_cases hyc : y = value
      · rw [if_pos hyc]
        have h6 : v.count y = 0 := by
          rw [hyc]
          exact hcnt0
        omega
      · rw [if_neg hyc]
        omega
    · have h1 := liveCount_set inv v j value hjL
      rw [if_neg (fun hcon => hcon hjv), if_pos hval] at h1
      omega
    · intro hfull
      rw [List.length_set] at hfull
      have h1 := liveCount_set inv v j value hjL
      rw [if_neg (fun hcon => hcon hjv), if_pos hval] at h1
      have hfull2 : liveCount inv v + 1 = v.length := by omega
      obtain ⟨s, hs1, hs2, hs3⟩ := full_after_fill hash inv v j value h0
        hLI hjL hjv hval hfull2
      exact ⟨s, by rw [List.length_set]; exact hs1, hs2, hs3⟩
  · subst hrP
    have key : tableInsert hash inv v value = some (v, false) := by
      simp only [tableInsert, hr]
    have hjL : j < v.length := by
      rw [hje]
      exact Nat.mod_lt _ h0
    have hmem : value ∈ v := by
      rw [← hjv]
      exact slotVal_mem v j hjL
    have h1 : v.count value ≠ 0 := fun hz => (List.count_eq_zero.mp hz) hmem
    have h2 := hnd value hval
    exact ⟨v, false, key, rfl, hLI, hnd, Or.inl ⟨rfl, rfl, by omega⟩,
      fun hfull => absurd hfull (by omega)⟩
  · subst hrR
    have hjL : j < v.length := by
      rw [hje]
      exact Nat.mod_lt _ h0
    have hcnt0 : v.count value = 0 := by
      apply search_count_zero hash inv v value h0 hLI hval
      intro i2 hi2
      rw [hr] at hi2
      simp at hi2
    have heLt : e < v.length := by
      by_contra hge
      have h3 := hwalk (dsub v.length E (hash value))
        (by have := dsub_lt v.length E (hash value) h0; omega)
      rw [dsub_recover _ E _ h0 hEL] at h3
      exact h3.1 hEv
    obtain ⟨hLI2, hocc2, hrich2, hpre2, hnd2, hcnt2, hlc2⟩ :=
      steal_entry hash inv v value e j h0 hLI hnd hval hcnt0 hje heLt
        hjocc hjne hjd hwalk
    have h0' : 0 < (v.set j value).length := by
      rw [List.length_set]
      exact h0
    have hjLset : j < (v.set j value).length := by
      rw [List.length_set]
      exact hjL
    have hEL2 : E < (v.set j value).length := by
      rw [List.length_set]
      exact hEL
    have hEv2 : slotVal (v.set j value) E = inv := by
      have hEj : j ≠ E := fun he2 => hjocc (by rw [he2]; exact hEv)
      rw [slotVal_set_ne v j E value hEj]
      exact hEv
    have hfuel2 : dsub (v.set j value).length E j <
        (v.set j value).length + 1 := by
      have h3 := dsub_lt (v.set j value).length E j h0'
      omega
    obtain ⟨w, hw, hwlen, hwLI, hwlc, hwcnt, hwstop⟩ := stealLoop_spec hash
      inv E ((v.set j value).length + 1) (v.set j value) j (slotVal v j)
      h0' hLI2 hjLset hjocc hocc2 hrich2 hpre2 hnd2 hcnt2 hEL2 hEv2 hfuel2
    have hw2 : stealLoop hash inv ((v.set j value).length + 1)
        (v.set j value) j (v.getD j 0) = some w := hw
    have key : tableInsert hash inv v value = some (w, true) := by
      simp only [tableInsert, steal, hr]
      rw [hw2]
    have hcounts : ∀ y, y ≠ inv → w.count y = v.count y +
        (if y = value then 1 else 0) := by
      intro y hy
      have h8 := hwcnt y hy
      have h7 := count_set_add v j value y hjL
      by_cases h5 : y = slotVal v j
      · have h6 : y ≠ value := by
          rw [h5]
          exact hjne
        rw [if_neg h6]
        rw [if_pos h5.symm, if_neg (fun he2 => h6 he2.symm)] at h7
        rw [if_pos h5] at h8
        omega
      · rw [if_neg (fun he2 => h5 he2.symm)] at h7
        rw [if_neg h5] at h8
        by_cases h9 : y = value
        · rw [if_pos h9]
          rw [if_pos h9.symm] at h7
          omega
        · rw [if_neg h9]
          rw [if_neg (fun he2 => h9 he2.symm)] at h7
          omega
    refine ⟨w, true, key, ?_, hwLI, ?_, Or.inr ⟨rfl, hcnt0, ?_, hcounts⟩,
      hwstop⟩
    · rw [hwlen, List.length_set]
    · intro y hy
      rw [hcounts y hy]
      have h5 := hnd y hy
      by_cases hyc : y = value
      · rw [if_pos hyc]
        have h6 : v.count y = 0 := by
          rw [hyc]
          exact hcnt0
        omega
      · rw [if_neg hyc]
        omega
    · rw [hwlc, hlc2]

/-- One continue-step of the backward-shift loop re-establishes its two
invariant hypotheses for the shifted state: all pairs not ending at the
new working slot, and the predecessor-link fact at the new working slot. -/
theorem backShift_entry (hash : Nat → Nat) (inv : Nat) (v : List Nat)
    (i : Nat) (h0 : 0 < v.length) (hiL : i < v.length)
    (hLId : ∀ q < v.length, (q + 1) % v.length ≠ i →
      slotVal v ((q + 1) % v.length) ≠ inv →
      slotDist hash v ((q + 1) % v.length) ≠ 0 →
      slotVal v q ≠ inv ∧
      slotDist hash v ((q + 1) % v.length) ≤ slotDist hash v q + 1)
    (hF : ∀ q < v.length, (q + 1) % v.length = i →
      slotDist hash v i ≠ 0 →
      slotVal v q ≠ inv ∧ slotDist hash v i ≤ slotDist hash v q + 1)
    (hip1ne : (i + 1) % v.length ≠ i)
    (hxne : v.getD ((i + 1) % v.length) 0 ≠ inv)
    (hxdist2 : slotDist hash v ((i + 1) % v.length) ≠ 0) :
    (∀ q < (v.set i (v.getD ((i + 1) % v.length) 0)).length,
      (q + 1) % (v.set i (v.getD ((i + 1) % v.length) 0)).length ≠
        (i + 1) % v.length →
      slotVal (v.set i (v.getD ((i + 1) % v.length) 0))
        ((q + 1) % (v.set i (v.getD ((i + 1) % v.length) 0)).length)
        ≠ inv →
      slotDist hash (v.set i (v.getD ((i + 1) % v.length) 0))
        ((q + 1) % (v.set i (v.getD ((i + 1) % v.length) 0)).length)
        ≠ 0 →
      slotVal (v.set i (v.getD ((i + 1) % v.length) 0)) q ≠ inv ∧
      slotDist hash (v.set i (v.getD ((i + 1) % v.length) 0))
          ((q + 1) % (v.set i (v.getD ((i + 1) % v.length) 0)).length) ≤
        slotDist hash (v.set i (v.getD ((i + 1) % v.length) 0)) q + 1) ∧
    (∀ q < (v.set i (v.getD ((i + 1) % v.length) 0)).length,
      (q + 1) % (v.set i (v.getD ((i + 1) % v.length) 0)).length =
        (i + 1) % v.length →
      slotDist hash (v.set i (v.getD ((i + 1) % v.length) 0))
        ((i + 1) % v.length) ≠ 0 →
      slotVal (v.set i (v.getD ((i + 1) % v.length) 0)) q ≠ inv ∧
      slotDist hash (v.set i (v.getD ((i + 1) % v.length) 0))
          ((i + 1) % v.length) ≤
        slotDist hash (v.set i (v.getD ((i + 1) % v.length) 0)) q + 1) := by
  have hdsucc : slotDist hash v ((i + 1) % v.length) =
      (dsub v.length i (hash (v.getD ((i + 1) % v.length) 0)) + 1) %
        v.length := dsub_succ v.length i _
  have hdip : slotDist hash v ((i + 1) % v.length) =
      dsub v.length i (hash (v.getD ((i + 1) % v.length) 0)) + 1 := by
    by_cases h9 : dsub v.length i
        (hash (v.getD ((i + 1) % v.length) 0)) + 1 = v.length
    · exfalso
      apply hxdist2
      rw [hdsucc, h9, Nat.mod_self]
    · rw [hdsucc]
      exact Nat.mod_eq_of_lt (by
        have := dsub_lt v.length i
          (hash (v.getD ((i + 1) % v.length) 0)) h0
        omega)
  refine ⟨?_, ?_⟩
  · intro q hq hqne hocc hdz
    rw [List.length_set] at hq hqne hocc hdz ⊢
    by_cases hji : (q + 1) % v.length = i
    · rw [hji] at hocc hdz ⊢
      have hdui : slotDist hash
          (v.set i (v.getD ((i + 1) % v.length) 0)) i =
          dsub v.length i (hash (v.getD ((i + 1) % v.length) 0)) :=
        slotDist_set_self hash v i _ hiL
      rw [hdui] at hdz ⊢
      obtain ⟨h10a, h10b⟩ := hLId i hiL hip1ne hxne hxdist2
      rw [hdip] at h10b
      have h11 : slotDist hash v i ≠ 0 := by omega
      obtain ⟨h12a, h12b⟩ := hF q hq hji h11
      have hqi : q ≠ i := by
        intro he
        rw [he] at hji
        exact hip1ne hji
      refine ⟨?_, ?_⟩
      · rw [slotVal_set_ne v i q _ (fun he => hqi he.symm)]
        exact h12a
      · rw [slotDist_set_ne hash v i q _ (fun he => hqi he.symm)]
        omega
    · have hqi : q ≠ i := by
        intro he
        apply hqne
        rw [he]
      rw [slotVal_set_ne v i _ _ (fun he => hji he.symm)] at hocc
      rw [slotDist_set_ne hash v i _ _ (fun he => hji he.symm)] at hdz
      have h5 := hLId q hq hji hocc hdz
      refine ⟨?_, ?_⟩
      · rw [slotVal_set_ne v i q _ (fun he => hqi he.symm)]
        exact h5.1
      · rw [slotDist_set_ne hash v i _ _ (fun he => hji he.symm),
          slotDist_set_ne hash v i q _ (fun he => hqi he.symm)]
        exact h5.2
  · intro q hq hqe hdz
    rw [List.length_set] at hq hqe
    have hqieq : q = i := mod_succ_inj v.length q i hq hiL hqe
    subst hqieq
    refine ⟨?_, ?_⟩
    · rw [slotVal_set_self v q _ hiL]
      exact hxne
    · have hd2 : slotDist hash
          (v.set q (v.getD ((q + 1) % v.length) 0))
          ((q + 1) % v.length) =
          slotDist hash v ((q + 1) % v.length) :=
        slotDist_set_ne hash v q _ _ (fun he => hip1ne he.symm)
      rw [hd2, slotDist_set_self hash v q _ hiL, hdsucc]
      exact Nat.mod_le _ _

/-- The backward-shift deletion loop (the common heap-arm loop of
`U64Set::remove`, u64set.rs:968 etc.).  Started at a slot holding a stale
occupant, with the local invariant holding at every pair except the one
ending at that slot, and the predecessor-link fact for the stale slot, it
terminates (an empty slot `E` bounds the shift), restores the full local
invariant, and removes exactly the stale occupant from the table. -/
theorem backShiftLoop_spec (hash : Nat → Nat) (inv E : Nat) :
    ∀ fuel (v : List Nat) (i : Nat),
      0 < v.length → i < v.length → slotVal v i ≠ inv →
      (∀ q < v.length, (q + 1) % v.length ≠ i →
        slotVal v ((q + 1) % v.length) ≠ inv →
        slotDist hash v ((q + 1) % v.length) ≠ 0 →
        slotVal v q ≠ inv ∧
        slotDist hash v ((q + 1) % v.length) ≤ slotDist hash v q + 1) →
      (∀ q < v.length, (q + 1) % v.length = i → slotDist hash v i ≠ 0 →
        slotVal v q ≠ inv ∧ slotDist hash v i ≤ slotDist hash v q + 1) →
      E < v.length → E ≠ i →
      (slotVal v E = inv ∨ slotDist hash v E = 0) →
      dsub v.length E i < fuel →
      ∃ w, backShiftLoop hash inv fuel v i = some w ∧
        w.length = v.length ∧ LI hash inv w ∧
        liveCount inv w + 1 = liveCount inv v ∧
        (∀ y, y ≠ inv →
          w.count y + (if slotVal v i = y then 1 else 0) = v.count y) := by
  intro fuel
  induction fuel with
  | zero =>
      intro v i h0 hiL hstale hLId hF hEL hEne hEv hfuel
      omega
  | succ fuel ih =>
      intro v i h0 hiL hstale hLId hF hEL hEne hEv hfuel
      have hL2 : 2 ≤ v.length := by omega
      have hip1L : (i + 1) % v.length < v.length := Nat.mod_lt _ h0
      have hip1ne : (i + 1) % v.length ≠ i := succ_mod_ne v.length i hL2 hiL
      by_cases hguard : v.getD ((i + 1) % v.length) 0 = inv ∨
          dsub v.length (hash (v.getD ((i + 1) % v.length) 0))
            ((i + 1) % v.length) = 0
      · have key : backShiftLoop hash inv (fuel + 1) v i =
            some (v.set i inv) := by
          simp only [backShiftLoop]
          rw [if_pos hguard]
        refine ⟨v.set i inv, key, List.length_set v i inv, ?_, ?_, ?_⟩
        · intro q hq hocc hdz
          rw [List.length_set] at hq
          have hqj : (q + 1) % (v.set i inv).length = (q + 1) % v.length := by
            rw [List.length_set]
          rw [hqj] at hocc hdz ⊢
          by_cases hji : (q + 1) % v.length = i
          · exfalso
            rw [hji, slotVal_set_self v i inv hiL] at hocc
            exact hocc rfl
          · rw [slotVal_set_ne v i _ inv (fun he => hji he.symm)] at hocc
            rw [slotDist_set_ne hash v i _ inv (fun he => hji he.symm)] at hdz
            by_cases hqi : q = i
            · exfalso
              subst hqi
              rcases hguard with hg | hg
              · exact hocc hg
              · apply hdz
                have h4 := (dsub_eq_zero_iff v.length _ _ h0).mp hg
                exact (dsub_eq_zero_iff v.length _ _ h0).mpr h4.symm
            · have h5 := hLId q hq hji hocc hdz
              refine ⟨?_, ?_⟩
              · rw [slotVal_set_ne v i q inv (fun he => hqi he.symm)]
                exact h5.1
              · rw [slotDist_set_ne hash v i _ inv (fun he => hji he.symm),
                  slotDist_set_ne hash v i q inv (fun he => hqi he.symm)]
                exact h5.2
        · have h1 := liveCount_set inv v i inv hiL
          rw [if_pos hstale, if_neg (fun hcon => hcon rfl)] at h1
          omega
        · intro y hy
          have h2 := count_set_add v i inv y hiL
          have hinvy : ¬ inv = y := fun he => hy he.symm
          rw [if_neg hinvy] at h2
          by_cases hsv : slotVal v i = y
          · rw [if_pos hsv] at h2 ⊢
            omega
          · rw [if_neg hsv] at h2 ⊢
            omega
      · have hxne : v.getD ((i + 1) % v.length) 0 ≠ inv :=
          fun h => hguard (Or.inl h)
        have hxdist : dsub v.length (hash (v.getD ((i + 1) % v.length) 0))
            ((i + 1) % v.length) ≠ 0 := fun h => hguard (Or.inr h)
        have key : backShiftLoop hash inv (fuel + 1) v i =
            backShiftLoop hash inv fuel
              (v.set i (v.getD ((i + 1) % v.length) 0))
              ((i + 1) % v.length) := by
          simp only [backShiftLoop]
          rw [if_neg hguard]
        have hxdist2 : slotDist hash v ((i + 1) % v.length) ≠ 0 := by
          intro h
          apply hxdist
          have h4 := (dsub_eq_zero_iff v.length _ _ h0).mp h
          exact (dsub_eq_zero_iff v.length _ _ h0).mpr h4.symm
        have hdsucc : slotDist hash v ((i + 1) % v.length) =
            (dsub v.length i (hash (v.getD ((i + 1) % v.length) 0)) + 1) %
              v.length := dsub_succ v.length i _
        have hdip : slotDist hash v ((i + 1) % v.length) =
            dsub v.length i (hash (v.getD ((i + 1) % v.length) 0)) + 1 := by
          by_cases h9 : dsub v.length i
              (hash (v.getD ((i + 1) % v.length) 0)) + 1 = v.length
          · exfalso
            apply hxdist2
            rw [hdsucc, h9, Nat.mod_self]
          · rw [hdsucc]
            exact Nat.mod_eq_of_lt (by
              have := dsub_lt v.length i
                (hash (v.getD ((i + 1) % v.length) 0)) h0
              omega)
        have h0' : 0 < (v.set i (v.getD ((i + 1) % v.length) 0)).length := by
          rw [List.length_set]
          exact h0
        have hi'L : (i + 1) % v.length <
            (v.set i (v.getD ((i + 1) % v.length) 0)).length := by
          rw [List.length_set]
          exact hip1L
        have hstale' : slotVal (v.set i (v.getD ((i + 1) % v.length) 0))
            ((i + 1) % v.length) ≠ inv := by
          rw [slotVal_set_ne v i _ _ (fun he => hip1ne he.symm)]
          exact hxne
        have hEL' : E < (v.set i (v.getD ((i + 1) % v.length) 0)).length := by
          rw [List.length_set]
          exact hEL
        have hEip1 : E ≠ (i + 1) % v.length := by
          intro he
          rcases hEv with h | h
          · rw [he] at h
            exact hxne h
          · rw [he] at h
            exact hxdist2 h
        have hEv' : slotVal (v.set i (v.getD ((i + 1) % v.length) 0)) E
            = inv ∨
            slotDist hash (v.set i (v.getD ((i + 1) % v.length) 0)) E
              = 0 := by
          rcases hEv with h | h
          · exact Or.inl (by
              rw [slotVal_set_ne v i E _ (Ne.symm hEne)]
              exact h)
          · exact Or.inr (by
              rw [slotDist_set_ne hash v i E _ (Ne.symm hEne)]
              exact h)
        have hfuel' : dsub
            (v.set i (v.getD ((i + 1) % v.length) 0)).length E
            ((i + 1) % v.length) < fuel := by
          rw [List.length_set]
          have hdEi0 : dsub v.length E i ≠ 0 := by
            intro h
            have h4 := (dsub_eq_zero_iff v.length E i h0).mp h
            rw [Nat.mod_eq_of_lt hEL, Nat.mod_eq_of_lt hiL] at h4
            exact hEne h4
          have hstep : dsub v.length E ((i + 1) % v.length) =
              dsub v.length E i - 1 := by
            conv_lhs => rw [← dsub_recover v.length E i h0 hEL]
            exact dsub_offsets v.length i (dsub v.length E i) 1 h0 (by omega)
              (by have := dsub_lt v.length E i h0; omega)
          omega
        obtain ⟨hA, hB⟩ := backShift_entry hash inv v i h0 hiL hLId hF
          hip1ne hxne hxdist2
        have hrec2 := ih (v.set i (v.getD ((i + 1) % v.length) 0))
          ((i + 1) % v.length) h0' hi'L hstale' hA hB hEL' hEip1 hEv' hfuel'
        obtain ⟨w, hw, hwlen, hwLI, hwlc, hwcnt⟩ := hrec2
        refine ⟨w, by rw [key]; exact hw, ?_, hwLI, ?_, ?_⟩
        · rw [hwlen, List.length_set]
        · have h1 := liveCount_set inv v i
            (v.getD ((i + 1) % v.length) 0) hiL
          rw [if_pos hstale, if_pos hxne] at h1
          omega
        · intro y hy
          have h8 := hwcnt y hy
          have h7 := count_set_add v i (v.getD ((i + 1) % v.length) 0) y hiL
          have hsvu : slotVal (v.set i (v.getD ((i + 1) % v.length) 0))
              ((i + 1) % v.length) = slotVal v ((i + 1) % v.length) :=
            slotVal_set_ne v i _ _ (fun he => hip1ne he.symm)
          have hsv2 : slotVal v ((i + 1) % v.length) =
              v.getD ((i + 1) % v.length) 0 := rfl
          rw [hsvu, hsv2] at h8
          by_cases hc1 : v.getD ((i + 1) % v.length) 0 = y
          · rw [if_pos hc1] at h8 h7
            by_cases hc2 : slotVal v i = y
            · rw [if_pos hc2] at h7 ⊢
              omega
            · rw [if_neg hc2] at h7 ⊢
              omega
          · rw [if_neg hc1] at h8 h7
            by_cases hc2 : slotVal v i = y
            · rw [if_pos hc2] at h7 ⊢
              omega
            · rw [if_neg hc2] at h7 ⊢
              omega

/-- The backward-shift loop as invoked by `U64Set::remove` (fuel one more
than the table length, starting from the slot holding the removed value)
completes on any table satisfying the local invariant, provided a full
table has an at-home occupant.  The stopper is an empty slot when one
exists, the at-home slot otherwise; when the removed element itself is the
at-home occupant, its successor is at probe distance at most one and one
shift step restores an at-home stopper. -/
theorem backShift_from_present (hash : Nat → Nat) (inv : Nat)
    (v : List Nat) (i : Nat) (h0 : 0 < v.length) (hLI : LI hash inv v)
    (hiL : i < v.length) (hstale : slotVal v i ≠ inv)
    (hstop : liveCount inv v = v.length → ∃ s, s < v.length ∧
      slotVal v s ≠ inv ∧ slotDist hash v s = 0) :
    ∃ w, backShiftLoop hash inv (v.length + 1) v i = some w ∧
      w.length = v.length ∧ LI hash inv w ∧
      liveCount inv w + 1 = liveCount inv v ∧
      (∀ y, y ≠ inv →
        w.count y + (if slotVal v i = y then 1 else 0) = v.count y) := by
  have hLId : ∀ q < v.length, (q + 1) % v.length ≠ i →
      slotVal v ((q + 1) % v.length) ≠ inv →
      slotDist hash v ((q + 1) % v.length) ≠ 0 →
      slotVal v q ≠ inv ∧
      slotDist hash v ((q + 1) % v.length) ≤ slotDist hash v q + 1 :=
    fun q hq _ hocc hdz => hLI q hq hocc hdz
  have hF : ∀ q < v.length, (q + 1) % v.length = i →
      slotDist hash v i ≠ 0 →
      slotVal v q ≠ inv ∧ slotDist hash v i ≤ slotDist hash v q + 1 := by
    intro q hq hqe hdz
    have h5 := hLI q hq
    rw [hqe] at h5
    exact h5 hstale hdz
  by_cases hL1 : v.length = 1
  · have hguard : v.getD ((i + 1) % v.length) 0 = inv ∨
        dsub v.length (hash (v.getD ((i + 1) % v.length) 0))
          ((i + 1) % v.length) = 0 := by
      right
      unfold dsub
      rw [hL1, Nat.mod_one]
    have key : backShiftLoop hash inv (v.length + 1) v i =
        some (v.set i inv) := by
      simp only [backShiftLoop]
      rw [if_pos hguard]
    refine ⟨v.set i inv, key, List.length_set v i inv, ?_, ?_, ?_⟩
    · intro q hq hocc hdz
      exfalso
      rw [List.length_set] at hq
      have h3 : (q + 1) % (v.set i inv).length = i := by
        rw [List.length_set, hL1, Nat.mod_one]
        omega
      rw [h3, slotVal_set_self v i inv hiL] at hocc
      exact hocc rfl
    · have h1 := liveCount_set inv v i inv hiL
      rw [if_pos hstale, if_neg (fun hcon => hcon rfl)] at h1
      omega
    · intro y hy
      have h2 := count_set_add v i inv y hiL
      have hinvy : ¬ inv = y := fun he => hy he.symm
      rw [if_neg hinvy] at h2
      by_cases hsv : slotVal v i = y
      · rw [if_pos hsv] at h2 ⊢
        omega
      · rw [if_neg hsv] at h2 ⊢
        omega
  · have hL2 : 2 ≤ v.length := by omega
    have hip1L : (i + 1) % v.length < v.length := Nat.mod_lt _ h0
    have hip1ne : (i + 1) % v.length ≠ i := succ_mod_ne v.length i hL2 hiL
    by_cases hfull : liveCount inv v = v.length
    · have hcnt0 : v.count inv = 0 := by
        have := liveCount_add_count_inv inv v
        omega
      have hnoinv : ∀ p, p < v.length → slotVal v p ≠ inv := by
        intro p hp he
        have hm : inv ∈ v := by
          rw [← he]
          exact slotVal_mem v p hp
        exact (List.count_eq_zero.mp hcnt0) hm
      obtain ⟨s, hsL, hsocc, hsdz⟩ := hstop hfull
      by_cases hsi : s = i
      · have hxne : v.getD ((i + 1) % v.length) 0 ≠ inv :=
          hnoinv ((i + 1) % v.length) hip1L
        by_cases hg2 : dsub v.length
            (hash (v.getD ((i + 1) % v.length) 0)) ((i + 1) % v.length) = 0
        · have hE2 : slotDist hash v ((i + 1) % v.length) = 0 := by
            have h4 := (dsub_eq_zero_iff v.length _ _ h0).mp hg2
            exact (dsub_eq_zero_iff v.length _ _ h0).mpr h4.symm
          exact backShiftLoop_spec hash inv ((i + 1) % v.length)
            (v.length + 1) v i h0 hiL hstale hLId hF hip1L hip1ne
            (Or.inr hE2)
            (by have := dsub_lt v.length ((i + 1) % v.length) i h0; omega)
        · have hxdist2 : slotDist hash v ((i + 1) % v.length) ≠ 0 := by
            intro h
            apply hg2
            have h4 := (dsub_eq_zero_iff v.length _ _ h0).mp h
            exact (dsub_eq_zero_iff v.length _ _ h0).mpr h4.symm
          have hguard : ¬ (v.getD ((i + 1) % v.length) 0 = inv ∨
              dsub v.length (hash (v.getD ((i + 1) % v.length) 0))
                ((i + 1) % v.length) = 0) := by
            intro h
            rcases h with h | h
            · exact hxne h
            · exact hg2 h
          have key : backShiftLoop hash inv (v.length + 1) v i =
              backShiftLoop hash inv v.length
                (v.set i (v.getD ((i + 1) % v.length) 0))
                ((i + 1) % v.length) := by
            simp only [backShiftLoop]
            rw [if_neg hguard]
          have hdi0 : slotDist hash v i = 0 := by
            rw [← hsi]
            exact hsdz
          have h5 := hLI i hiL hxne hxdist2
          have hdist1 : slotDist hash v ((i + 1) % v.length) = 1 := by
            have h6 := h5.2
            rw [hdi0] at h6
            omega
          have hdsucc : slotDist hash v ((i + 1) % v.length) =
              (dsub v.length i (hash (v.getD ((i + 1) % v.length) 0)) + 1) %
                v.length := dsub_succ v.length i _
          have hd0 : dsub v.length i
              (hash (v.getD ((i + 1) % v.length) 0)) = 0 := by
            rw [hdist1] at hdsucc
            have h7 := dsub_lt v.length i
              (hash (v.getD ((i + 1) % v.length) 0)) h0
            by_cases h8 : dsub v.length i
                (hash (v.getD ((i + 1) % v.length) 0)) + 1 = v.length
            · rw [h8, Nat.mod_self] at hdsucc
              omega
            · rw [Nat.mod_eq_of_lt (by omega)] at hdsucc
              omega
          obtain ⟨hA, hB⟩ := backShift_entry hash inv v i h0 hiL hLId hF
            hip1ne hxne hxdist2
          have h0' : 0 <
              (v.set i (v.getD ((i + 1) % v.length) 0)).length := by
            rw [List.length_set]
            exact h0
          have hi'L : (i + 1) % v.length <
              (v.set i (v.getD ((i + 1) % v.length) 0)).length := by
            rw [List.length_set]
            exact hip1L
          have hstale' : slotVal (v.set i (v.getD ((i + 1) % v.length) 0))
              ((i + 1) % v.length) ≠ inv := by
            rw [slotVal_set_ne v i _ _ (fun he => hip1ne he.symm)]
            exact hxne
          have hEL' : i <
              (v.set i (v.getD ((i + 1) % v.length) 0)).length := by
            rw [List.length_set]
            exact hiL
          have hEne' : i ≠ (i + 1) % v.length := Ne.symm hip1ne
          have hEv' : slotVal (v.set i (v.getD ((i + 1) % v.length) 0)) i
              = inv ∨
              slotDist hash (v.set i (v.getD ((i + 1) % v.length) 0)) i
                = 0 := by
            right
            rw [slotDist_set_self hash v i _ hiL]
            exact hd0
          have hfuel' : dsub
              (v.set i (v.getD ((i + 1) % v.length) 0)).length i
              ((i + 1) % v.length) < v.length := by
            rw [List.length_set, dsub_mod_right]
            unfold dsub
            by_cases h : i + 1 = v.length
            · have h2 : (i + 1) % v.length = 0 := by
                rw [h, Nat.mod_self]
              rw [h2, Nat.sub_zero, Nat.add_mod_right,
                Nat.mod_eq_of_lt hiL]
              omega
            · have h2 : (i + 1) % v.length = i + 1 :=
                Nat.mod_eq_of_lt (by omega)
              rw [h2]
              have h3 : i + (v.length - (i + 1)) = v.length - 1 := by omega
              rw [h3, Nat.mod_eq_of_lt (by omega)]
              omega
          obtain ⟨w, hw, hwlen, hwLI, hwlc, hwcnt⟩ :=
            backShiftLoop_spec hash inv i v.length
              (v.set i (v.getD ((i + 1) % v.length) 0))
              ((i + 1) % v.length)
              h0' hi'L hstale' hA hB hEL' hEne' hEv' hfuel'
          refine ⟨w, by rw [key]; exact hw, ?_, hwLI, ?_, ?_⟩
          · rw [hwlen, List.length_set]
          · have h1 := liveCount_set inv v i
              (v.getD ((i + 1) % v.length) 0) hiL
            rw [if_pos hstale, if_pos hxne] at h1
            omega
          · intro y hy
            have h8 := hwcnt y hy
            have h7 := count_set_add v i
              (v.getD ((i + 1) % v.length) 0) y hiL
            have hsvu : slotVal (v.set i (v.getD ((i + 1) % v.length) 0))
                ((i + 1) % v.length) = slotVal v ((i + 1) % v.length) :=
              slotVal_set_ne v i _ _ (fun he => hip1ne he.symm)
            have hsv2 : slotVal v ((i + 1) % v.length) =
                v.getD ((i + 1) % v.length) 0 := rfl
            rw [hsvu, hsv2] at h8
            by_cases hc1 : v.getD ((i + 1) % v.length) 0 = y
            · rw [if_pos hc1] at h8 h7
              by_cases hc2 : slotVal v i = y
              · rw [if_pos hc2] at h7 ⊢
                omega
              · rw [if_neg hc2] at h7 ⊢
                omega
            · rw [if_neg hc1] at h8 h7
              by_cases hc2 : slotVal v i = y
              · rw [if_pos hc2] at h7 ⊢
                omega
              · rw [if_neg hc2] at h7 ⊢
                omega
      · exact backShiftLoop_spec hash inv s (v.length + 1) v i h0 hiL
          hstale hLId hF hsL hsi (Or.inr hsdz)
          (by have := dsub_lt v.length s i h0; omega)
    · have hlt : liveCount inv v < v.length := by
        have h2 : liveCount inv v ≤ v.length := by
          unfold liveCount
          exact List.length_filter_le _ _
        omega
      obtain ⟨E, hEL, hEv⟩ := exists_empty_slot inv v hlt
      have hEne : E ≠ i := by
        intro he
        rw [he] at hEv
        exact hstale hEv
      exact backShiftLoop_spec hash inv E (v.length + 1) v i h0 hiL hstale
        hLId hF hEL hEne (Or.inl hEv)
        (by have := dsub_lt v.length E i h0; omega)

/-- Head case of the live-cell count. -/
theorem liveCount_cons (inv x : Nat) (xs : List Nat) :
    liveCount inv (x :: xs) =
      liveCount inv xs + (if x = inv then 0 else 1) := by
  unfold liveCount
  rw [List.filter_cons]
  by_cases h : x = inv
  · simp [h]
  · simp [h]

/-- Head case of the occurrence count. -/
theorem count_cons_split (x y : Nat) (xs : List Nat) :
    (x :: xs).count y = xs.count y + (if y = x then 1 else 0) := by
  rw [List.count_cons]
  by_cases h : y = x
  · simp [h]
  · have h2 : ¬ x = y := fun he => h he.symm
    simp [h, h2]

/-- A rehash step on a live cell is the insert body with the flag
discarded (the resize arms ignore the result). -/
theorem tableReinsert_eq (hash : Nat → Nat) (inv : Nat) (w : List Nat)
    (x : Nat) (hx : x ≠ inv) :
    tableReinsert hash inv w x =
      (tableInsert hash inv w x).map Prod.fst := by
  unfold tableReinsert tableInsert
  rw [if_neg hx]
  cases hs : search hash w x inv with
  | none => rfl
  | some r =>
      cases r with
      | Present i => rfl
      | Empty i => rfl
      | Richer i =>
          dsimp only
          cases hst : steal hash (w.set i x) i (w.getD i 0) inv with
          | none => rfl
          | some w2 => rfl

/-- The in-place rehash fold of a resize arm: inserting the live cells of
the old array (no duplicates, none already present) into a fresh table
with room for all of them succeeds and produces a table holding exactly
the old live cells, invariant and all. -/
theorem rehashAll_spec (hash : Nat → Nat) (inv : Nat) :
    ∀ (xs w : List Nat),
      0 < w.length → LI hash inv w → nodupLive inv w →
      (∀ y, y ≠ inv → y ∈ xs → w.count y = 0) →
      (∀ y, y ≠ inv → xs.count y ≤ 1) →
      liveCount inv w + liveCount inv xs ≤ w.length →
      (liveCount inv w = w.length → ∃ s, s < w.length ∧
        slotVal w s ≠ inv ∧ slotDist hash w s = 0) →
      ∃ w2, rehashAll hash inv w xs = some w2 ∧
        w2.length = w.length ∧ LI hash inv w2 ∧ nodupLive inv w2 ∧
        liveCount inv w2 = liveCount inv w + liveCount inv xs ∧
        (∀ y, y ≠ inv → w2.count y = w.count y + xs.count y) ∧
        (liveCount inv w2 = w2.length → ∃ s, s < w2.length ∧
          slotVal w2 s ≠ inv ∧ slotDist hash w2 s = 0) := by
  intro xs
  induction xs with
  | nil =>
      intro w h0 hLI hnd hdisj hnodup hload hstop
      exact ⟨w, rfl, rfl, hLI, hnd, rfl, fun y hy => rfl, hstop⟩
  | cons x xs ih =>
      intro w h0 hLI hnd hdisj hnodup hload hstop
      by_cases hxinv : x = inv
      · have key : rehashAll hash inv w (x :: xs) =
            rehashAll hash inv w xs := by
          simp only [rehashAll]
          have h2 : tableReinsert hash inv w x = some w := by
            unfold tableReinsert
            rw [if_pos hxinv]
          rw [h2]
        have hlcx : liveCount inv (x :: xs) = liveCount inv xs := by
          rw [liveCount_cons, if_pos hxinv]
          omega
        obtain ⟨w2, hr, hlen, hLI2, hnd2, hlc, hcnt, hstop2⟩ := ih w h0 hLI
          hnd (fun y hy hm => hdisj y hy (List.mem_cons_of_mem x hm))
          (fun y hy => by
            have h3 := hnodup y hy
            rw [count_cons_split] at h3
            omega)
          (by rw [hlcx] at hload; exact hload) hstop
        refine ⟨w2, by rw [key]; exact hr, hlen, hLI2, hnd2, ?_, ?_, hstop2⟩
        · rw [hlc, hlcx]
        · intro y hy
          have hyx : ¬ y = x := by
            intro he
            rw [he] at hy
            exact hy hxinv
          rw [hcnt y hy, count_cons_split, if_neg hyx]
          omega
      · have hlcx : liveCount inv (x :: xs) = liveCount inv xs + 1 := by
          rw [liveCount_cons, if_neg hxinv]
        have hroom : liveCount inv w < w.length := by
          rw [hlcx] at hload
          omega
        have hcnt0 : w.count x = 0 :=
          hdisj x hxinv (List.mem_cons_self x xs)
        obtain ⟨w2, b, ht, hlen2, hLI2, hnd2, hcase, hstop2⟩ :=
          tableInsert_spec hash inv w x h0 hLI hnd hxinv hroom
        rcases hcase with ⟨_, _, hone⟩ | ⟨hb, _, hlc2, hcnt2⟩
        · rw [hcnt0] at hone
          omega
        · have key : rehashAll hash inv w (x :: xs) =
              rehashAll hash inv w2 xs := by
            simp only [rehashAll]
            rw [tableReinsert_eq hash inv w x hxinv, ht]
            rfl
          have hxcnt1 : xs.count x = 0 := by
            have h3 := hnodup x hxinv
            rw [count_cons_split, if_pos rfl] at h3
            omega
          obtain ⟨w3, hr, hlen3, hLI3, hnd3, hlc3, hcnt3, hstop3⟩ :=
            ih w2 (by rw [hlen2]; exact h0) hLI2 hnd2
            (fun y hy hm => by
              have h4 : w.count y = 0 :=
                hdisj y hy (List.mem_cons_of_mem x hm)
              have hyx : ¬ y = x := by
                intro he
                rw [he] at hm
                have h5 : xs.count x ≠ 0 := fun hz =>
                  (List.count_eq_zero.mp hz) hm
                exact h5 hxcnt1
              rw [hcnt2 y hy, h4, if_neg hyx])
            (fun y hy => by
              have h3 := hnodup y hy
              rw [count_cons_split] at h3
              omega)
            (by rw [hlen2, hlc2]; rw [hlcx] at hload; omega)
            hstop2
          refine ⟨w3, by rw [key]; exact hr, by rw [hlen3, hlen2], hLI3,
            hnd3, ?_, ?_, hstop3⟩
          · rw [hlc3, hlc2, hlcx]
            omega
          · intro y hy
            rw [hcnt3 y hy, hcnt2 y hy, count_cons_split]
            omega

/-- Reading inside a replicated list yields the replicated value. -/
theorem getD_replicate (n i a d : Nat) (h : i < n) :
    (List.replicate n a).getD i d = a := by
  induction n generalizing i with
  | zero => omega
  | succ m ih =>
      cases i with
      | zero => rfl
      | succ j =>
          simp only [List.replicate_succ, List.getD_cons_succ]
          exact ih j (by omega)

/-- An all-sentinel table satisfies the local invariant vacuously. -/
theorem LI_replicate (hash : Nat → Nat) (inv n : Nat) :
    LI hash inv (List.replicate n inv) := by
  intro q hq hocc hdz
  exfalso
  apply hocc
  have hL : (List.replicate n inv).length = n := List.length_replicate ..
  rw [hL] at hq
  rw [hL]
  unfold slotVal
  exact getD_replicate n _ inv 0 (Nat.mod_lt _ (by omega))

/-- An all-sentinel table has no live cells. -/
theorem liveCount_replicate (inv n : Nat) :
    liveCount inv (List.replicate n inv) = 0 := by
  unfold liveCount
  rw [List.filter_replicate]
  simp

/-- An all-sentinel table contains no other value. -/
theorem count_replicate_ne (inv n y : Nat) (h : y ≠ inv) :
    (List.replicate n inv).count y = 0 := by
  rw [List.count_replicate, if_neg (by simpa using Ne.symm h)]

/-- A fresh all-sentinel table is well-formed. -/
theorem WFtable_replicate (hash : Nat → Nat) (inv wbound sz n : Nat)
    (hn : 0 < n) (hw : inv < wbound) (hsz : sz = 0) :
    WFtable hash inv wbound sz (List.replicate n inv) := by
  refine ⟨?_, LI_replicate hash inv n, ?_, ?_, ?_, ?_⟩
  · rw [List.length_replicate]
    exact hn
  · intro y hy
    rw [List.eq_of_mem_replicate hy]
    exact hw
  · intro y hy
    rw [count_replicate_ne inv n y hy]
    omega
  · rw [hsz, liveCount_replicate]
  · intro hfull
    rw [liveCount_replicate, List.length_replicate] at hfull
    omega

/-- The iterator loop run for exactly the number of live cells yields the
live cells in slot order. -/
theorem iterLoop_live (inv : Nat) :
    ∀ s : List Nat, iterLoop inv s (liveCount inv s) =
      some (liveList inv s) := by
  intro s
  induction s with
  | nil => rfl
  | cons x rest ih =>
      by_cases h : x = inv
      · have hlc : liveCount inv (x :: rest) = liveCount inv rest := by
          rw [liveCount_cons, if_pos h]
          omega
        have hll : liveList inv (x :: rest) = liveList inv rest := by
          unfold liveList
          rw [List.filter_cons]
          simp [h]
        rw [hlc, hll]
        cases hn : liveCount inv rest with
        | zero =>
            have h2 : liveList inv rest = [] := by
              unfold liveCount at hn
              exact List.length_eq_zero.mp hn
            rw [h2]
            rfl
        | succ m =>
            simp only [iterLoop, if_pos h]
            rw [← hn, ih]
      · have hlc : liveCount inv (x :: rest) = liveCount inv rest + 1 := by
          rw [liveCount_cons, if_neg h]
        have hll : liveList inv (x :: rest) = x :: liveList inv rest := by
          unfold liveList
          rw [List.filter_cons]
          simp [h]
        rw [hlc, hll]
        simp only [iterLoop, if_neg h]
        rw [ih]
        rfl

/-- The iterator loop over a sentinel-free slice yields the slice. -/
theorem iterLoop_clean (inv : Nat) :
    ∀ s : List Nat, (∀ y ∈ s, y ≠ inv) → iterLoop inv s s.length = some s := by
  intro s
  induction s with
  | nil => intro h; rfl
  | cons x rest ih =>
      intro h
      have hx : x ≠ inv := h x (List.mem_cons_self x rest)
      simp only [List.length_cons, iterLoop, if_neg hx]
      rw [ih (fun y hy => h y (List.mem_cons_of_mem x hy))]
      rfl

/-- The live cells of a table with no duplicate live values are pairwise
distinct. -/
theorem liveList_nodup (inv : Nat) (v : List Nat) (hnd : nodupLive inv v) :
    (liveList inv v).Nodup := by
  rw [List.nodup_iff_count_le_one]
  intro a
  have hsub : (liveList inv v).count a ≤ v.count a :=
    (List.filter_sublist v).count_le a
  by_cases ha : a = inv
  · have h2 : (liveList inv v).count a = 0 := by
      rw [List.count_eq_zero]
      intro hm
      unfold liveList at hm
      have h3 := List.of_mem_filter hm
      simp [ha] at h3
    omega
  · have := hnd a ha
    omega

/-- Membership in the live-cell list. -/
theorem mem_liveList (inv y : Nat) (v : List Nat) :
    y ∈ liveList inv v ↔ y ∈ v ∧ y ≠ inv := by
  unfold liveList
  rw [List.mem_filter]
  simp [bne_iff_ne]

/-- Writing and truncating commute. -/
theorem take_set_comm (v : List Nat) (i x m : Nat) :
    (v.set i x).take m = (v.take m).set i x := by
  apply List.ext_getElem
  · simp [List.length_take, List.length_set]
  · intro j hj hj2
    rw [List.getElem_take]
    by_cases hij : i = j
    · subst hij
      have him : i < m := by
        simp [List.length_set, List.length_take] at hj2
        omega
      have hiv : i < v.length := by
        simp [List.length_set, List.length_take] at hj2
        omega
      rw [List.getElem_set_self, List.getElem_set_self]
    · rw [List.getElem_set_ne hij, List.getElem_set_ne hij,
        List.getElem_take]

/-- Overwriting one cell with a value not present elsewhere keeps the list
duplicate-free. -/
theorem nodup_set_fresh (A : List Nat) (i x : Nat) (hnd : A.Nodup)
    (hx : x ∉ A) : (A.set i x).Nodup := by
  by_cases hi : i < A.length
  · rw [List.nodup_iff_count_le_one] at hnd ⊢
    intro a
    have h2 := count_set_add A i x a hi
    have h3 := hnd a
    by_cases hax : x = a
    · rw [if_pos hax] at h2
      have h4 : A.count a = 0 := by
        rw [List.count_eq_zero]
        rw [← hax]
        exact hx
      split at h2 <;> omega
    · rw [if_neg hax] at h2
      split at h2 <;> omega
  · rw [List.set_eq_of_length_le (by omega)]
    exact hnd

/-- A successful index search lands in bounds on a matching element. -/
theorem findIdx?_some_facts (p : Nat → Bool) :
    ∀ (l : List Nat) (i : Nat), l.findIdx? p = some i →
      i < l.length ∧ p (l.getD i 0) = true := by
  intro l
  induction l with
  | nil => intro i h; simp [List.findIdx?] at h
  | cons x rest ih =>
      intro i h
      rw [List.findIdx?_cons] at h
      by_cases hp : p x
      · rw [if_pos hp] at h
        simp at h
        subst h
        exact ⟨by simp, hp⟩
      · rw [if_neg hp, List.findIdx?_succ] at h
        cases hr : rest.findIdx? p with
        | none =>
            rw [hr] at h
            simp at h
        | some j =>
            rw [hr] at h
            simp at h
            obtain ⟨hjl, hjp⟩ := ih j hr
            rw [← h]
            refine ⟨by simp; omega, ?_⟩
            rw [List.getD_cons_succ]
            exact hjp

/-- Rewriting occurrences of a value by itself is the identity. -/
theorem map_ite_self (a : Nat) (v : List Nat) :
    v.map (fun c => if c = a then a else c) = v := by
  induction v with
  | nil => rfl
  | cons x xs ih =>
      simp only [List.map_cons, ih]
      congr 1
      by_cases h : x = a
      · simp [h]
      · simp [h]

/-- The doubling loop reaches its target given enough fuel. -/
theorem nextPow2Go_ge (n : Nat) :
    ∀ (fuel acc : Nat), n ≤ 2 ^ fuel * acc → n ≤ nextPow2Go n fuel acc := by
  intro fuel
  induction fuel with
  | zero =>
      intro acc h
      simpa using h
  | succ f ih =>
      intro acc h
      unfold nextPow2Go
      by_cases hna : n ≤ acc
      · rw [if_pos hna]
        exact hna
      · rw [if_neg hna]
        apply ih
        rw [pow_succ] at h
        calc n ≤ 2 ^ f * 2 * acc := h
          _ = 2 ^ f * (2 * acc) := by ring

/-- `next_power_of_two` does not round down. -/
theorem nextPow2_ge (n : Nat) : n ≤ nextPow2 n := by
  apply nextPow2Go_ge
  have h := Nat.lt_two_pow n
  omega

/-- `next_power_of_two` is positive. -/
theorem nextPow2_pos (n : Nat) : 0 < nextPow2 n := by
  cases n with
  | zero => decide
  | succ m =>
      have h := nextPow2_ge (m + 1)
      omega

/-- The sizing rule keeps the load bound: a table of raw capacity
`next_pow2(k*11/10)` accommodates `k` live values within `10/11` of its
length, up to the flooring slack. -/
theorem load_of_nextPow2 (k : Nat) :
    11 * k ≤ 10 * nextPow2 (k * 11 / 10) + 9 := by
  have h1 := nextPow2_ge (k * 11 / 10)
  omega

/-- The inline insert body succeeds given room, preserves inline
well-formedness, reports whether the value was new, and appends it to the
prefix exactly on a fresh insert. -/
theorem smallInsert_WF (inv cap sz : Nat) (v : List Nat) (value : Nat)
    (hWF : WFsmall inv cap sz v) (hval : value < inv)
    (hroom : sz < cap) :
    ∃ v2 sz2 b, smallInsert sz v value = some (v2, sz2, b) ∧
      WFsmall inv cap sz2 v2 ∧ v2.length = v.length ∧
      ((b = false ∧ v2 = v ∧ sz2 = sz ∧ value ∈ v.take sz) ∨
       (b = true ∧ sz2 = sz + 1 ∧ value ∉ v.take sz ∧
        v2.take sz2 = v.take sz ++ [value])) := by
  obtain ⟨hlen, hszc, hadm, hnd⟩ := hWF
  by_cases hc : value ∈ v.take sz
  · have hcb : (v.take sz).contains value = true := by
      simpa using hc
    refine ⟨v, sz, false, ?_, ⟨hlen, hszc, hadm, hnd⟩, rfl,
      Or.inl ⟨rfl, rfl, rfl, hc⟩⟩
    unfold smallInsert
    rw [if_pos hcb]
  · have hcb : ¬ ((v.take sz).contains value = true) := by
      simpa using hc
    have hsl : sz < v.length := by omega
    have happ : (v.set sz value).take (sz + 1) = v.take sz ++ [value] := by
      rw [set_decomp v sz value hsl, List.take_append_eq_append_take]
      have hts : (v.take sz).length = sz := by
        rw [List.length_take]
        omega
      rw [hts, List.take_take]
      congr 1
      · congr 1
        omega
      · have h2 : sz + 1 - sz = 1 := by omega
        rw [h2]
        simp
    refine ⟨v.set sz value, sz + 1, true, ?_, ?_, List.length_set v sz value,
      Or.inr ⟨rfl, rfl, hc, happ⟩⟩
    · unfold smallInsert
      rw [if_neg hcb, if_pos hsl]
    · refine ⟨by rw [List.length_set]; exact hlen, by omega, ?_, ?_⟩
      · intro y hy
        rw [happ] at hy
        rcases List.mem_append.mp hy with hy1 | hy1
        · exact hadm y hy1
        · rw [List.mem_singleton.mp hy1]
          exact hval
      · rw [happ]
        refine List.Nodup.append hnd (List.nodup_singleton value) ?_
        intro a ha hb
        rw [List.mem_singleton.mp hb] at ha
        exact hc ha

/-- The inline remove body preserves inline well-formedness: on a hit the
last prefix element is swapped into the hole and the count drops by
one. -/
theorem smallRemove_WF (inv cap sz : Nat) (v : List Nat) (value : Nat)
    (hWF : WFsmall inv cap sz v) :
    ∃ v2 sz2 b, smallRemove sz v value = (v2, sz2, b) ∧
      WFsmall inv cap sz2 v2 ∧ v2.length = v.length ∧
      ((b = false ∧ v2 = v ∧ sz2 = sz ∧ value ∉ v.take sz) ∨
       (b = true ∧ sz2 = sz - 1 ∧ value ∈ v.take sz)) := by
  obtain ⟨hlen, hszc, hadm, hnd⟩ := hWF
  cases hf : (v.take sz).findIdx? (fun y => y == value) with
  | none =>
      have hnm : value ∉ v.take sz := by
        intro hm
        have h2 := List.findIdx?_eq_none_iff.mp hf value hm
        simp at h2
      refine ⟨v, sz, false, ?_, ⟨hlen, hszc, hadm, hnd⟩, rfl,
        Or.inl ⟨rfl, rfl, rfl, hnm⟩⟩
      unfold smallRemove
      rw [hf]
  | some i =>
      obtain ⟨hiL, hip⟩ := findIdx?_some_facts _ _ _ hf
      have htsz : (v.take sz).length = sz := by
        rw [List.length_take]
        omega
      rw [htsz] at hiL
      have hpv : (v.take sz).getD i 0 = value := by
        simpa using hip
      have hmem : value ∈ v.take sz := by
        rw [← hpv]
        apply slotVal_mem
        rw [htsz]
        exact hiL
      have hlast : v.getD (sz - 1) 0 = (v.take sz).getD (sz - 1) 0 := by
        rw [List.getD_eq_getElem?_getD, List.getD_eq_getElem?_getD,
          List.getElem?_take, if_pos (by omega : sz - 1 < sz)]
      have hlmem : v.getD (sz - 1) 0 ∈ v.take sz := by
        rw [hlast]
        apply slotVal_mem
        rw [htsz]
        omega
      have hnp : (v.set i (v.getD (sz - 1) 0)).take (sz - 1) =
          (v.take (sz - 1)).set i (v.getD (sz - 1) 0) :=
        take_set_comm v i _ (sz - 1)
      have htt : v.take (sz - 1) = (v.take sz).take (sz - 1) := by
        rw [List.take_take]
        congr 1
        omega
      have hlnm : v.getD (sz - 1) 0 ∉ v.take (sz - 1) ∨ i = sz - 1 := by
        by_cases hie : i = sz - 1
        · exact Or.inr hie
        · left
          intro hm
          have hc1 : ((v.take sz).take (sz - 1)).count (v.getD (sz - 1) 0)
              ≥ 1 := by
            rw [← htt]
            exact List.count_pos_iff.mpr hm
          have hc2 : ((v.take sz).drop (sz - 1)).count (v.getD (sz - 1) 0)
              ≥ 1 := by
            have hb : sz - 1 < (v.take sz).length := by
              rw [htsz]
              omega
            rw [List.drop_eq_getElem_cons hb]
            have hg : (v.take sz)[sz - 1] = v.getD (sz - 1) 0 := by
              rw [hlast, List.getD_eq_getElem?_getD,
                List.getElem?_eq_getElem hb]
              rfl
            rw [hg, List.count_cons_self]
            omega
          have hnd1 : (v.take sz).count (v.getD (sz - 1) 0) ≤ 1 :=
            List.nodup_iff_count_le_one.mp hnd _
          have hsum : (v.take sz).count (v.getD (sz - 1) 0) =
              ((v.take sz).take (sz - 1)).count (v.getD (sz - 1) 0) +
              ((v.take sz).drop (sz - 1)).count (v.getD (sz - 1) 0) := by
            conv_lhs => rw [← List.take_append_drop (sz - 1) (v.take sz)]
            rw [List.count_append]
          omega
      refine ⟨v.set i (v.getD (sz - 1) 0), sz - 1, true, ?_, ?_,
        List.length_set .., Or.inr ⟨rfl, rfl, hmem⟩⟩
      · unfold smallRemove
        rw [hf]
      · refine ⟨by rw [List.length_set]; exact hlen, by omega, ?_, ?_⟩
        · intro y hy
          rw [hnp] at hy
          by_cases hiA : i < (v.take (sz - 1)).length
          · rcases mem_set_or _ _ _ _ hiA hy with hy1 | hy1
            · apply hadm y
              rw [htt] at hy1
              exact List.mem_of_mem_take hy1
            · apply hadm y
              rw [hy1]
              exact hlmem
          · rw [List.set_eq_of_length_le (by omega)] at hy
            apply hadm y
            rw [htt] at hy
            exact List.mem_of_mem_take hy
        · rw [hnp]
          rcases hlnm with hfresh | hie
          · apply nodup_set_fresh _ _ _ ?_ hfresh
            rw [htt]
            exact hnd.sublist (List.take_sublist _ _)
          · rw [List.set_eq_of_length_le]
            · rw [htt]
              exact hnd.sublist (List.take_sublist _ _)
            · rw [List.length_take]
              omega

/-- Live cells count their value as the whole table does. -/
theorem liveList_count_ne (inv y : Nat) (v : List Nat) (h : y ≠ inv) :
    (liveList inv v).count y = v.count y := by
  unfold liveList
  induction v with
  | nil => rfl
  | cons x xs ih =>
      rw [List.filter_cons]
      by_cases hx : x = inv
      · have hcond : (x != inv) = false := by simp [hx]
        rw [hcond]
        simp only [Bool.false_eq_true, if_false]
        rw [ih, count_cons_split]
        have hyx : ¬ y = x := by
          rw [hx]
          exact h
        rw [if_neg hyx]
        omega
      · have hcond : (x != inv) = true := by simp [hx]
        rw [hcond]
        simp only [if_true]
        rw [count_cons_split, count_cons_split, ih]

/-- The sentinel never appears among the live cells. -/
theorem liveList_count_inv (inv : Nat) (v : List Nat) :
    (liveList inv v).count inv = 0 := by
  rw [List.count_eq_zero]
  intro hm
  exact ((mem_liveList inv inv v).mp hm).2 rfl

/-- Pointwise effect of the sentinel-relocation rewrite. -/
theorem swap_getD (v : List Nat) (oldInv c p : Nat) (hp : p < v.length) :
    (v.map (fun x => if x = oldInv then c else x)).getD p 0 =
      if v.getD p 0 = oldInv then c else v.getD p 0 := by
  rw [List.getD_eq_getElem?_getD,
    List.getElem?_eq_getElem (by simpa using hp), List.getElem_map,
    List.getD_eq_getElem?_getD, List.getElem?_eq_getElem hp]
  rfl

/-- Count bookkeeping of the sentinel-relocation rewrite: old-sentinel
cells all become the fresh value, everything else is untouched, and the
number of live cells (with respect to the new sentinel) is unchanged. -/
theorem swap_counts (oldInv c : Nat) (hcne : c ≠ oldInv) :
    ∀ v : List Nat, v.count c = 0 →
      ((v.map (fun x => if x = oldInv then c else x)).count oldInv = 0 ∧
       (∀ y, y ≠ oldInv → y ≠ c →
         (v.map (fun x => if x = oldInv then c else x)).count y =
           v.count y) ∧
       liveCount c (v.map (fun x => if x = oldInv then c else x)) =
         liveCount oldInv v) := by
  intro v
  induction v with
  | nil => intro h; exact ⟨rfl, fun y _ _ => rfl, rfl⟩
  | cons x xs ih =>
      intro h
      rw [count_cons_split] at h
      have hxc : ¬ c = x := by
        intro he
        rw [if_pos he] at h
        omega
      have hxs0 : xs.count c = 0 := by omega
      obtain ⟨h1, h2, h3⟩ := ih hxs0
      simp only [List.map_cons]
      by_cases hx : x = oldInv
      · rw [if_pos hx]
        refine ⟨?_, ?_, ?_⟩
        · rw [count_cons_split, h1, if_neg ?_]
          intro he
          exact hcne (he.symm ▸ rfl)
        · intro y hy1 hy2
          rw [count_cons_split, count_cons_split]
          rw [h2 y hy1 hy2, if_neg (fun he => hy2 he), if_neg ?_]
          intro he
          rw [hx] at he
          exact hy1 he
        · rw [liveCount_cons, liveCount_cons, if_pos rfl, if_pos hx]
          exact h3
      · rw [if_neg hx]
        refine ⟨?_, ?_, ?_⟩
        · rw [count_cons_split, h1, if_neg ?_]
          intro he
          exact hx he.symm
        · intro y hy1 hy2
          rw [count_cons_split, count_cons_split, h2 y hy1 hy2]
        · rw [liveCount_cons, liveCount_cons,
            if_neg (fun he => hxc he.symm), if_neg hx]
          rw [h3]

/-- The sentinel-relocation rewrite carries the Robin-Hood table
invariants over to the fresh sentinel: lengths, ordering, duplicate
freedom, the live count and the full-table stopper are all preserved. -/
theorem sentinel_swap (hash : Nat → Nat) (t : List Nat) (oldInv c : Nat)
    (hcne : c ≠ oldInv) (hc0 : t.count c = 0) (hLI : LI hash oldInv t)
    (hnd : nodupLive oldInv t)
    (hstop : liveCount oldInv t = t.length → ∃ s, s < t.length ∧
      slotVal t s ≠ oldInv ∧ slotDist hash t s = 0) :
    (t.map (fun x => if x = oldInv then c else x)).length = t.length ∧
    LI hash c (t.map (fun x => if x = oldInv then c else x)) ∧
    nodupLive c (t.map (fun x => if x = oldInv then c else x)) ∧
    liveCount c (t.map (fun x => if x = oldInv then c else x)) =
      liveCount oldInv t ∧
    (liveCount c (t.map (fun x => if x = oldInv then c else x)) =
        (t.map (fun x => if x = oldInv then c else x)).length →
      ∃ s, s < (t.map (fun x => if x = oldInv then c else x)).length ∧
        slotVal (t.map (fun x => if x = oldInv then c else x)) s ≠ c ∧
        slotDist hash (t.map (fun x => if x = oldInv then c else x)) s =
          0) := by
  obtain ⟨h1, h2, h3⟩ := swap_counts oldInv c hcne t hc0
  set m := t.map (fun x => if x = oldInv then c else x) with hm
  have hlen : m.length = t.length := by
    rw [hm]
    exact List.length_map ..
  have hsv : ∀ p, p < t.length →
      slotVal m p = if slotVal t p = oldInv then c else slotVal t p := by
    intro p hp
    unfold slotVal
    rw [hm]
    exact swap_getD t oldInv c p hp
  have hlive : ∀ p, p < t.length → slotVal t p ≠ oldInv →
      slotVal m p = slotVal t p := by
    intro p hp hne
    rw [hsv p hp, if_neg hne]
  have hnc : ∀ p, p < t.length → slotVal t p ≠ c := by
    intro p hp he
    have hmem := slotVal_mem t p hp
    rw [he] at hmem
    rw [List.count_eq_zero] at hc0
    exact hc0 hmem
  have hocc : ∀ p, p < t.length → (slotVal m p ≠ c ↔ slotVal t p ≠ oldInv) := by
    intro p hp
    constructor
    · intro hne he
      apply hne
      rw [hsv p hp, if_pos he]
    · intro hne
      rw [hlive p hp hne]
      exact hnc p hp
  have hdist : ∀ p, p < t.length → slotVal t p ≠ oldInv →
      slotDist hash m p = slotDist hash t p := by
    intro p hp hne
    unfold slotDist
    rw [hlen, hlive p hp hne]
  refine ⟨hlen, ?_, ?_, h3, ?_⟩
  · intro i hi hocc2 hdz2
    rw [hlen] at hi hocc2 hdz2 ⊢
    have h0t : 0 < t.length := by omega
    have hjjL : (i + 1) % t.length < t.length := Nat.mod_lt _ h0t
    have hvjne : slotVal t ((i + 1) % t.length) ≠ oldInv :=
      (hocc _ hjjL).mp hocc2
    have hdzt : slotDist hash t ((i + 1) % t.length) ≠ 0 := by
      rw [← hdist _ hjjL hvjne]
      exact hdz2
    obtain ⟨ha, hb⟩ := hLI i hi hvjne hdzt
    refine ⟨?_, ?_⟩
    · rw [hocc i hi]
      exact ha
    · rw [hdist _ hjjL hvjne, hdist i hi ha]
      exact hb
  · intro y hy
    by_cases hyo : y = oldInv
    · rw [hm] at h1 ⊢
      rw [hyo, h1]
      omega
    · rw [hm] at h2 ⊢
      rw [h2 y hyo hy]
      exact hnd y hyo
  · intro hfull
    rw [h3, hlen] at hfull
    obtain ⟨s, hs1, hs2, hs3⟩ := hstop hfull
    refine ⟨s, by rw [hlen]; exact hs1, ?_, ?_⟩
    · rw [hlive s hs1 hs2]
      exact hnc s hs1
    · rw [hdist s hs1 hs2]
      exact hs3

/-- The last cell of a table-plus-sentinel array is the sentinel. -/
theorem getD_concat_last (t : List Nat) (a : Nat) :
    (t ++ [a]).getD ((t ++ [a]).length - 1) 0 = a := by
  have hl : (t ++ [a]).length = t.length + 1 := by simp
  rw [List.getD_eq_getElem?_getD, hl, Nat.add_sub_cancel,
    List.getElem?_append_right (Nat.le_refl _)]
  simp

/-- `contains` on the relocatable-sentinel form: total for an admissible
non-sentinel value, answering membership in the live table. -/
theorem containsOp_Badu64 (hash : Nat → Nat) (sz : Nat) (t : List Nat)
    (inv x : Nat) (h0 : 0 < t.length) (hLI : LI hash inv t)
    (hxinv : x ≠ inv) (hxN : x < 2 ^ 64) :
    ∃ r, containsOp hash (Data.Badu64 sz (t ++ [inv])) x = some r ∧
      ((∃ i, r = some i) ↔ x ∈ t) := by
  have hget := getD_concat_last t inv
  have hdrop : (t ++ [inv]).dropLast = t := List.dropLast_concat ..
  have hxmod : x % 2 ^ 64 = x := Nat.mod_eq_of_lt hxN
  obtain ⟨r0, hr0, hcase⟩ := search_char hash inv t x h0
  have hred : containsOp hash (Data.Badu64 sz (t ++ [inv])) x =
      match search hash t x inv with
      | none => none
      | some (SearchResult.Present i) => some (some i)
      | some _ => some none := by
    simp only [containsOp]
    rw [hget, if_neg hxinv, hdrop, hxmod]
  rcases hcase with ⟨i, e, hre, _, _, hiv, _⟩ | ⟨i, e, hre, _, _, hiv, _⟩ |
    ⟨i, e, hre, _, _, hiocc, hine, _, _⟩
  · refine ⟨none, ?_, ?_⟩
    · rw [hred, hr0, hre]
    · constructor
      · intro ⟨j, hj⟩
        exact absurd hj (by simp)
      · intro hmemt
        obtain ⟨j, hjL, hjv⟩ := (mem_iff_slot t x).mp hmemt
        obtain ⟨i2, hi2⟩ := (search_mem_iff hash inv t x h0 hLI hxinv).mpr
          ⟨j, hjL, hjv⟩
        rw [hr0, hre] at hi2
        exact absurd (Option.some.inj hi2) (by intro he; cases he)
  · refine ⟨some i, ?_, ?_⟩
    · rw [hred, hr0, hre]
    · constructor
      · intro _
        have hr0p : search hash t x inv =
            some (SearchResult.Present i) := by
          rw [hr0, hre]
        have hprops := searchLoop_present_val hash inv t x h0
          (t.length + 1) 0 i hr0p
        rw [← hiv]
        exact slotVal_mem t i hprops.2.1
      · intro _
        exact ⟨i, rfl⟩
  · refine ⟨none, ?_, ?_⟩
    · rw [hred, hr0, hre]
    · constructor
      · intro ⟨j, hj⟩
        exact absurd hj (by simp)
      · intro hmemt
        obtain ⟨j, hjL, hjv⟩ := (mem_iff_slot t x).mp hmemt
        obtain ⟨i2, hi2⟩ := (search_mem_iff hash inv t x h0 hLI hxinv).mpr
          ⟨j, hjL, hjv⟩
        rw [hr0, hre] at hi2
        exact absurd (Option.some.inj hi2) (by intro he; cases he)

/-- One wrapping decrement in closed form. -/
theorem badFind_next (inv k : Nat) (hk : k + 2 ≤ 2 ^ 64) :
    ((inv + (2 ^ 64 - (k + 1))) % 2 ^ 64 + (2 ^ 64 - 1)) % 2 ^ 64 =
      (inv + (2 ^ 64 - (k + 1 + 1))) % 2 ^ 64 := by
  rw [Nat.mod_add_mod]
  have he : inv + (2 ^ 64 - (k + 1)) + (2 ^ 64 - 1) =
      inv + (2 ^ 64 - (k + 1 + 1)) + 2 ^ 64 := by omega
  rw [he, Nat.add_mod_right]

/-- The wrapping-decrement candidates stay clear of the old sentinel while
fewer than `2^64` steps have been taken. -/
theorem cand_ne_inv (inv k : Nat) (hk : k + 1 < 2 ^ 64) :
    (inv + (2 ^ 64 - (k + 1))) % 2 ^ 64 ≠ inv := by
  intro he
  have h1 := dsub_offset (2 ^ 64) inv (2 ^ 64 - (k + 1)) (by positivity)
  rw [he] at h1
  have h2 : dsub (2 ^ 64) inv inv = 0 := by
    rw [dsub_eq_zero_iff _ _ _ (by positivity)]
  have h3 : (2 ^ 64 - (k + 1)) % 2 ^ 64 = 2 ^ 64 - (k + 1) :=
    Nat.mod_eq_of_lt (by omega)
  omega

/-- The wrapping-decrement candidates are pairwise distinct while fewer
than `2^64` steps have been taken. -/
theorem cand_inj (inv k1 k2 : Nat) (h1 : k1 + 1 < 2 ^ 64)
    (h2 : k2 + 1 < 2 ^ 64)
    (he : (inv + (2 ^ 64 - (k1 + 1))) % 2 ^ 64 =
      (inv + (2 ^ 64 - (k2 + 1))) % 2 ^ 64) : k1 = k2 := by
  have ha := dsub_offset (2 ^ 64) inv (2 ^ 64 - (k1 + 1)) (by positivity)
  have hb := dsub_offset (2 ^ 64) inv (2 ^ 64 - (k2 + 1)) (by positivity)
  rw [he] at ha
  have h3 : (2 ^ 64 - (k1 + 1)) % 2 ^ 64 = 2 ^ 64 - (k1 + 1) :=
    Nat.mod_eq_of_lt (by omega)
  have h4 : (2 ^ 64 - (k2 + 1)) % 2 ^ 64 = 2 ^ 64 - (k2 + 1) :=
    Nat.mod_eq_of_lt (by omega)
  omega

/-- The wrapping-decrement scan of the `Badu64` insert arm either returns
a candidate absent from the table within its fuel, or every candidate it
visited is a live table value. -/
theorem badFind_run (hash : Nat → Nat) (sz : Nat) (t : List Nat)
    (inv : Nat) (h0 : 0 < t.length) (hLI : LI hash inv t) :
    ∀ (fuel k : Nat), k + fuel + 1 < 2 ^ 64 →
      (∃ j, j < fuel ∧
        t.count ((inv + (2 ^ 64 - (k + j + 1))) % 2 ^ 64) = 0 ∧
        badFindInvalid hash (Data.Badu64 sz (t ++ [inv])) fuel
          ((inv + (2 ^ 64 - (k + 1))) % 2 ^ 64) =
          some ((inv + (2 ^ 64 - (k + j + 1))) % 2 ^ 64)) ∨
      (badFindInvalid hash (Data.Badu64 sz (t ++ [inv])) fuel
          ((inv + (2 ^ 64 - (k + 1))) % 2 ^ 64) = none ∧
        ∀ j < fuel, (inv + (2 ^ 64 - (k + j + 1))) % 2 ^ 64 ∈ t) := by
  intro fuel
  induction fuel with
  | zero =>
      intro k hk
      right
      exact ⟨rfl, fun j hj => absurd hj (by omega)⟩
  | succ f ih =>
      intro k hk
      have hcN : (inv + (2 ^ 64 - (k + 1))) % 2 ^ 64 < 2 ^ 64 :=
        Nat.mod_lt _ (by positivity)
      have hcne : (inv + (2 ^ 64 - (k + 1))) % 2 ^ 64 ≠ inv :=
        cand_ne_inv inv k (by omega)
      obtain ⟨r, hr, hri⟩ := containsOp_Badu64 hash sz t inv
        ((inv + (2 ^ 64 - (k + 1))) % 2 ^ 64) h0 hLI hcne hcN
      cases r with
      | none =>
          left
          have hnm : (inv + (2 ^ 64 - (k + 1))) % 2 ^ 64 ∉ t := by
            intro hmem
            obtain ⟨i, hi⟩ := hri.mpr hmem
            cases hi
          refine ⟨0, by omega, ?_, ?_⟩
          · have hidx : k + 0 + 1 = k + 1 := by omega
            rw [hidx]
            exact List.count_eq_zero.mpr hnm
          · simp only [badFindInvalid]
            rw [hr]
      | some i =>
          have hmem : (inv + (2 ^ 64 - (k + 1))) % 2 ^ 64 ∈ t :=
            hri.mp ⟨i, rfl⟩
          have hnext := badFind_next inv k (by omega)
          have hstep : badFindInvalid hash (Data.Badu64 sz (t ++ [inv]))
              (f + 1) ((inv + (2 ^ 64 - (k + 1))) % 2 ^ 64) =
              badFindInvalid hash (Data.Badu64 sz (t ++ [inv])) f
                ((inv + (2 ^ 64 - (k + 1 + 1))) % 2 ^ 64) := by
            simp only [badFindInvalid]
            rw [hr, hnext]
          rcases ih (k + 1) (by omega) with ⟨j, hj, hcount, heq⟩ |
            ⟨hnone, hall⟩
          · left
            have hidx : k + 1 + j + 1 = k + (j + 1) + 1 := by omega
            rw [hidx] at hcount heq
            exact ⟨j + 1, by omega, hcount, by rw [hstep]; exact heq⟩
          · right
            refine ⟨by rw [hstep]; exact hnone, ?_⟩
            intro j hj
            cases j with
            | zero =>
                have hidx : k + 0 + 1 = k + 1 := by omega
                rw [hidx]
                exact hmem
            | succ j2 =>
                have hidx : k + (j2 + 1) + 1 = k + 1 + j2 + 1 := by omega
                rw [hidx]
                exact hall j2 (by omega)

/-- The new-sentinel scan of the `Badu64` insert arm succeeds with its
stated fuel on a well-formed table whose box respects the allocation
limit: pigeonhole over the distinct wrapping-decrement candidates, which
cannot all be among the at most `length` live values. -/
theorem badFindInvalid_spec (hash : Nat → Nat) (sz : Nat) (t : List Nat)
    (inv : Nat) (h0 : 0 < t.length) (hLI : LI hash inv t)
    (halloc : t.length + 4 < 2 ^ 64) :
    ∃ c, badFindInvalid hash (Data.Badu64 sz (t ++ [inv]))
        ((t ++ [inv]).length + 2) ((inv + (2 ^ 64 - 1)) % 2 ^ 64) = some c ∧
      c < 2 ^ 64 ∧ c ≠ inv ∧ t.count c = 0 := by
  have hlen : (t ++ [inv]).length + 2 = t.length + 3 := by simp
  have hone : (inv + (2 ^ 64 - 1)) % 2 ^ 64 =
      (inv + (2 ^ 64 - (0 + 1))) % 2 ^ 64 := rfl
  rw [hlen, hone]
  rcases badFind_run hash sz t inv h0 hLI (t.length + 3) 0 (by omega) with
    ⟨j, hj, hcount, heq⟩ | ⟨_, hall⟩
  · refine ⟨(inv + (2 ^ 64 - (0 + j + 1))) % 2 ^ 64, heq,
      Nat.mod_lt _ (by positivity), ?_, hcount⟩
    have hidx : 0 + j + 1 = j + 1 := by omega
    rw [hidx]
    exact cand_ne_inv inv j (by omega)
  · exfalso
    have hnd : (List.range (t.length + 3)).Nodup := List.nodup_range _
    have hmapnd : ((List.range (t.length + 3)).map
        (fun j => (inv + (2 ^ 64 - (0 + j + 1))) % 2 ^ 64)).Nodup := by
      apply List.Nodup.map_on ?_ hnd
      intro j1 hj1 j2 hj2 hje
      rw [List.mem_range] at hj1 hj2
      have ha : 0 + j1 + 1 = j1 + 1 := by omega
      have hb : 0 + j2 + 1 = j2 + 1 := by omega
      rw [ha, hb] at hje
      exact cand_inj inv j1 j2 (by omega) (by omega) hje
    have hsub : ((List.range (t.length + 3)).map
        (fun j => (inv + (2 ^ 64 - (0 + j + 1))) % 2 ^ 64)).toFinset ⊆
        t.toFinset := by
      intro y hy
      rw [List.mem_toFinset] at hy
      obtain ⟨j, hjm, hje⟩ := List.mem_map.mp hy
      rw [List.mem_range] at hjm
      rw [List.mem_toFinset, ← hje]
      exact hall j hjm
    have hc1 : ((List.range (t.length + 3)).map
        (fun j => (inv + (2 ^ 64 - (0 + j + 1))) % 2 ^ 64)).toFinset.card =
        t.length + 3 := by
      rw [List.toFinset_card_of_nodup hmapnd]
      simp
    have hc2 := Finset.card_le_card hsub
    have hc3 := t.toFinset_card_le
    omega

/-- A search in a nonempty all-sentinel table stops at once with `Empty`
(the empty-slot check precedes the equality check, so this holds even for
the sentinel itself). -/
theorem search_replicate (hash : Nat → Nat) (n : Nat) (hn : 0 < n)
    (elem inv : Nat) :
    search hash (List.replicate n inv) elem inv =
      some (SearchResult.Empty (hash elem % n)) := by
  unfold search
  have hlen : (List.replicate n inv).length = n := List.length_replicate ..
  rw [hlen]
  unfold searchLoop
  have hi : (hash elem + 0) % n < n := Nat.mod_lt _ hn
  simp only [hlen, Nat.add_zero]
  rw [getD_replicate n _ inv 0 (by simpa using hi)]
  simp

/-- The `insert_unchecked` body succeeds on a well-formed state with room
for one more value that fits the representation, and preserves
well-formedness: the representation, raw capacity and remaining room carry
over, the count rises exactly on a fresh insert (reported by the flag),
and at most one occurrence of the truncated value is added. -/
theorem insertUnchecked_WF (hash : Nat → Nat) (d : Data) (x : Nat)
    (hWF : WF hash d) (hfit : valueFits d x) (hroom : roomFor d 1) :
    ∃ d2 b, insertUnchecked hash d x = some (d2, b) ∧ WF hash d2 ∧
      formIdx d2 = formIdx d ∧ rawCapacity d2 = rawCapacity d ∧
      lenD d2 = lenD d + (if b then 1 else 0) ∧
      (∀ y, countD d2 y ≤ countD d y +
        (if y = truncD d x then 1 else 0)) ∧
      (countD d (truncD d x) = 0 → b = true) ∧
      (∀ n, roomFor d (n + 1) → roomFor d2 n) ∧
      (∀ y, valueFits d y → valueFits d2 y) := by
  cases d with
  | Su8 sz v =>
      have hWFs : WFsmall inv8 NUM_U8 sz v := hWF
      have hfx : x < inv8 := hfit
      have hiw : inv8 < 2 ^ 8 := by decide
      have hxm : x % 2 ^ 8 = x := Nat.mod_eq_of_lt (by omega)
      have hroomS : sz < NUM_U8 := by
        have h : sz + 1 ≤ NUM_U8 := hroom
        omega
      obtain ⟨v2, sz2, b, heq, hWF2, hlen2, hcase⟩ :=
        smallInsert_WF inv8 NUM_U8 sz v (x % 2 ^ 8) hWFs
          (by rw [hxm]; exact hfx) hroomS
      refine ⟨Data.Su8 sz2 v2, b, ?_, hWF2, rfl, rfl, ?_, ?_, ?_, ?_, ?_⟩
      . show (smallInsert sz v (x % 2 ^ 8)).map
          (fun r => (Data.Su8 r.2.1 r.1, r.2.2)) = some (Data.Su8 sz2 v2, b)
        rw [heq]
        rfl
      . rcases hcase with ⟨hb, hv2, hs, _⟩ | ⟨hb, hs, _, _⟩ <;> subst hb <;>
          simp [lenD, hs]
      . intro y
        dsimp only [countD, truncD]
        rcases hcase with ⟨hb, hv2, hs, _⟩ | ⟨hb, hs, _, happ⟩
        . subst hv2
          subst hs
          split <;> omega
        . rw [happ, List.count_append]
          have hsing := count_cons_split (x % 2 ^ 8) y []
          simp only [List.count_nil] at hsing
          rw [hsing]
          omega
      . intro hc0
        dsimp only [countD, truncD] at hc0
        rcases hcase with ⟨hb, hv2, hs, hmem⟩ | ⟨hb, _, _, _⟩
        . exfalso
          rw [List.count_eq_zero] at hc0
          exact hc0 hmem
        . exact hb
      . intro n hn
        have hn2 : sz + (n + 1) ≤ NUM_U8 := hn
        show sz2 + n ≤ NUM_U8
        rcases hcase with ⟨_, _, hs, _⟩ | ⟨_, hs, _, _⟩ <;> omega
      . intro y hy
        exact hy
  | Vu8 sz v =>
      obtain ⟨⟨h0, hLI, hwidth, hnd, hszlc, hstop⟩, hload⟩ := hWF
      have hfx : x < inv8 := hfit
      have hiw : inv8 < 2 ^ 8 := by decide
      have hxm : x % 2 ^ 8 = x := Nat.mod_eq_of_lt (by omega)
      have hxi : x % 2 ^ 8 ≠ inv8 := by
        rw [hxm]
        omega
      have hroom1 : 11 * (sz + 1) ≤ 10 * v.length + 9 := hroom
      have hroomT : liveCount inv8 v < v.length := by
        rw [← hszlc]
        omega
      obtain ⟨w, b, heq, hwlen, hLI2, hnd2, hbcase, hstop2⟩ :=
        tableInsert_spec hash inv8 v (x % 2 ^ 8) h0 hLI hnd hxi hroomT
      refine ⟨Data.Vu8 (if b then sz + 1 else sz) w, b, ?_, ?_, rfl, ?_, ?_,
        ?_, ?_, ?_, ?_⟩
      . show (tableInsert hash inv8 v (x % 2 ^ 8)).map
          (fun r => (Data.Vu8 (if r.2 then sz + 1 else sz) r.1, r.2)) =
          some (Data.Vu8 (if b then sz + 1 else sz) w, b)
        rw [heq]
        rfl
      . refine ⟨⟨by rw [hwlen]; exact h0, hLI2, ?_, hnd2, ?_, hstop2⟩, ?_⟩
        . intro y hy
          rcases hbcase with ⟨hb, hwv, _⟩ | ⟨hb, hc0b, hlc, hcounts⟩
          . rw [hwv] at hy
            exact hwidth y hy
          . by_cases hyi : y = inv8
            . rw [hyi]
              omega
            . have hcy := hcounts y hyi
              have hpos : 0 < w.count y := List.count_pos_iff.mpr hy
              by_cases hyx : y = x % 2 ^ 8
              . rw [hyx, hxm]
                omega
              . rw [if_neg hyx] at hcy
                have hyv : y ∈ v := by
                  rw [← List.count_pos_iff]
                  omega
                exact hwidth y hyv
        . rcases hbcase with ⟨hb, hwv, _⟩ | ⟨hb, _, hlc, _⟩
          . subst hb
            rw [hwv]
            simpa using hszlc
          . subst hb
            rw [if_pos rfl, hlc, ← hszlc]
        . rw [hwlen]
          cases b with
          | false => simpa using hload
          | true => simpa using hroom1
      . show w.length = v.length
        exact hwlen
      . cases b <;> simp [lenD]
      . intro y
        dsimp only [countD, truncD]
        by_cases hyi : y = inv8
        . rw [hyi, liveList_count_inv]
          omega
        . rw [liveList_count_ne _ _ _ hyi, liveList_count_ne _ _ _ hyi]
          rcases hbcase with ⟨_, hwv, _⟩ | ⟨_, _, _, hcounts⟩
          . rw [hwv]
            split <;> omega
          . rw [hcounts y hyi]
      . intro hc0
        dsimp only [countD, truncD] at hc0
        rw [liveList_count_ne _ _ _ hxi] at hc0
        rcases hbcase with ⟨hb, _, hcnt1⟩ | ⟨hb, _, _, _⟩
        . omega
        . exact hb
      . intro n hn
        have hn2 : 11 * (sz + (n + 1)) ≤ 10 * v.length + 9 := hn
        show 11 * ((if b then sz + 1 else sz) + n) ≤ 10 * w.length + 9
        rw [hwlen]
        cases b <;> simp <;> omega
      . intro y hy
        exact hy
  | Su16 sz v =>
      have hWFs : WFsmall inv16 NUM_U16 sz v := hWF
      have hfx : x < inv16 := hfit
      have hiw : inv16 < 2 ^ 16 := by decide
      have hxm : x % 2 ^ 16 = x := Nat.mod_eq_of_lt (by omega)
      have hroomS : sz < NUM_U16 := by
        have h : sz + 1 ≤ NUM_U16 := hroom
        omega
      obtain ⟨v2, sz2, b, heq, hWF2, hlen2, hcase⟩ :=
        smallInsert_WF inv16 NUM_U16 sz v (x % 2 ^ 16) hWFs
          (by rw [hxm]; exact hfx) hroomS
      refine ⟨Data.Su16 sz2 v2, b, ?_, hWF2, rfl, rfl, ?_, ?_, ?_, ?_, ?_⟩
      . show (smallInsert sz v (x % 2 ^ 16)).map
          (fun r => (Data.Su16 r.2.1 r.1, r.2.2)) = some (Data.Su16 sz2 v2, b)
        rw [heq]
        rfl
      . rcases hcase with ⟨hb, hv2, hs, _⟩ | ⟨hb, hs, _, _⟩ <;> subst hb <;>
          simp [lenD, hs]
      . intro y
        dsimp only [countD, truncD]
        rcases hcase with ⟨hb, hv2, hs, _⟩ | ⟨hb, hs, _, happ⟩
        . subst hv2
          subst hs
          split <;> omega
        . rw [happ, List.count_append]
          have hsing := count_cons_split (x % 2 ^ 16) y []
          simp only [List.count_nil] at hsing
          rw [hsing]
          omega
      . intro hc0
        dsimp only [countD, truncD] at hc0
        rcases hcase with ⟨hb, hv2, hs, hmem⟩ | ⟨hb, _, _, _⟩
        . exfalso
          rw [List.count_eq_zero] at hc0
          exact hc0 hmem
        . exact hb
      . intro n hn
        have hn2 : sz + (n + 1) ≤ NUM_U16 := hn
        show sz2 + n ≤ NUM_U16
        rcases hcase with ⟨_, _, hs, _⟩ | ⟨_, hs, _, _⟩ <;> omega
      . intro y hy
        exact hy
  | Vu16 sz v =>
      obtain ⟨⟨h0, hLI, hwidth, hnd, hszlc, hstop⟩, hload⟩ := hWF
      have hfx : x < inv16 := hfit
      have hiw : inv16 < 2 ^ 16 := by decide
      have hxm : x % 2 ^ 16 = x := Nat.mod_eq_of_lt (by omega)
      have hxi : x % 2 ^ 16 ≠ inv16 := by
        rw [hxm]
        omega
      have hroom1 : 11 * (sz + 1) ≤ 10 * v.length + 9 := hroom
      have hroomT : liveCount inv16 v < v.length := by
        rw [← hszlc]
        omega
      obtain ⟨w, b, heq, hwlen, hLI2, hnd2, hbcase, hstop2⟩ :=
        tableInsert_spec hash inv16 v (x % 2 ^ 16) h0 hLI hnd hxi hroomT
      refine ⟨Data.Vu16 (if b then sz + 1 else sz) w, b, ?_, ?_, rfl, ?_, ?_,
        ?_, ?_, ?_, ?_⟩
      . show (tableInsert hash inv16 v (x % 2 ^ 16)).map
          (fun r => (Data.Vu16 (if r.2 then sz + 1 else sz) r.1, r.2)) =
          some (Data.Vu16 (if b then sz + 1 else sz) w, b)
        rw [heq]
        rfl
      . refine ⟨⟨by rw [hwlen]; exact h0, hLI2, ?_, hnd2, ?_, hstop2⟩, ?_⟩
        . intro y hy
          rcases hbcase with ⟨hb, hwv, _⟩ | ⟨hb, hc0b, hlc, hcounts⟩
          . rw [hwv] at hy
            exact hwidth y hy
          . by_cases hyi : y = inv16
            . rw [hyi]
              omega
            . have hcy := hcounts y hyi
              have hpos : 0 < w.count y := List.count_pos_iff.mpr hy
              by_cases hyx : y = x % 2 ^ 16
              . rw [hyx, hxm]
                omega
              . rw [if_neg hyx] at hcy
                have hyv : y ∈ v := by
                  rw [← List.count_pos_iff]
                  omega
                exact hwidth y hyv
        . rcases hbcase with ⟨hb, hwv, _⟩ | ⟨hb, _, hlc, _⟩
          . subst hb
            rw [hwv]
            simpa using hszlc
          . subst hb
            rw [if_pos rfl, hlc, ← hszlc]
        . rw [hwlen]
          cases b with
          | false => simpa using hload
          | true => simpa using hroom1
      . show w.length = v.length
        exact hwlen
      . cases b <;> simp [lenD]
      . intro y
        dsimp only [countD, truncD]
        by_cases hyi : y = inv16
        . rw [hyi, liveList_count_inv]
          omega
        . rw [liveList_count_ne _ _ _ hyi, liveList_count_ne _ _ _ hyi]
          rcases hbcase with ⟨_, hwv, _⟩ | ⟨_, _, _, hcounts⟩
          . rw [hwv]
            split <;> omega
          . rw [hcounts y hyi]
      . intro hc0
        dsimp only [countD, truncD] at hc0
        rw [liveList_count_ne _ _ _ hxi] at hc0
        rcases hbcase with ⟨hb, _, hcnt1⟩ | ⟨hb, _, _, _⟩
        . omega
        . exact hb
      . intro n hn
        have hn2 : 11 * (sz + (n + 1)) ≤ 10 * v.length + 9 := hn
        show 11 * ((if b then sz + 1 else sz) + n) ≤ 10 * w.length + 9
        rw [hwlen]
        cases b <;> simp <;> omega
      . intro y hy
        exact hy
  | Su32 sz v =>
      have hWFs : WFsmall inv32 NUM_U32 sz v := hWF
      have hfx : x < inv32 := hfit
      have hiw : inv32 < 2 ^ 32 := by decide
      have hxm : x % 2 ^ 32 = x := Nat.mod_eq_of_lt (by omega)
      have hroomS : sz < NUM_U32 := by
        have h : sz + 1 ≤ NUM_U32 := hroom
        omega
      obtain ⟨v2, sz2, b, heq, hWF2, hlen2, hcase⟩ :=
        smallInsert_WF inv32 NUM_U32 sz v (x % 2 ^ 32) hWFs
          (by rw [hxm]; exact hfx) hroomS
      refine ⟨Data.Su32 sz2 v2, b, ?_, hWF2, rfl, rfl, ?_, ?_, ?_, ?_, ?_⟩
      . show (smallInsert sz v (x % 2 ^ 32)).map
          (fun r => (Data.Su32 r.2.1 r.1, r.2.2)) = some (Data.Su32 sz2 v2, b)
        rw [heq]
        rfl
      . rcases hcase with ⟨hb, hv2, hs, _⟩ | ⟨hb, hs, _, _⟩ <;> subst hb <;>
          simp [lenD, hs]
      . intro y
        dsimp only [countD, truncD]
        rcases hcase with ⟨hb, hv2, hs, _⟩ | ⟨hb, hs, _, happ⟩
        . subst hv2
          subst hs
          split <;> omega
        . rw [happ, List.count_append]
          have hsing := count_cons_split (x % 2 ^ 32) y []
          simp only [List.count_nil] at hsing
          rw [hsing]
          omega
      . intro hc0
        dsimp only [countD, truncD] at hc0
        rcases hcase with ⟨hb, hv2, hs, hmem⟩ | ⟨hb, _, _, _⟩
        . exfalso
          rw [List.count_eq_zero] at hc0
          exact hc0 hmem
        . exact hb
      . intro n hn
        have hn2 : sz + (n + 1) ≤ NUM_U32 := hn
        show sz2 + n ≤ NUM_U32
        rcases hcase with ⟨_, _, hs, _⟩ | ⟨_, hs, _, _⟩ <;> omega
      . intro y hy
        exact hy
  | Vu32 sz v =>
      obtain ⟨⟨h0, hLI, hwidth, hnd, hszlc, hstop⟩, hload⟩ := hWF
      have hfx : x < inv32 := hfit
      have hiw : inv32 < 2 ^ 32 := by decide
      have hxm : x % 2 ^ 32 = x := Nat.mod_eq_of_lt (by omega)
      have hxi : x % 2 ^ 32 ≠ inv32 := by
        rw [hxm]
        omega
      have hroom1 : 11 * (sz + 1) ≤ 10 * v.length + 9 := hroom
      have hroomT : liveCount inv32 v < v.length := by
        rw [← hszlc]
        omega
      obtain ⟨w, b, heq, hwlen, hLI2, hnd2, hbcase, hstop2⟩ :=
        tableInsert_spec hash inv32 v (x % 2 ^ 32) h0 hLI hnd hxi hroomT
      refine ⟨Data.Vu32 (if b then sz + 1 else sz) w, b, ?_, ?_, rfl, ?_, ?_,
        ?_, ?_, ?_, ?_⟩
      . show (tableInsert hash inv32 v (x % 2 ^ 32)).map
          (fun r => (Data.Vu32 (if r.2 then sz + 1 else sz) r.1, r.2)) =
          some (Data.Vu32 (if b then sz + 1 else sz) w, b)
        rw [heq]
        rfl
      . refine ⟨⟨by rw [hwlen]; exact h0, hLI2, ?_, hnd2, ?_, hstop2⟩, ?_⟩
        . intro y hy
          rcases hbcase with ⟨hb, hwv, _⟩ | ⟨hb, hc0b, hlc, hcounts⟩
          . rw [hwv] at hy
            exact hwidth y hy
          . by_cases hyi : y = inv32
            . rw [hyi]
              omega
            . have hcy := hcounts y hyi
              have hpos : 0 < w.count y := List.count_pos_iff.mpr hy
              by_cases hyx : y = x % 2 ^ 32
              . rw [hyx, hxm]
                omega
              . rw [if_neg hyx] at hcy
                have hyv : y ∈ v := by
                  rw [← List.count_pos_iff]
                  omega
                exact hwidth y hyv
        . rcases hbcase with ⟨hb, hwv, _⟩ | ⟨hb, _, hlc, _⟩
          . subst hb
            rw [hwv]
            simpa using hszlc
          . subst hb
            rw [if_pos rfl, hlc, ← hszlc]
        . rw [hwlen]
          cases b with
          | false => simpa using hload
          | true => simpa using hroom1
      . show w.length = v.length
        exact hwlen
      . cases b <;> simp [lenD]
      . intro y
        dsimp only [countD, truncD]
        by_cases hyi : y = inv32
        . rw [hyi, liveList_count_inv]
          omega
        . rw [liveList_count_ne _ _ _ hyi, liveList_count_ne _ _ _ hyi]
          rcases hbcase with ⟨_, hwv, _⟩ | ⟨_, _, _, hcounts⟩
          . rw [hwv]
            split <;> omega
          . rw [hcounts y hyi]
      . intro hc0
        dsimp only [countD, truncD] at hc0
        rw [liveList_count_ne _ _ _ hxi] at hc0
        rcases hbcase with ⟨hb, _, hcnt1⟩ | ⟨hb, _, _, _⟩
        . omega
        . exact hb
      . intro n hn
        have hn2 : 11 * (sz + (n + 1)) ≤ 10 * v.length + 9 := hn
        show 11 * ((if b then sz + 1 else sz) + n) ≤ 10 * w.length + 9
        rw [hwlen]
        cases b <;> simp <;> omega
      . intro y hy
        exact hy
  | Su64 sz v =>
      have hWFs : WFsmall inv64 NUM_U64 sz v := hWF
      have hfx : x < inv64 := hfit
      have hiw : inv64 < 2 ^ 64 := by decide
      have hxm : x % 2 ^ 64 = x := Nat.mod_eq_of_lt (by omega)
      have hroomS : sz < NUM_U64 := by
        have h : sz + 1 ≤ NUM_U64 := hroom
        omega
      obtain ⟨v2, sz2, b, heq, hWF2, hlen2, hcase⟩ :=
        smallInsert_WF inv64 NUM_U64 sz v (x % 2 ^ 64) hWFs
          (by rw [hxm]; exact hfx) hroomS
      refine ⟨Data.Su64 sz2 v2, b, ?_, hWF2, rfl, rfl, ?_, ?_, ?_, ?_, ?_⟩
      . show (smallInsert sz v (x % 2 ^ 64)).map
          (fun r => (Data.Su64 r.2.1 r.1, r.2.2)) = some (Data.Su64 sz2 v2, b)
        rw [heq]
        rfl
      . rcases hcase with ⟨hb, hv2, hs, _⟩ | ⟨hb, hs, _, _⟩ <;> subst hb <;>
          simp [lenD, hs]
      . intro y
        dsimp only [countD, truncD]
        rcases hcase with ⟨hb, hv2, hs, _⟩ | ⟨hb, hs, _, happ⟩
        . subst hv2
          subst hs
          split <;> omega
        . rw [happ, List.count_append]
          have hsing := count_cons_split (x % 2 ^ 64) y []
          simp only [List.count_nil] at hsing
          rw [hsing]
          omega
      . intro hc0
        dsimp only [countD, truncD] at hc0
        rcases hcase with ⟨hb, hv2, hs, hmem⟩ | ⟨hb, _, _, _⟩
        . exfalso
          rw [List.count_eq_zero] at hc0
          exact hc0 hmem
        . exact hb
      . intro n hn
        have hn2 : sz + (n + 1) ≤ NUM_U64 := hn
        show sz2 + n ≤ NUM_U64
        rcases hcase with ⟨_, _, hs, _⟩ | ⟨_, hs, _, _⟩ <;> omega
      . intro y hy
        exact hy
  | Vu64 sz v =>
      obtain ⟨⟨h0, hLI, hwidth, hnd, hszlc, hstop⟩, hload⟩ := hWF
      have hfx : x < inv64 := hfit
      have hiw : inv64 < 2 ^ 64 := by decide
      have hxm : x % 2 ^ 64 = x := Nat.mod_eq_of_lt (by omega)
      have hxi : x % 2 ^ 64 ≠ inv64 := by
        rw [hxm]
        omega
      have hroom1 : 11 * (sz + 1) ≤ 10 * v.length + 9 := hroom
      have hroomT : liveCount inv64 v < v.length := by
        rw [← hszlc]
        omega
      obtain ⟨w, b, heq, hwlen, hLI2, hnd2, hbcase, hstop2⟩ :=
        tableInsert_spec hash inv64 v (x % 2 ^ 64) h0 hLI hnd hxi hroomT
      refine ⟨Data.Vu64 (if b then sz + 1 else sz) w, b, ?_, ?_, rfl, ?_, ?_,
        ?_, ?_, ?_, ?_⟩
      . show (tableInsert hash inv64 v (x % 2 ^ 64)).map
          (fun r => (Data.Vu64 (if r.2 then sz + 1 else sz) r.1, r.2)) =
          some (Data.Vu64 (if b then sz + 1 else sz) w, b)
        rw [heq]
        rfl
      . refine ⟨⟨by rw [hwlen]; exact h0, hLI2, ?_, hnd2, ?_, hstop2⟩, ?_⟩
        . intro y hy
          rcases hbcase with ⟨hb, hwv, _⟩ | ⟨hb, hc0b, hlc, hcounts⟩
          . rw [hwv] at hy
            exact hwidth y hy
          . by_cases hyi : y = inv64
            . rw [hyi]
              omega
            . have hcy := hcounts y hyi
              have hpos : 0 < w.count y := List.count_pos_iff.mpr hy
              by_cases hyx : y = x % 2 ^ 64
              . rw [hyx, hxm]
                omega
              . rw [if_neg hyx] at hcy
                have hyv : y ∈ v := by
                  rw [← List.count_pos_iff]
                  omega
                exact hwidth y hyv
        . rcases hbcase with ⟨hb, hwv, _⟩ | ⟨hb, _, hlc, _⟩
          . subst hb
            rw [hwv]
            simpa using hszlc
          . subst hb
            rw [if_pos rfl, hlc, ← hszlc]
        . rw [hwlen]
          cases b with
          | false => simpa using hload
          | true => simpa using hroom1
      . show w.length = v.length
        exact hwlen
      . cases b <;> simp [lenD]
      . intro y
        dsimp only [countD, truncD]
        by_cases hyi : y = inv64
        . rw [hyi, liveList_count_inv]
          omega
        . rw [liveList_count_ne _ _ _ hyi, liveList_count_ne _ _ _ hyi]
          rcases hbcase with ⟨_, hwv, _⟩ | ⟨_, _, _, hcounts⟩
          . rw [hwv]
            split <;> omega
          . rw [hcounts y hyi]
      . intro hc0
        dsimp only [countD, truncD] at hc0
        rw [liveList_count_ne _ _ _ hxi] at hc0
        rcases hbcase with ⟨hb, _, hcnt1⟩ | ⟨hb, _, _, _⟩
        . omega
        . exact hb
      . intro n hn
        have hn2 : 11 * (sz + (n + 1)) ≤ 10 * v.length + 9 := hn
        show 11 * ((if b then sz + 1 else sz) + n) ≤ 10 * w.length + 9
        rw [hwlen]
        cases b <;> simp <;> omega
      . intro y hy
        exact hy
  | Badu64 sz v =>
      obtain ⟨t, inv, hv, hinvN, ⟨h0, hLI, hwidth, hnd, hszlc, hstop⟩,
        hload, halloc⟩ := hWF
      subst hv
      have hgetd : (t ++ [inv]).getD ((t ++ [inv]).length - 1) 0 = inv :=
        getD_concat_last t inv
      have hdropc : (t ++ [inv]).dropLast = t := List.dropLast_concat ..
      have hroomB : 11 * (sz + 1 + 1) ≤ 10 * (t ++ [inv]).length + 9 := hroom
      have hlenc : (t ++ [inv]).length = t.length + 1 := by simp
      have hroomT : liveCount inv t < t.length := by
        rw [← hszlc]
        rw [hlenc] at hroomB
        omega
      have hA : ALLOC_U64 = 2 ^ 60 - 1 := rfl
      by_cases hvi : x % 2 ^ 64 = inv
      . obtain ⟨c, hfind, hcN, hcne, hc0⟩ :=
          badFindInvalid_spec hash sz t inv h0 hLI (by omega)
        obtain ⟨hmlen, hLIm, hndm, hlcm, hstopm⟩ :=
          sentinel_swap hash t inv c hcne hc0 hLI hnd hstop
        obtain ⟨hm1, hm2, hm3⟩ := swap_counts inv c hcne t hc0
        have hmapc : (t ++ [inv]).map (fun z => if z = inv then c else z) =
            t.map (fun z => if z = inv then c else z) ++ [c] := by
          rw [List.map_append]
          simp
        have hroomM : liveCount c (t.map (fun z => if z = inv then c else z))
            < (t.map (fun z => if z = inv then c else z)).length := by
          rw [hlcm, hmlen, ← hszlc]
          rw [hlenc] at hroomB
          omega
        have hvalm : x % 2 ^ 64 ≠ c := by
          rw [hvi]
          exact fun he => hcne he.symm
        obtain ⟨t2, b, heq, hwlen, hLI2, hnd2, hbcase, hstop2⟩ :=
          tableInsert_spec hash c
            (t.map (fun z => if z = inv then c else z)) (x % 2 ^ 64)
            (by rw [hmlen]; exact h0) hLIm hndm hvalm hroomM
        have hbt : b = true := by
          rcases hbcase with ⟨hb, _, hcnt1⟩ | ⟨hb, _, _, _⟩
          . exfalso
            rw [hvi] at hcnt1
            rw [hm1] at hcnt1
            omega
          . exact hb
        subst hbt
        have hkey : insertUnchecked hash (Data.Badu64 sz (t ++ [inv])) x =
            some (Data.Badu64 (sz + 1) (t2 ++ [c]), true) := by
          simp only [insertUnchecked]
          rw [hgetd, if_pos hvi, hfind]
          dsimp only
          rw [if_pos (fun he => hcne he.symm), hmapc,
            List.dropLast_concat, heq]
          dsimp only
          rw [getD_concat_last]
          rfl
        refine ⟨Data.Badu64 (sz + 1) (t2 ++ [c]), true, hkey, ?_, rfl, ?_,
          ?_, ?_, ?_, ?_, ?_⟩
        . refine ⟨t2, c, rfl, hcN, ⟨?_, hLI2, ?_, hnd2, ?_, hstop2⟩, ?_, ?_⟩
          . rw [hwlen, hmlen]
            exact h0
          . intro y hy
            rcases hbcase with ⟨hb, _, _⟩ | ⟨_, _, _, hcounts⟩
            . exact absurd hb (by decide)
            . by_cases hyc : y = c
              . rw [hyc]
                exact hcN
              . have hcy := hcounts y hyc
                have hpos : 0 < t2.count y := List.count_pos_iff.mpr hy
                by_cases hyx : y = x % 2 ^ 64
                . rw [hyx]
                  exact Nat.mod_lt _ (by positivity)
                . rw [if_neg hyx] at hcy
                  have hym : y ∈ t.map (fun z => if z = inv then c else z) := by
                    rw [← List.count_pos_iff]
                    omega
                  obtain ⟨z, hz, hfz⟩ := List.mem_map.mp hym
                  by_cases hzi : z = inv
                  . rw [if_pos hzi] at hfz
                    exact absurd hfz.symm hyc
                  . rw [if_neg hzi] at hfz
                    rw [← hfz]
                    exact hwidth z hz
          . rcases hbcase with ⟨hb, _, _⟩ | ⟨_, _, hlc, _⟩
            . exact absurd hb (by decide)
            . rw [hlc, hlcm, ← hszlc]
          . rw [hwlen, hmlen]
            rw [hlenc] at hroomB
            omega
          . rw [hwlen, hmlen]
            exact halloc
        . show (t2 ++ [c]).length - 1 = (t ++ [inv]).length - 1
          simp [hwlen, hmlen]
        . simp [lenD]
        . intro y
          dsimp only [countD, truncD]
          rw [hgetd, hdropc, getD_concat_last, List.dropLast_concat, hvi]
          by_cases hyc : y = c
          . rw [hyc, liveList_count_inv]
            omega
          . rw [liveList_count_ne _ _ _ hyc]
            rcases hbcase with ⟨hb, _, _⟩ | ⟨_, _, _, hcounts⟩
            . exact absurd hb (by decide)
            . have hcy := hcounts y hyc
              rw [hvi] at hcy
              rw [hcy]
              by_cases hyi : y = inv
              . subst hyi
                rw [hm1, liveList_count_inv, if_pos rfl]
              . rw [hm2 y hyi hyc, liveList_count_ne _ _ _ hyi]
        . intro hc02
          rfl
        . intro n hn
          have hn2 : 11 * (sz + (n + 1) + 1) ≤
              10 * (t ++ [inv]).length + 9 := hn
          have hl2 : (t2 ++ [c]).length = t.length + 1 := by
            simp [hwlen, hmlen]
          show 11 * (sz + 1 + n + 1) ≤ 10 * (t2 ++ [c]).length + 9
          rw [hl2]
          rw [hlenc] at hn2
          omega
        . intro y hy
          exact trivial
      . obtain ⟨t2, b, heq, hwlen, hLI2, hnd2, hbcase, hstop2⟩ :=
          tableInsert_spec hash inv t (x % 2 ^ 64) h0 hLI hnd hvi hroomT
        have hkey : insertUnchecked hash (Data.Badu64 sz (t ++ [inv])) x =
            some (Data.Badu64 (if b then sz + 1 else sz) (t2 ++ [inv]), b) := by
          simp only [insertUnchecked]
          rw [hgetd, if_neg hvi]
          dsimp only
          rw [if_neg (fun hne => hne rfl), hdropc, heq]
          dsimp only
          rw [hgetd]
        refine ⟨Data.Badu64 (if b then sz + 1 else sz) (t2 ++ [inv]), b,
          hkey, ?_, rfl, ?_, ?_, ?_, ?_, ?_, ?_⟩
        . refine ⟨t2, inv, rfl, hinvN, ⟨?_, hLI2, ?_, hnd2, ?_, hstop2⟩,
            ?_, ?_⟩
          . rw [hwlen]
            exact h0
          . intro y hy
            rcases hbcase with ⟨hb, hwv, _⟩ | ⟨hb, hc0b, hlc, hcounts⟩
            . rw [hwv] at hy
              exact hwidth y hy
            . by_cases hyi : y = inv
              . rw [hyi]
                exact hinvN
              . have hcy := hcounts y hyi
                have hpos : 0 < t2.count y := List.count_pos_iff.mpr hy
                by_cases hyx : y = x % 2 ^ 64
                . rw [hyx]
                  exact Nat.mod_lt _ (by positivity)
                . rw [if_neg hyx] at hcy
                  have hyv : y ∈ t := by
                    rw [← List.count_pos_iff]
                    omega
                  exact hwidth y hyv
          . rcases hbcase with ⟨hb, hwv, _⟩ | ⟨hb, _, hlc, _⟩
            . subst hb
              rw [hwv]
              simpa using hszlc
            . subst hb
              rw [if_pos rfl, hlc, ← hszlc]
          . rw [hwlen]
            rw [hlenc] at hroomB
            cases b <;> simp <;> omega
          . rw [hwlen]
            exact halloc
        . show (t2 ++ [inv]).length - 1 = (t ++ [inv]).length - 1
          simp [hwlen]
        . cases b <;> simp [lenD]
        . intro y
          dsimp only [countD, truncD]
          rw [hgetd, hdropc, getD_concat_last, List.dropLast_concat]
          by_cases hyi : y = inv
          . rw [hyi, liveList_count_inv]
            omega
          . rw [liveList_count_ne _ _ _ hyi, liveList_count_ne _ _ _ hyi]
            rcases hbcase with ⟨_, hwv, _⟩ | ⟨_, _, _, hcounts⟩
            . rw [hwv]
              split <;> omega
            . rw [hcounts y hyi]
        . intro hc0
          dsimp only [countD, truncD] at hc0
          rw [hgetd, hdropc, liveList_count_ne _ _ _ hvi] at hc0
          rcases hbcase with ⟨hb, _, hcnt1⟩ | ⟨hb, _, _, _⟩
          . omega
          . exact hb
        . intro n hn
          have hn2 : 11 * (sz + (n + 1) + 1) ≤
              10 * (t ++ [inv]).length + 9 := hn
          have hl2 : (t2 ++ [inv]).length = t.length + 1 := by simp [hwlen]
          show 11 * ((if b then sz + 1 else sz) + n + 1) ≤
            10 * (t2 ++ [inv]).length + 9
          rw [hl2]
          rw [hlenc] at hn2
          cases b <;> simp <;> omega
        . intro y hy
          exact trivial


/-- Truncation depends only on the representation. -/
theorem truncD_congr (d d2 : Data) (h : formIdx d2 = formIdx d) (y : Nat) :
    truncD d2 y = truncD d y := by
  cases d <;> cases d2 <;> first | rfl | simp [formIdx] at h

/-- Room for more elements includes room for fewer. -/
theorem roomFor_mono (d : Data) (m n : Nat) (h : m ≤ n)
    (hr : roomFor d n) : roomFor d m := by
  cases d <;> dsimp only [roomFor] at hr ⊢ <;> omega

/-- The promotion rebuild loop: inserting pairwise-distinct, fitting,
not-yet-contained values into a well-formed state with room for all of
them succeeds, preserves well-formedness and the representation, and adds
exactly the new values to the count. -/
theorem foldInsert_WF (hash : Nat → Nat) :
    ∀ (xs : List Nat) (d : Data), WF hash d → xs.Nodup →
      (∀ y ∈ xs, valueFits d y ∧ truncD d y = y ∧ countD d y = 0) →
      roomFor d xs.length →
      ∃ d2, foldInsert hash d xs = some d2 ∧ WF hash d2 ∧
        formIdx d2 = formIdx d ∧ rawCapacity d2 = rawCapacity d ∧
        lenD d2 = lenD d + xs.length ∧
        (∀ m, roomFor d (xs.length + m) → roomFor d2 m) ∧
        (∀ y, valueFits d y → valueFits d2 y) := by
  intro xs
  induction xs with
  | nil =>
      intro d hWF _ _ _
      refine ⟨d, rfl, hWF, rfl, rfl, by simp, ?_, fun y hy => hy⟩
      intro m hm
      simp only [List.length_nil, Nat.zero_add] at hm
      exact hm
  | cons x rest ih =>
      intro d hWF hnd hvals hroom
      obtain ⟨hfitx, htruncx, hcnt0x⟩ := hvals x (List.mem_cons_self ..)
      have hlc : (x :: rest).length = rest.length + 1 := List.length_cons ..
      have hroom1 : roomFor d 1 := by
        apply roomFor_mono d 1 ((x :: rest).length) ?_ hroom
        rw [hlc]
        omega
      obtain ⟨d2, b, heq, hWF2, hform, hcap, hlen, hcounts, hbtrack,
        hroomstep, hfits⟩ := insertUnchecked_WF hash d x hWF hfitx hroom1
      have hb : b = true := hbtrack (by rw [htruncx]; exact hcnt0x)
      subst hb
      have hvals2 : ∀ y ∈ rest,
          valueFits d2 y ∧ truncD d2 y = y ∧ countD d2 y = 0 := by
        intro y hy
        obtain ⟨hf, ht, hc⟩ := hvals y (List.mem_cons_of_mem _ hy)
        refine ⟨hfits y hf, ?_, ?_⟩
        · rw [truncD_congr d d2 hform y]
          exact ht
        · have h2 := hcounts y
          rw [htruncx] at h2
          have hyx : ¬ y = x := by
            intro he
            exact (List.nodup_cons.mp hnd).1 (he ▸ hy)
          rw [if_neg hyx] at h2
          omega
      have hnd2 : rest.Nodup := (List.nodup_cons.mp hnd).2
      have hroomR : roomFor d2 rest.length := by
        apply hroomstep
        have h3 : roomFor d ((x :: rest).length) := hroom
        rw [hlc] at h3
        exact h3
      obtain ⟨d3, heq3, hWF3, hform3, hcap3, hlen3, hroom3, hfits3⟩ :=
        ih d2 hWF2 hnd2 hvals2 hroomR
      refine ⟨d3, ?_, hWF3, by rw [hform3, hform], by rw [hcap3, hcap], ?_,
        ?_, ?_⟩
      · show (match insertUnchecked hash d x with
          | none => none
          | some (d2, _) => foldInsert hash d2 rest) = some d3
        rw [heq]
        exact heq3
      · rw [hlen3, hlen, hlc]
        have h4 : (if true = true then 1 else 0) = 1 := rfl
        rw [h4]
        omega
      · intro m hm
        rw [hlc] at hm
        have hm2 : rest.length + 1 + m = rest.length + m + 1 := by omega
        rw [hm2] at hm
        exact hroom3 m (hroomstep (rest.length + m) hm)
      · intro y hy
        exact hfits3 y (hfits y hy)

/-- A fresh all-sentinel inline array is well-formed with count zero. -/
theorem WFsmall_replicate (inv cap : Nat) :
    WFsmall inv cap 0 (List.replicate cap inv) := by
  refine ⟨List.length_replicate .., by omega, ?_, ?_⟩ <;> simp

/-- An all-sentinel table has an empty live list. -/
theorem liveList_replicate (inv n : Nat) :
    liveList inv (List.replicate n inv) = [] := by
  have h := liveCount_replicate inv n
  unfold liveCount at h
  exact List.length_eq_zero.mp h

/-- Dropping the last cell of a constant array. -/
theorem dropLast_replicate_succ (n a : Nat) :
    (List.replicate (n + 1) a).dropLast = List.replicate n a := by
  rw [List.replicate_succ', List.dropLast_concat]

/-- `Data::with_max_cap` yields a well-formed empty state that fits the
announced maximum and has room for the announced capacity. -/
theorem withMaxCap_WF (hash : Nat → Nat) (max cap : Nat) (d : Data)
    (h : withMaxCap max cap = some d) :
    WF hash d ∧ lenD d = 0 ∧ valueFits d max ∧ roomFor d cap ∧
    (∀ y, countD d y = 0) := by
  unfold withMaxCap at h
  by_cases h8 : max < inv8
  · rw [if_pos h8] at h
    by_cases hc : cap ≤ NUM_U8
    · rw [if_pos hc] at h
      have hd := Option.some.inj h
      subst hd
      refine ⟨WFsmall_replicate inv8 NUM_U8, rfl, h8, ?_, fun y => rfl⟩
      show 0 + cap ≤ NUM_U8
      omega
    · rw [if_neg hc] at h
      have hd := Option.some.inj h
      subst hd
      have hnp := load_of_nextPow2 cap
      refine ⟨⟨WFtable_replicate hash inv8 (2 ^ 8) 0 _ (nextPow2_pos _)
          (by decide) rfl, by omega⟩, rfl, h8, ?_, ?_⟩
      · show 11 * (0 + cap) ≤
          10 * (List.replicate (nextPow2 (cap * 11 / 10)) inv8).length + 9
        rw [List.length_replicate]
        omega
      · intro y
        show (liveList inv8 (List.replicate (nextPow2 (cap * 11 / 10))
          inv8)).count y = 0
        rw [liveList_replicate]
        rfl
  · rw [if_neg h8] at h
    by_cases h16 : max < inv16
    · rw [if_pos h16] at h
      by_cases hc : cap ≤ NUM_U16
      · rw [if_pos hc] at h
        have hd := Option.some.inj h
        subst hd
        refine ⟨WFsmall_replicate inv16 NUM_U16, rfl, h16, ?_, fun y => rfl⟩
        show 0 + cap ≤ NUM_U16
        omega
      · rw [if_neg hc] at h
        have hd := Option.some.inj h
        subst hd
        have hnp := load_of_nextPow2 cap
        refine ⟨⟨WFtable_replicate hash inv16 (2 ^ 16) 0 _ (nextPow2_pos _)
            (by decide) rfl, by omega⟩, rfl, h16, ?_, ?_⟩
        · show 11 * (0 + cap) ≤
            10 * (List.replicate (nextPow2 (cap * 11 / 10)) inv16).length + 9
          rw [List.length_replicate]
          omega
        · intro y
          show (liveList inv16 (List.replicate (nextPow2 (cap * 11 / 10))
            inv16)).count y = 0
          rw [liveList_replicate]
          rfl
    · rw [if_neg h16] at h
      by_cases h32 : max < inv32
      · rw [if_pos h32] at h
        by_cases hc : cap ≤ NUM_U32
        · rw [if_pos hc] at h
          have hd := Option.some.inj h
          subst hd
          refine ⟨WFsmall_replicate inv32 NUM_U32, rfl, h32, ?_,
            fun y => rfl⟩
          show 0 + cap ≤ NUM_U32
          omega
        · rw [if_neg hc] at h
          have hd := Option.some.inj h
          subst hd
          have hnp := load_of_nextPow2 cap
          refine ⟨⟨WFtable_replicate hash inv32 (2 ^ 32) 0 _
              (nextPow2_pos _) (by decide) rfl, by omega⟩, rfl, h32, ?_, ?_⟩
          · show 11 * (0 + cap) ≤
              10 * (List.replicate (nextPow2 (cap * 11 / 10)) inv32).length
              + 9
            rw [List.length_replicate]
            omega
          · intro y
            show (liveList inv32 (List.replicate (nextPow2 (cap * 11 / 10))
              inv32)).count y = 0
            rw [liveList_replicate]
            rfl
      · rw [if_neg h32] at h
        by_cases h64 : max < inv64
        · rw [if_pos h64] at h
          by_cases hc : cap ≤ NUM_U64
          · rw [if_pos hc] at h
            have hd := Option.some.inj h
            subst hd
            refine ⟨WFsmall_replicate inv64 NUM_U64, rfl, h64, ?_,
              fun y => rfl⟩
            show 0 + cap ≤ NUM_U64
            omega
          · rw [if_neg hc] at h
            have hd := Option.some.inj h
            subst hd
            have hnp := load_of_nextPow2 cap
            refine ⟨⟨WFtable_replicate hash inv64 (2 ^ 64) 0 _
                (nextPow2_pos _) (by decide) rfl, by omega⟩, rfl, h64, ?_,
              ?_⟩
            · show 11 * (0 + cap) ≤
                10 * (List.replicate (nextPow2 (cap * 11 / 10)) inv64).length
                + 9
              rw [List.length_replicate]
              omega
            · intro y
              show (liveList inv64 (List.replicate
                (nextPow2 (cap * 11 / 10)) inv64)).count y = 0
              rw [liveList_replicate]
              rfl
        · rw [if_neg h64] at h
          by_cases ha : nextPow2 ((cap + 1) * 11 / 10) + 1 ≤ ALLOC_U64
          · rw [if_pos ha] at h
            have hd := Option.some.inj h
            subst hd
            have hnp := load_of_nextPow2 (cap + 1)
            have hsplit : List.replicate (nextPow2 ((cap + 1) * 11 / 10) + 1)
                inv64 = List.replicate (nextPow2 ((cap + 1) * 11 / 10))
                inv64 ++ [inv64] := List.replicate_succ' ..
            refine ⟨⟨List.replicate (nextPow2 ((cap + 1) * 11 / 10)) inv64,
              inv64, hsplit, by decide,
              WFtable_replicate hash inv64 (2 ^ 64) 0 _ (nextPow2_pos _)
                (by decide) rfl, ?_, ?_⟩, rfl, trivial, ?_, ?_⟩
            · rw [List.length_replicate]
              omega
            · rw [List.length_replicate]
              exact ha
            · show 11 * (0 + cap + 1) ≤
                10 * (List.replicate (nextPow2 ((cap + 1) * 11 / 10) + 1)
                  inv64).length + 9
              rw [List.length_replicate]
              omega
            · intro y
              show (liveList ((List.replicate (nextPow2 ((cap + 1) * 11 / 10)
                + 1) inv64).getD ((List.replicate (nextPow2 ((cap + 1) * 11
                / 10) + 1) inv64).length - 1) 0) (List.replicate (nextPow2
                ((cap + 1) * 11 / 10) + 1) inv64).dropLast).count y = 0
              rw [dropLast_replicate_succ, List.length_replicate,
                Nat.add_sub_cancel, getD_replicate _ _ _ _ (by omega),
                liveList_replicate]
              rfl
          · rw [if_neg ha] at h
            cases h

/-- `U64Set::with_capacity` yields a well-formed empty state. -/
theorem withCapacity_WF (hash : Nat → Nat) (cap : Nat) :
    WF hash (withCapacity cap) ∧ lenD (withCapacity cap) = 0 ∧
    (∀ y, countD (withCapacity cap) y = 0) := by
  unfold withCapacity
  by_cases h1 : cap ≤ NUM_U8
  · rw [if_pos h1]
    exact ⟨WFsmall_replicate inv8 NUM_U8, rfl, fun y => rfl⟩
  · rw [if_neg h1]
    by_cases h2 : cap < inv8
    · rw [if_pos h2]
      refine ⟨⟨WFtable_replicate hash inv8 (2 ^ 8) 0 _ (nextPow2_pos _)
          (by decide) rfl, by omega⟩, rfl, ?_⟩
      intro y
      show (liveList inv8 (List.replicate (capacityToRaw cap)
        inv8)).count y = 0
      unfold capacityToRaw
      rw [liveList_replicate]
      rfl
    · rw [if_neg h2]
      by_cases h3 : cap < inv16
      · rw [if_pos h3]
        refine ⟨⟨WFtable_replicate hash inv16 (2 ^ 16) 0 _ (nextPow2_pos _)
            (by decide) rfl, by omega⟩, rfl, ?_⟩
        intro y
        show (liveList inv16 (List.replicate (capacityToRaw cap)
          inv16)).count y = 0
        unfold capacityToRaw
        rw [liveList_replicate]
        rfl
      · rw [if_neg h3]
        by_cases h4 : cap < inv32
        · rw [if_pos h4]
          refine ⟨⟨WFtable_replicate hash inv32 (2 ^ 32) 0 _
              (nextPow2_pos _) (by decide) rfl, by omega⟩, rfl, ?_⟩
          intro y
          show (liveList inv32 (List.replicate (capacityToRaw cap)
            inv32)).count y = 0
          unfold capacityToRaw
          rw [liveList_replicate]
          rfl
        · rw [if_neg h4]
          refine ⟨⟨WFtable_replicate hash inv64 (2 ^ 64) 0 _
              (nextPow2_pos _) (by decide) rfl, by omega⟩, rfl, ?_⟩
          intro y
          show (liveList inv64 (List.replicate (capacityToRaw cap)
            inv64)).count y = 0
          unfold capacityToRaw
          rw [liveList_replicate]
          rfl

/-- The state installed by `drain` is well-formed. -/
theorem drained_WF (hash : Nat → Nat) (d : Data) (hWF : WF hash d) :
    WF hash (drainedD d) := by
  cases d with
  | Su8 sz v => exact WFsmall_replicate inv8 NUM_U8
  | Su16 sz v => exact WFsmall_replicate inv16 NUM_U16
  | Su32 sz v => exact WFsmall_replicate inv32 NUM_U32
  | Su64 sz v => exact WFsmall_replicate inv64 NUM_U64
  | Vu8 sz v =>
      obtain ⟨⟨h0, _⟩, _⟩ := hWF
      exact ⟨WFtable_replicate hash inv8 (2 ^ 8) 0 _ h0 (by decide) rfl,
        by omega⟩
  | Vu16 sz v =>
      obtain ⟨⟨h0, _⟩, _⟩ := hWF
      exact ⟨WFtable_replicate hash inv16 (2 ^ 16) 0 _ h0 (by decide) rfl,
        by omega⟩
  | Vu32 sz v =>
      obtain ⟨⟨h0, _⟩, _⟩ := hWF
      exact ⟨WFtable_replicate hash inv32 (2 ^ 32) 0 _ h0 (by decide) rfl,
        by omega⟩
  | Vu64 sz v =>
      obtain ⟨⟨h0, _⟩, _⟩ := hWF
      exact ⟨WFtable_replicate hash inv64 (2 ^ 64) 0 _ h0 (by decide) rfl,
        by omega⟩
  | Badu64 sz v =>
      obtain ⟨t, inv, hv, hinvN, ⟨h0, _⟩, hload, halloc⟩ := hWF
      subst hv
      have hlen : (t ++ [inv]).length = t.length + 1 := by simp
      show WF hash (Data.Badu64 0 (List.replicate ((t ++ [inv]).length)
        inv64))
      rw [hlen]
      refine ⟨List.replicate t.length inv64, inv64,
        List.replicate_succ' .., by decide,
        WFtable_replicate hash inv64 (2 ^ 64) 0 _ h0 (by decide) rfl,
        ?_, ?_⟩
      · rw [List.length_replicate]
        omega
      · rw [List.length_replicate]
        exact halloc

/-- An all-sentinel table has no duplicate live values. -/
theorem nodupLive_replicate (inv n : Nat) :
    nodupLive inv (List.replicate n inv) := by
  intro y hy
  rw [count_replicate_ne inv n y hy]
  omega

/-- Any value within the announced maximum fits the representation picked
by `with_max_cap` and survives its truncation. -/
theorem withMaxCap_fits (max cap : Nat) (d : Data)
    (h : withMaxCap max cap = some d) (y : Nat) (hyN : y < 2 ^ 64)
    (hym : y ≤ max) : valueFits d y ∧ truncD d y = y := by
  have hw8 : inv8 < 2 ^ 8 := by decide
  have hw16 : inv16 < 2 ^ 16 := by decide
  have hw32 : inv32 < 2 ^ 32 := by decide
  have hw64 : inv64 < 2 ^ 64 := by decide
  unfold withMaxCap at h
  by_cases h8 : max < inv8
  · rw [if_pos h8] at h
    by_cases hc : cap ≤ NUM_U8
    · rw [if_pos hc] at h
      have hd := Option.some.inj h
      subst hd
      exact ⟨by show y < inv8; omega, Nat.mod_eq_of_lt (by omega)⟩
    · rw [if_neg hc] at h
      have hd := Option.some.inj h
      subst hd
      exact ⟨by show y < inv8; omega, Nat.mod_eq_of_lt (by omega)⟩
  · rw [if_neg h8] at h
    by_cases h16 : max < inv16
    · rw [if_pos h16] at h
      by_cases hc : cap ≤ NUM_U16
      · rw [if_pos hc] at h
        have hd := Option.some.inj h
        subst hd
        exact ⟨by show y < inv16; omega, Nat.mod_eq_of_lt (by omega)⟩
      · rw [if_neg hc] at h
        have hd := Option.some.inj h
        subst hd
        exact ⟨by show y < inv16; omega, Nat.mod_eq_of_lt (by omega)⟩
    · rw [if_neg h16] at h
      by_cases h32 : max < inv32
      · rw [if_pos h32] at h
        by_cases hc : cap ≤ NUM_U32
        · rw [if_pos hc] at h
          have hd := Option.some.inj h
          subst hd
          exact ⟨by show y < inv32; omega, Nat.mod_eq_of_lt (by omega)⟩
        · rw [if_neg hc] at h
          have hd := Option.some.inj h
          subst hd
          exact ⟨by show y < inv32; omega, Nat.mod_eq_of_lt (by omega)⟩
      · rw [if_neg h32] at h
        by_cases h64 : max < inv64
        · rw [if_pos h64] at h
          by_cases hc : cap ≤ NUM_U64
          · rw [if_pos hc] at h
            have hd := Option.some.inj h
            subst hd
            exact ⟨by show y < inv64; omega, Nat.mod_eq_of_lt (by omega)⟩
          · rw [if_neg hc] at h
            have hd := Option.some.inj h
            subst hd
            exact ⟨by show y < inv64; omega, Nat.mod_eq_of_lt (by omega)⟩
        · rw [if_neg h64] at h
          by_cases ha : nextPow2 ((cap + 1) * 11 / 10) + 1 ≤ ALLOC_U64
          · rw [if_pos ha] at h
            have hd := Option.some.inj h
            subst hd
            exact ⟨trivial, Nat.mod_eq_of_lt hyN⟩
          · rw [if_neg ha] at h
            cases h

/-- A width-escalation arm: rebuild the listed values into the fresh
representation chosen by `with_max_cap`. -/
theorem escalate_WF (hash : Nat → Nat) (max cap : Nat) (d0 : Data)
    (xs : List Nat) (h0 : withMaxCap max cap = some d0)
    (hnd : xs.Nodup) (hbound : ∀ y ∈ xs, y < 2 ^ 64 ∧ y ≤ max)
    (hlen : xs.length ≤ cap) :
    ∃ d2, foldInsert hash d0 xs = some d2 ∧ WF hash d2 ∧
      lenD d2 = xs.length ∧ valueFits d2 max ∧
      roomFor d2 (cap - xs.length) := by
  obtain ⟨hWF0, hlen0, hfit0, hroom0, hcnt0⟩ :=
    withMaxCap_WF hash max cap d0 h0
  obtain ⟨d2, heq, hWF2, _, _, hlen2, hroomt, hfitst⟩ :=
    foldInsert_WF hash xs d0 hWF0 hnd
      (fun y hy =>
        ⟨(withMaxCap_fits max cap d0 h0 y (hbound y hy).1 (hbound y hy).2).1,
         (withMaxCap_fits max cap d0 h0 y (hbound y hy).1 (hbound y hy).2).2,
         hcnt0 y⟩)
      (roomFor_mono d0 xs.length cap hlen hroom0)
  refine ⟨d2, heq, hWF2, by rw [hlen2, hlen0]; omega, hfitst max hfit0, ?_⟩
  apply hroomt
  have he : xs.length + (cap - xs.length) = cap := by omega
  rw [he]
  exact hroom0

/-- A load-factor resize arm: rehash every cell of the old table into a
fresh all-sentinel table with room for all live values. -/
theorem resize_table (hash : Nat → Nat) (inv wd : Nat) (v : List Nat)
    (L2 : Nat) (hL2 : 0 < L2) (hinvw : inv < wd)
    (hnd : nodupLive inv v)
    (hwidth : ∀ y ∈ v, y < wd)
    (hcap : liveCount inv v ≤ L2) :
    ∃ w2, rehashAll hash inv (List.replicate L2 inv) v = some w2 ∧
      w2.length = L2 ∧ LI hash inv w2 ∧ nodupLive inv w2 ∧
      liveCount inv w2 = liveCount inv v ∧
      (∀ y ∈ w2, y < wd) ∧
      (liveCount inv w2 = w2.length → ∃ s, s < w2.length ∧
        slotVal w2 s ≠ inv ∧ slotDist hash w2 s = 0) := by
  obtain ⟨w2, heq, hlen, hLI2, hnd2, hlc, hcounts, hstop2⟩ :=
    rehashAll_spec hash inv v (List.replicate L2 inv)
      (by rw [List.length_replicate]; exact hL2)
      (LI_replicate hash inv L2)
      (nodupLive_replicate inv L2)
      (fun y hy _ => count_replicate_ne inv L2 y hy)
      (fun y hy => hnd y hy)
      (by rw [liveCount_replicate, List.length_replicate]; omega)
      (by
        intro hfull
        rw [liveCount_replicate, List.length_replicate] at hfull
        omega)
  refine ⟨w2, heq, by rw [hlen, List.length_replicate], hLI2, hnd2,
    by rw [hlc, liveCount_replicate]; omega, ?_, hstop2⟩
  intro y hy
  by_cases hyi : y = inv
  · rw [hyi]
    exact hinvw
  · have hcy := hcounts y hyi
    rw [count_replicate_ne inv L2 y hyi] at hcy
    have hpos : 0 < w2.count y := List.count_pos_iff.mpr hy
    have hyv : y ∈ v := by
      rw [← List.count_pos_iff]
      omega
    exact hwidth y hyv

/-- Live cells of a table with its trailing sentinel cell. -/
theorem liveCount_concat_inv (inv : Nat) (t : List Nat) :
    liveCount inv (t ++ [inv]) = liveCount inv t := by
  unfold liveCount
  rw [List.filter_append]
  simp

/-- Appending the sentinel cell keeps live values duplicate-free. -/
theorem nodupLive_concat_inv (inv : Nat) (t : List Nat)
    (hnd : nodupLive inv t) : nodupLive inv (t ++ [inv]) := by
  intro y hy
  rw [List.count_append]
  have h1 := hnd y hy
  have h2 : ([inv] : List Nat).count y = 0 := by
    rw [List.count_eq_zero]
    intro hm
    exact hy (List.mem_singleton.mp hm)
  omega

/-- `reserve_with_max` preserves well-formedness and the element count,
and a successful call leaves room for the reserved elements in a
representation that fits the announced maximum. -/
theorem reserveWithMax_WF (hash : Nat → Nat) (d : Data) (max n : Nat)
    (d2 : Data) (hWF : WF hash d)
    (h : reserveWithMax hash d max n = some d2) :
    WF hash d2 ∧ lenD d2 = lenD d ∧ roomFor d2 n ∧ valueFits d2 max := by
  cases d with
  | Su8 sz v =>
      obtain ⟨hlen, hszc, hadm, hnd⟩ := hWF
      have hIW : inv8 < 2 ^ 8 := by decide
      have hIE : inv8 = 2 ^ 8 - 1 := rfl
      simp only [reserveWithMax] at h
      by_cases hm : max ≥ inv8
      . rw [if_pos hm] at h
        cases h0eq : withMaxCap max (sz + n) with
        | none =>
            rw [h0eq] at h
            exact Option.noConfusion h
        | some d0 =>
            rw [h0eq] at h
            dsimp only at h
            have htl : (v.take sz).length = sz := by
              rw [List.length_take]
              omega
            obtain ⟨d2x, heq, hWF2, hlen2, hfit2, hroom2⟩ :=
              escalate_WF hash max (sz + n) d0 (v.take sz) h0eq hnd
                (fun y hy => ⟨by have := hadm y hy; omega,
                  by have := hadm y hy; omega⟩)
                (by rw [htl]; omega)
            rw [heq] at h
            have hdd := Option.some.inj h
            subst hdd
            refine ⟨hWF2, ?_, ?_, hfit2⟩
            . rw [hlen2, htl]
              rfl
            . have he : sz + n - (v.take sz).length = n := by
                rw [htl]
                omega
              rw [← he]
              exact hroom2
      . rw [if_neg hm] at h
        by_cases hof : sz + n > NUM_U8
        . rw [if_pos hof] at h
          have hnp := load_of_nextPow2 (sz + n)
          have hWF0 : WF hash (Data.Vu8 0
              (List.replicate (nextPow2 ((sz + n) * 11 / 10)) inv8)) :=
            ⟨WFtable_replicate hash inv8 (2 ^ 8) 0 _ (nextPow2_pos _)
              (by decide) rfl, by omega⟩
          have htl : (v.take sz).length = sz := by
            rw [List.length_take]
            omega
          obtain ⟨d2x, heq, hWF2, hform2, hcap2, hlen2, hroomt, hfitst⟩ :=
            foldInsert_WF hash (v.take sz) _ hWF0 hnd
              (fun y hy =>
                ⟨by show y < inv8; exact hadm y hy,
                 by show y % 2 ^ 8 = y
                    have := hadm y hy
                    exact Nat.mod_eq_of_lt (by omega),
                 by show (liveList inv8 (List.replicate
                      (nextPow2 ((sz + n) * 11 / 10)) inv8)).count y = 0
                    rw [liveList_replicate]
                    rfl⟩)
              (by show 11 * (0 + (v.take sz).length) ≤
                    10 * (List.replicate (nextPow2 ((sz + n) * 11 / 10))
                      inv8).length + 9
                  rw [htl, List.length_replicate]
                  omega)
          rw [heq] at h
          have hdd := Option.some.inj h
          subst hdd
          refine ⟨hWF2, ?_, ?_, ?_⟩
          . rw [hlen2, htl]
            simp [lenD]
          . apply hroomt
            show 11 * (0 + ((v.take sz).length + n)) ≤
              10 * (List.replicate (nextPow2 ((sz + n) * 11 / 10))
                inv8).length + 9
            rw [htl, List.length_replicate]
            omega
          . apply hfitst
            show max < inv8
            omega
        . rw [if_neg hof] at h
          have hdd := Option.some.inj h
          subst hdd
          refine ⟨⟨hlen, hszc, hadm, hnd⟩, rfl, ?_, ?_⟩
          . show sz + n ≤ NUM_U8
            omega
          . show max < inv8
            omega
  | Vu8 sz v =>
      obtain ⟨⟨h0, hLI, hwidth, hnd, hszlc, hstop⟩, hload⟩ := hWF
      have hIW : inv8 < 2 ^ 8 := by decide
      have hIE : inv8 = 2 ^ 8 - 1 := rfl
      have hiter : iterListD (Data.Vu8 sz v) = some (liveList inv8 v) := by
        show iterLoop inv8 v sz = some (liveList inv8 v)
        rw [hszlc]
        exact iterLoop_live inv8 v
      have hll : (liveList inv8 v).length = sz := by
        rw [hszlc]
        rfl
      simp only [reserveWithMax] at h
      by_cases hm : max ≥ inv8
      . rw [if_pos hm, hiter] at h
        cases h0eq : withMaxCap max (sz + n) with
        | none =>
            rw [h0eq] at h
            exact Option.noConfusion h
        | some d0 =>
            rw [h0eq] at h
            dsimp only at h
            obtain ⟨d2x, heq, hWF2, hlen2, hfit2, hroom2⟩ :=
              escalate_WF hash max (sz + n) d0 (liveList inv8 v) h0eq
                (liveList_nodup inv8 v hnd)
                (fun y hy => by
                  obtain ⟨hyv, hyi⟩ := (mem_liveList inv8 y v).mp hy
                  have := hwidth y hyv
                  exact ⟨by omega, by omega⟩)
                (by rw [hll]; omega)
            rw [heq] at h
            have hdd := Option.some.inj h
            subst hdd
            refine ⟨hWF2, ?_, ?_, hfit2⟩
            . rw [hlen2, hll]
              rfl
            . have he : sz + n - (liveList inv8 v).length = n := by
                rw [hll]
                omega
              rw [← he]
              exact hroom2
      . rw [if_neg hm] at h
        by_cases hof : sz + n > v.length * 10 / 11
        . rw [if_pos hof] at h
          have hnp := load_of_nextPow2 (sz + n)
          obtain ⟨w2, heq, hw2len, hLI2, hnd2, hlc2, hwidth2, hstop2⟩ :=
            resize_table hash inv8 (2 ^ 8) v
              (nextPow2 ((sz + n) * 11 / 10)) (nextPow2_pos _) hIW hnd
              hwidth (by rw [← hszlc]; omega)
          rw [heq] at h
          have hdd := Option.some.inj h
          subst hdd
          refine ⟨⟨⟨?_, hLI2, hwidth2, hnd2, ?_, hstop2⟩, ?_⟩, rfl, ?_, ?_⟩
          . rw [hw2len]
            exact nextPow2_pos _
          . rw [hlc2, ← hszlc]
          . rw [hw2len]
            omega
          . show 11 * (sz + n) ≤ 10 * w2.length + 9
            rw [hw2len]
            omega
          . show max < inv8
            omega
        . rw [if_neg hof] at h
          have hdd := Option.some.inj h
          subst hdd
          refine ⟨⟨⟨h0, hLI, hwidth, hnd, hszlc, hstop⟩, hload⟩, rfl, ?_,
            ?_⟩
          . show 11 * (sz + n) ≤ 10 * v.length + 9
            omega
          . show max < inv8
            omega
  | Su16 sz v =>
      obtain ⟨hlen, hszc, hadm, hnd⟩ := hWF
      have hIW : inv16 < 2 ^ 16 := by decide
      have hIE : inv16 = 2 ^ 16 - 1 := rfl
      simp only [reserveWithMax] at h
      by_cases hm : max ≥ inv16
      . rw [if_pos hm] at h
        cases h0eq : withMaxCap max (sz + n) with
        | none =>
            rw [h0eq] at h
            exact Option.noConfusion h
        | some d0 =>
            rw [h0eq] at h
            dsimp only at h
            have htl : (v.take sz).length = sz := by
              rw [List.length_take]
              omega
            obtain ⟨d2x, heq, hWF2, hlen2, hfit2, hroom2⟩ :=
              escalate_WF hash max (sz + n) d0 (v.take sz) h0eq hnd
                (fun y hy => ⟨by have := hadm y hy; omega,
                  by have := hadm y hy; omega⟩)
                (by rw [htl]; omega)
            rw [heq] at h
            have hdd := Option.some.inj h
            subst hdd
            refine ⟨hWF2, ?_, ?_, hfit2⟩
            . rw [hlen2, htl]
              rfl
            . have he : sz + n - (v.take sz).length = n := by
                rw [htl]
                omega
              rw [← he]
              exact hroom2
      . rw [if_neg hm] at h
        by_cases hof : sz + n > NUM_U16
        . rw [if_pos hof] at h
          have hnp := load_of_nextPow2 (sz + n)
          have hWF0 : WF hash (Data.Vu16 0
              (List.replicate (nextPow2 ((sz + n) * 11 / 10)) inv16)) :=
            ⟨WFtable_replicate hash inv16 (2 ^ 16) 0 _ (nextPow2_pos _)
              (by decide) rfl, by omega⟩
          have htl : (v.take sz).length = sz := by
            rw [List.length_take]
            omega
          obtain ⟨d2x, heq, hWF2, hform2, hcap2, hlen2, hroomt, hfitst⟩ :=
            foldInsert_WF hash (v.take sz) _ hWF0 hnd
              (fun y hy =>
                ⟨by show y < inv16; exact hadm y hy,
                 by show y % 2 ^ 16 = y
                    have := hadm y hy
                    exact Nat.mod_eq_of_lt (by omega),
                 by show (liveList inv16 (List.replicate
                      (nextPow2 ((sz + n) * 11 / 10)) inv16)).count y = 0
                    rw [liveList_replicate]
                    rfl⟩)
              (by show 11 * (0 + (v.take sz).length) ≤
                    10 * (List.replicate (nextPow2 ((sz + n) * 11 / 10))
                      inv16).length + 9
                  rw [htl, List.length_replicate]
                  omega)
          rw [heq] at h
          have hdd := Option.some.inj h
          subst hdd
          refine ⟨hWF2, ?_, ?_, ?_⟩
          . rw [hlen2, htl]
            simp [lenD]
          . apply hroomt
            show 11 * (0 + ((v.take sz).length + n)) ≤
              10 * (List.replicate (nextPow2 ((sz + n) * 11 / 10))
                inv16).length + 9
            rw [htl, List.length_replicate]
            omega
          . apply hfitst
            show max < inv16
            omega
        . rw [if_neg hof] at h
          have hdd := Option.some.inj h
          subst hdd
          refine ⟨⟨hlen, hszc, hadm, hnd⟩, rfl, ?_, ?_⟩
          . show sz + n ≤ NUM_U16
            omega
          . show max < inv16
            omega
  | Vu16 sz v =>
      obtain ⟨⟨h0, hLI, hwidth, hnd, hszlc, hstop⟩, hload⟩ := hWF
      have hIW : inv16 < 2 ^ 16 := by decide
      have hIE : inv16 = 2 ^ 16 - 1 := rfl
      have hiter : iterListD (Data.Vu16 sz v) = some (liveList inv16 v) := by
        show iterLoop inv16 v sz = some (liveList inv16 v)
        rw [hszlc]
        exact iterLoop_live inv16 v
      have hll : (liveList inv16 v).length = sz := by
        rw [hszlc]
        rfl
      simp only [reserveWithMax] at h
      by_cases hm : max ≥ inv16
      . rw [if_pos hm, hiter] at h
        cases h0eq : withMaxCap max (sz + n) with
        | none =>
            rw [h0eq] at h
            exact Option.noConfusion h
        | some d0 =>
            rw [h0eq] at h
            dsimp only at h
            obtain ⟨d2x, heq, hWF2, hlen2, hfit2, hroom2⟩ :=
              escalate_WF hash max (sz + n) d0 (liveList inv16 v) h0eq
                (liveList_nodup inv16 v hnd)
                (fun y hy => by
                  obtain ⟨hyv, hyi⟩ := (mem_liveList inv16 y v).mp hy
                  have := hwidth y hyv
                  exact ⟨by omega, by omega⟩)
                (by rw [hll]; omega)
            rw [heq] at h
            have hdd := Option.some.inj h
            subst hdd
            refine ⟨hWF2, ?_, ?_, hfit2⟩
            . rw [hlen2, hll]
              rfl
            . have he : sz + n - (liveList inv16 v).length = n := by
                rw [hll]
                omega
              rw [← he]
              exact hroom2
      . rw [if_neg hm] at h
        by_cases hof : sz + n > v.length * 10 / 11
        . rw [if_pos hof] at h
          have hnp := load_of_nextPow2 (sz + n)
          obtain ⟨w2, heq, hw2len, hLI2, hnd2, hlc2, hwidth2, hstop2⟩ :=
            resize_table hash inv16 (2 ^ 16) v
              (nextPow2 ((sz + n) * 11 / 10)) (nextPow2_pos _) hIW hnd
              hwidth (by rw [← hszlc]; omega)
          rw [heq] at h
          have hdd := Option.some.inj h
          subst hdd
          refine ⟨⟨⟨?_, hLI2, hwidth2, hnd2, ?_, hstop2⟩, ?_⟩, rfl, ?_, ?_⟩
          . rw [hw2len]
            exact nextPow2_pos _
          . rw [hlc2, ← hszlc]
          . rw [hw2len]
            omega
          . show 11 * (sz + n) ≤ 10 * w2.length + 9
            rw [hw2len]
            omega
          . show max < inv16
            omega
        . rw [if_neg hof] at h
          have hdd := Option.some.inj h
          subst hdd
          refine ⟨⟨⟨h0, hLI, hwidth, hnd, hszlc, hstop⟩, hload⟩, rfl, ?_,
            ?_⟩
          . show 11 * (sz + n) ≤ 10 * v.length + 9
            omega
          . show max < inv16
            omega
  | Su32 sz v =>
      obtain ⟨hlen, hszc, hadm, hnd⟩ := hWF
      have hIW : inv32 < 2 ^ 32 := by decide
      have hIE : inv32 = 2 ^ 32 - 1 := rfl
      simp only [reserveWithMax] at h
      by_cases hm : max ≥ inv32
      . rw [if_pos hm] at h
        cases h0eq : withMaxCap max (sz + n) with
        | none =>
            rw [h0eq] at h
            exact Option.noConfusion h
        | some d0 =>
            rw [h0eq] at h
            dsimp only at h
            have htl : (v.take sz).length = sz := by
              rw [List.length_take]
              omega
            obtain ⟨d2x, heq, hWF2, hlen2, hfit2, hroom2⟩ :=
              escalate_WF hash max (sz + n) d0 (v.take sz) h0eq hnd
                (fun y hy => ⟨by have := hadm y hy; omega,
                  by have := hadm y hy; omega⟩)
                (by rw [htl]; omega)
            rw [heq] at h
            have hdd := Option.some.inj h
            subst hdd
            refine ⟨hWF2, ?_, ?_, hfit2⟩
            . rw [hlen2, htl]
              rfl
            . have he : sz + n - (v.take sz).length = n := by
                rw [htl]
                omega
              rw [← he]
              exact hroom2
      . rw [if_neg hm] at h
        by_cases hof : sz + n > NUM_U32
        . rw [if_pos hof] at h
          have hnp := load_of_nextPow2 (sz + n)
          have hWF0 : WF hash (Data.Vu32 0
              (List.replicate (nextPow2 ((sz + n) * 11 / 10)) inv32)) :=
            ⟨WFtable_replicate hash inv32 (2 ^ 32) 0 _ (nextPow2_pos _)
              (by decide) rfl, by omega⟩
          have htl : (v.take sz).length = sz := by
            rw [List.length_take]
            omega
          obtain ⟨d2x, heq, hWF2, hform2, hcap2, hlen2, hroomt, hfitst⟩ :=
            foldInsert_WF hash (v.take sz) _ hWF0 hnd
              (fun y hy =>
                ⟨by show y < inv32; exact hadm y hy,
                 by show y % 2 ^ 32 = y
                    have := hadm y hy
                    exact Nat.mod_eq_of_lt (by omega),
                 by show (liveList inv32 (List.replicate
                      (nextPow2 ((sz + n) * 11 / 10)) inv32)).count y = 0
                    rw [liveList_replicate]
                    rfl⟩)
              (by show 11 * (0 + (v.take sz).length) ≤
                    10 * (List.replicate (nextPow2 ((sz + n) * 11 / 10))
                      inv32).length + 9
                  rw [htl, List.length_replicate]
                  omega)
          rw [heq] at h
          have hdd := Option.some.inj h
          subst hdd
          refine ⟨hWF2, ?_, ?_, ?_⟩
          . rw [hlen2, htl]
            simp [lenD]
          . apply hroomt
            show 11 * (0 + ((v.take sz).length + n)) ≤
              10 * (List.replicate (nextPow2 ((sz + n) * 11 / 10))
                inv32).length + 9
            rw [htl, List.length_replicate]
            omega
          . apply hfitst
            show max < inv32
            omega
        . rw [if_neg hof] at h
          have hdd := Option.some.inj h
          subst hdd
          refine ⟨⟨hlen, hszc, hadm, hnd⟩, rfl, ?_, ?_⟩
          . show sz + n ≤ NUM_U32
            omega
          . show max < inv32
            omega
  | Vu32 sz v =>
      obtain ⟨⟨h0, hLI, hwidth, hnd, hszlc, hstop⟩, hload⟩ := hWF
      have hIW : inv32 < 2 ^ 32 := by decide
      have hIE : inv32 = 2 ^ 32 - 1 := rfl
      have hiter : iterListD (Data.Vu32 sz v) = some (liveList inv32 v) := by
        show iterLoop inv32 v sz = some (liveList inv32 v)
        rw [hszlc]
        exact iterLoop_live inv32 v
      have hll : (liveList inv32 v).length = sz := by
        rw [hszlc]
        rfl
      simp only [reserveWithMax] at h
      by_cases hm : max ≥ inv32
      . rw [if_pos hm, hiter] at h
        cases h0eq : withMaxCap max (sz + n) with
        | none =>
            rw [h0eq] at h
            exact Option.noConfusion h
        | some d0 =>
            rw [h0eq] at h
            dsimp only at h
            obtain ⟨d2x, heq, hWF2, hlen2, hfit2, hroom2⟩ :=
              escalate_WF hash max (sz + n) d0 (liveList inv32 v) h0eq
                (liveList_nodup inv32 v hnd)
                (fun y hy => by
                  obtain ⟨hyv, hyi⟩ := (mem_liveList inv32 y v).mp hy
                  have := hwidth y hyv
                  exact ⟨by omega, by omega⟩)
                (by rw [hll]; omega)
            rw [heq] at h
            have hdd := Option.some.inj h
            subst hdd
            refine ⟨hWF2, ?_, ?_, hfit2⟩
            . rw [hlen2, hll]
              rfl
            . have he : sz + n - (liveList inv32 v).length = n := by
                rw [hll]
                omega
              rw [← he]
              exact hroom2
      . rw [if_neg hm] at h
        by_cases hof : sz + n > v.length * 10 / 11
        . rw [if_pos hof] at h
          have hnp := load_of_nextPow2 (sz + n)
          obtain ⟨w2, heq, hw2len, hLI2, hnd2, hlc2, hwidth2, hstop2⟩ :=
            resize_table hash inv32 (2 ^ 32) v
              (nextPow2 ((sz + n) * 11 / 10)) (nextPow2_pos _) hIW hnd
              hwidth (by rw [← hszlc]; omega)
          rw [heq] at h
          have hdd := Option.some.inj h
          subst hdd
          refine ⟨⟨⟨?_, hLI2, hwidth2, hnd2, ?_, hstop2⟩, ?_⟩, rfl, ?_, ?_⟩
          . rw [hw2len]
            exact nextPow2_pos _
          . rw [hlc2, ← hszlc]
          . rw [hw2len]
            omega
          . show 11 * (sz + n) ≤ 10 * w2.length + 9
            rw [hw2len]
            omega
          . show max < inv32
            omega
        . rw [if_neg hof] at h
          have hdd := Option.some.inj h
          subst hdd
          refine ⟨⟨⟨h0, hLI, hwidth, hnd, hszlc, hstop⟩, hload⟩, rfl, ?_,
            ?_⟩
          . show 11 * (sz + n) ≤ 10 * v.length + 9
            omega
          . show max < inv32
            omega
  | Su64 sz v =>
      obtain ⟨hlen, hszc, hadm, hnd⟩ := hWF
      have hIW : inv64 < 2 ^ 64 := by decide
      have hIE : inv64 = 2 ^ 64 - 1 := rfl
      simp only [reserveWithMax] at h
      by_cases hm : max ≥ inv64
      . rw [if_pos hm] at h
        cases h0eq : withMaxCap max (sz + n) with
        | none =>
            rw [h0eq] at h
            exact Option.noConfusion h
        | some d0 =>
            rw [h0eq] at h
            dsimp only at h
            have htl : (v.take sz).length = sz := by
              rw [List.length_take]
              omega
            obtain ⟨d2x, heq, hWF2, hlen2, hfit2, hroom2⟩ :=
              escalate_WF hash max (sz + n) d0 (v.take sz) h0eq hnd
                (fun y hy => ⟨by have := hadm y hy; omega,
                  by have := hadm y hy; omega⟩)
                (by rw [htl]; omega)
            rw [heq] at h
            have hdd := Option.some.inj h
            subst hdd
            refine ⟨hWF2, ?_, ?_, hfit2⟩
            . rw [hlen2, htl]
              rfl
            . have he : sz + n - (v.take sz).length = n := by
                rw [htl]
                omega
              rw [← he]
              exact hroom2
      . rw [if_neg hm] at h
        by_cases hof : sz + n > NUM_U64
        . rw [if_pos hof] at h
          have hnp := load_of_nextPow2 (sz + n)
          have hWF0 : WF hash (Data.Vu64 0
              (List.replicate (nextPow2 ((sz + n) * 11 / 10)) inv64)) :=
            ⟨WFtable_replicate hash inv64 (2 ^ 64) 0 _ (nextPow2_pos _)
              (by decide) rfl, by omega⟩
          have htl : (v.take sz).length = sz := by
            rw [List.length_take]
            omega
          obtain ⟨d2x, heq, hWF2, hform2, hcap2, hlen2, hroomt, hfitst⟩ :=
            foldInsert_WF hash (v.take sz) _ hWF0 hnd
              (fun y hy =>
                ⟨by show y < inv64; exact hadm y hy,
                 by show y % 2 ^ 64 = y
                    have := hadm y hy
                    exact Nat.mod_eq_of_lt (by omega),
                 by show (liveList inv64 (List.replicate
                      (nextPow2 ((sz + n) * 11 / 10)) inv64)).count y = 0
                    rw [liveList_replicate]
                    rfl⟩)
              (by show 11 * (0 + (v.take sz).length) ≤
                    10 * (List.replicate (nextPow2 ((sz + n) * 11 / 10))
                      inv64).length + 9
                  rw [htl, List.length_replicate]
                  omega)
          rw [heq] at h
          have hdd := Option.some.inj h
          subst hdd
          refine ⟨hWF2, ?_, ?_, ?_⟩
          . rw [hlen2, htl]
            simp [lenD]
          . apply hroomt
            show 11 * (0 + ((v.take sz).length + n)) ≤
              10 * (List.replicate (nextPow2 ((sz + n) * 11 / 10))
                inv64).length + 9
            rw [htl, List.length_replicate]
            omega
          . apply hfitst
            show max < inv64
            omega
        . rw [if_neg hof] at h
          have hdd := Option.some.inj h
          subst hdd
          refine ⟨⟨hlen, hszc, hadm, hnd⟩, rfl, ?_, ?_⟩
          . show sz + n ≤ NUM_U64
            omega
          . show max < inv64
            omega
  | Vu64 sz v =>
      obtain ⟨⟨h0, hLI, hwidth, hnd, hszlc, hstop⟩, hload⟩ := hWF
      have hIW : inv64 < 2 ^ 64 := by decide
      have hIE : inv64 = 2 ^ 64 - 1 := rfl
      have hiter : iterListD (Data.Vu64 sz v) = some (liveList inv64 v) := by
        show iterLoop inv64 v sz = some (liveList inv64 v)
        rw [hszlc]
        exact iterLoop_live inv64 v
      have hll : (liveList inv64 v).length = sz := by
        rw [hszlc]
        rfl
      simp only [reserveWithMax] at h
      by_cases hm : max ≥ inv64
      . rw [if_pos hm] at h
        exact Option.noConfusion h
      . rw [if_neg hm] at h
        by_cases hof : sz + n > v.length * 10 / 11
        . rw [if_pos hof] at h
          have hnp := load_of_nextPow2 (sz + n)
          obtain ⟨w2, heq, hw2len, hLI2, hnd2, hlc2, hwidth2, hstop2⟩ :=
            resize_table hash inv64 (2 ^ 64) v
              (nextPow2 ((sz + n) * 11 / 10)) (nextPow2_pos _) hIW hnd
              hwidth (by rw [← hszlc]; omega)
          rw [heq] at h
          have hdd := Option.some.inj h
          subst hdd
          refine ⟨⟨⟨?_, hLI2, hwidth2, hnd2, ?_, hstop2⟩, ?_⟩, rfl, ?_, ?_⟩
          . rw [hw2len]
            exact nextPow2_pos _
          . rw [hlc2, ← hszlc]
          . rw [hw2len]
            omega
          . show 11 * (sz + n) ≤ 10 * w2.length + 9
            rw [hw2len]
            omega
          . show max < inv64
            omega
        . rw [if_neg hof] at h
          have hdd := Option.some.inj h
          subst hdd
          refine ⟨⟨⟨h0, hLI, hwidth, hnd, hszlc, hstop⟩, hload⟩, rfl, ?_,
            ?_⟩
          . show 11 * (sz + n) ≤ 10 * v.length + 9
            omega
          . show max < inv64
            omega
  | Badu64 sz v =>
      obtain ⟨t, inv, hv, hinvN, ⟨h0, hLI, hwidth, hnd, hszlc, hstop⟩,
        hload, halloc⟩ := hWF
      subst hv
      have hlenc : (t ++ [inv]).length = t.length + 1 := by simp
      simp only [reserveWithMax] at h
      by_cases hof : sz + n + 1 > (t ++ [inv]).length * 10 / 11
      . rw [if_pos hof, getD_concat_last] at h
        by_cases hall : nextPow2 ((sz + n + 1) * 11 / 10) + 1 ≤ ALLOC_U64
        . rw [if_pos hall] at h
          have hnp := load_of_nextPow2 (sz + n + 1)
          obtain ⟨w2, heq, hw2len, hLI2, hnd2, hlc2, hwidth2, hstop2⟩ :=
            resize_table hash inv (2 ^ 64) (t ++ [inv])
              (nextPow2 ((sz + n + 1) * 11 / 10)) (nextPow2_pos _) hinvN
              (nodupLive_concat_inv inv t hnd)
              (fun y hy => by
                rcases List.mem_append.mp hy with hy1 | hy1
                . exact hwidth y hy1
                . rw [List.mem_singleton.mp hy1]
                  exact hinvN)
              (by rw [liveCount_concat_inv, ← hszlc]; omega)
          rw [heq] at h
          have hdd := Option.some.inj h
          subst hdd
          refine ⟨⟨w2, inv, rfl, hinvN,
            ⟨?_, hLI2, hwidth2, hnd2, ?_, hstop2⟩, ?_, ?_⟩, rfl, ?_,
            trivial⟩
          . rw [hw2len]
            exact nextPow2_pos _
          . rw [hlc2, liveCount_concat_inv]
            exact hszlc
          . rw [hw2len]
            omega
          . rw [hw2len]
            omega
          . show 11 * (sz + n + 1) ≤ 10 * (w2 ++ [inv]).length + 9
            have hl2 : (w2 ++ [inv]).length =
                nextPow2 ((sz + n + 1) * 11 / 10) + 1 := by simp [hw2len]
            rw [hl2]
            omega
        . rw [if_neg hall] at h
          exact Option.noConfusion h
      . rw [if_neg hof] at h
        have hdd := Option.some.inj h
        subst hdd
        refine ⟨⟨t, inv, rfl, hinvN,
          ⟨h0, hLI, hwidth, hnd, hszlc, hstop⟩, hload, halloc⟩, rfl, ?_,
          trivial⟩
        show 11 * (sz + n + 1) ≤ 10 * (t ++ [inv]).length + 9
        omega


/-- `remove` preserves well-formedness. -/
theorem removeOp_WF (hash : Nat → Nat) (d : Data) (x : Nat) (d2 : Data)
    (b : Bool) (hWF : WF hash d) (h : removeOp hash d x = some (d2, b)) :
    WF hash d2 := by
  cases d with
  | Su8 sz v =>
      have hWFs : WFsmall inv8 NUM_U8 sz v := hWF
      simp only [removeOp] at h
      by_cases hg : x ≥ inv8
      . rw [if_pos hg] at h
        have h2 : Data.Su8 sz v = d2 :=
          congrArg Prod.fst (Option.some.inj h)
        subst h2
        exact hWFs
      . rw [if_neg hg] at h
        obtain ⟨v2, sz2, b2, heqr, hWF2, hlen2, hcase⟩ :=
          smallRemove_WF inv8 NUM_U8 sz v (x % 2 ^ 8) hWFs
        rw [heqr] at h
        have h2 : Data.Su8 sz2 v2 = d2 :=
          congrArg Prod.fst (Option.some.inj h)
        subst h2
        exact hWF2
  | Vu8 sz v =>
      obtain ⟨⟨h0, hLI, hwidth, hnd, hszlc, hstop⟩, hload⟩ := hWF
      have hIW : inv8 < 2 ^ 8 := by decide
      simp only [removeOp] at h
      by_cases hg : x ≥ inv8
      . rw [if_pos hg] at h
        have h2 : Data.Vu8 sz v = d2 :=
          congrArg Prod.fst (Option.some.inj h)
        subst h2
        exact ⟨⟨h0, hLI, hwidth, hnd, hszlc, hstop⟩, hload⟩
      . rw [if_neg hg] at h
        cases hs : search hash v (x % 2 ^ 8) inv8 with
        | none =>
            rw [hs] at h
            exact Option.noConfusion h
        | some r =>
            rw [hs] at h
            cases r with
            | Present i =>
                dsimp only at h
                obtain ⟨hslot, hiL, hstale⟩ :=
                  searchLoop_present_val hash inv8 v (x % 2 ^ 8) h0
                    (v.length + 1) 0 i hs
                obtain ⟨w, heqb, hwlen, hLI2, hlc2, hcounts2⟩ :=
                  backShift_from_present hash inv8 v i h0 hLI hiL hstale
                    hstop
                rw [heqb] at h
                have h2 : Data.Vu8 (sz - 1) w = d2 :=
                  congrArg Prod.fst (Option.some.inj h)
                subst h2
                have hle : liveCount inv8 v ≤ v.length :=
                  List.length_filter_le _ v
                refine ⟨⟨?_, hLI2, ?_, ?_, ?_, ?_⟩, ?_⟩
                . rw [hwlen]
                  exact h0
                . intro y hy
                  by_cases hyi : y = inv8
                  . rw [hyi]
                    omega
                  . have hc := hcounts2 y hyi
                    have hpos : 0 < w.count y := List.count_pos_iff.mpr hy
                    have hyv : y ∈ v := by
                      rw [← List.count_pos_iff]
                      omega
                    exact hwidth y hyv
                . intro y hy
                  have hc := hcounts2 y hy
                  have := hnd y hy
                  omega
                . omega
                . intro hfull
                  rw [hwlen] at hfull
                  omega
                . show 11 * (sz - 1) ≤ 10 * w.length + 9
                  rw [hwlen]
                  omega
            | Empty i =>
                dsimp only at h
                have h2 : Data.Vu8 sz v = d2 :=
                  congrArg Prod.fst (Option.some.inj h)
                subst h2
                exact ⟨⟨h0, hLI, hwidth, hnd, hszlc, hstop⟩, hload⟩
            | Richer i =>
                dsimp only at h
                have h2 : Data.Vu8 sz v = d2 :=
                  congrArg Prod.fst (Option.some.inj h)
                subst h2
                exact ⟨⟨h0, hLI, hwidth, hnd, hszlc, hstop⟩, hload⟩
  | Su16 sz v =>
      have hWFs : WFsmall inv16 NUM_U16 sz v := hWF
      simp only [removeOp] at h
      by_cases hg : x ≥ inv16
      . rw [if_pos hg] at h
        have h2 : Data.Su16 sz v = d2 :=
          congrArg Prod.fst (Option.some.inj h)
        subst h2
        exact hWFs
      . rw [if_neg hg] at h
        obtain ⟨v2, sz2, b2, heqr, hWF2, hlen2, hcase⟩ :=
          smallRemove_WF inv16 NUM_U16 sz v (x % 2 ^ 16) hWFs
        rw [heqr] at h
        have h2 : Data.Su16 sz2 v2 = d2 :=
          congrArg Prod.fst (Option.some.inj h)
        subst h2
        exact hWF2
  | Vu16 sz v =>
      obtain ⟨⟨h0, hLI, hwidth, hnd, hszlc, hstop⟩, hload⟩ := hWF
      have hIW : inv16 < 2 ^ 16 := by decide
      simp only [removeOp] at h
      by_cases hg : x ≥ inv16
      . rw [if_pos hg] at h
        have h2 : Data.Vu16 sz v = d2 :=
          congrArg Prod.fst (Option.some.inj h)
        subst h2
        exact ⟨⟨h0, hLI, hwidth, hnd, hszlc, hstop⟩, hload⟩
      . rw [if_neg hg] at h
        cases hs : search hash v (x % 2 ^ 16) inv16 with
        | none =>
            rw [hs] at h
            exact Option.noConfusion h
        | some r =>
            rw [hs] at h
            cases r with
            | Present i =>
                dsimp only at h
                obtain ⟨hslot, hiL, hstale⟩ :=
                  searchLoop_present_val hash inv16 v (x % 2 ^ 16) h0
                    (v.length + 1) 0 i hs
                obtain ⟨w, heqb, hwlen, hLI2, hlc2, hcounts2⟩ :=
                  backShift_from_present hash inv16 v i h0 hLI hiL hstale
                    hstop
                rw [heqb] at h
                have h2 : Data.Vu16 (sz - 1) w = d2 :=
                  congrArg Prod.fst (Option.some.inj h)
                subst h2
                have hle : liveCount inv16 v ≤ v.length :=
                  List.length_filter_le _ v
                refine ⟨⟨?_, hLI2, ?_, ?_, ?_, ?_⟩, ?_⟩
                . rw [hwlen]
                  exact h0
                . intro y hy
                  by_cases hyi : y = inv16
                  . rw [hyi]
                    omega
                  . have hc := hcounts2 y hyi
                    have hpos : 0 < w.count y := List.count_pos_iff.mpr hy
                    have hyv : y ∈ v := by
                      rw [← List.count_pos_iff]
                      omega
                    exact hwidth y hyv
                . intro y hy
                  have hc := hcounts2 y hy
                  have := hnd y hy
                  omega
                . omega
                . intro hfull
                  rw [hwlen] at hfull
                  omega
                . show 11 * (sz - 1) ≤ 10 * w.length + 9
                  rw [hwlen]
                  omega
            | Empty i =>
                dsimp only at h
                have h2 : Data.Vu16 sz v = d2 :=
                  congrArg Prod.fst (Option.some.inj h)
                subst h2
                exact ⟨⟨h0, hLI, hwidth, hnd, hszlc, hstop⟩, hload⟩
            | Richer i =>
                dsimp only at h
                have h2 : Data.Vu16 sz v = d2 :=
                  congrArg Prod.fst (Option.some.inj h)
                subst h2
                exact ⟨⟨h0, hLI, hwidth, hnd, hszlc, hstop⟩, hload⟩
  | Su32 sz v =>
      have hWFs : WFsmall inv32 NUM_U32 sz v := hWF
      simp only [removeOp] at h
      by_cases hg : x ≥ inv32
      . rw [if_pos hg] at h
        have h2 : Data.Su32 sz v = d2 :=
          congrArg Prod.fst (Option.some.inj h)
        subst h2
        exact hWFs
      . rw [if_neg hg] at h
        obtain ⟨v2, sz2, b2, heqr, hWF2, hlen2, hcase⟩ :=
          smallRemove_WF inv32 NUM_U32 sz v (x % 2 ^ 32) hWFs
        rw [heqr] at h
        have h2 : Data.Su32 sz2 v2 = d2 :=
          congrArg Prod.fst (Option.some.inj h)
        subst h2
        exact hWF2
  | Vu32 sz v =>
      obtain ⟨⟨h0, hLI, hwidth, hnd, hszlc, hstop⟩, hload⟩ := hWF
      have hIW : inv32 < 2 ^ 32 := by decide
      simp only [removeOp] at h
      by_cases hg : x ≥ inv32
      . rw [if_pos hg] at h
        have h2 : Data.Vu32 sz v = d2 :=
          congrArg Prod.fst (Option.some.inj h)
        subst h2
        exact ⟨⟨h0, hLI, hwidth, hnd, hszlc, hstop⟩, hload⟩
      . rw [if_neg hg] at h
        cases hs : search hash v (x % 2 ^ 32) inv32 with
        | none =>
            rw [hs] at h
            exact Option.noConfusion h
        | some r =>
            rw [hs] at h
            cases r with
            | Present i =>
                dsimp only at h
                obtain ⟨hslot, hiL, hstale⟩ :=
                  searchLoop_present_val hash inv32 v (x % 2 ^ 32) h0
                    (v.length + 1) 0 i hs
                obtain ⟨w, heqb, hwlen, hLI2, hlc2, hcounts2⟩ :=
                  backShift_from_present hash inv32 v i h0 hLI hiL hstale
                    hstop
                rw [heqb] at h
                have h2 : Data.Vu32 (sz - 1) w = d2 :=
                  congrArg Prod.fst (Option.some.inj h)
                subst h2
                have hle : liveCount inv32 v ≤ v.length :=
                  List.length_filter_le _ v
                refine ⟨⟨?_, hLI2, ?_, ?_, ?_, ?_⟩, ?_⟩
                . rw [hwlen]
                  exact h0
                . intro y hy
                  by_cases hyi : y = inv32
                  . rw [hyi]
                    omega
                  . have hc := hcounts2 y hyi
                    have hpos : 0 < w.count y := List.count_pos_iff.mpr hy
                    have hyv : y ∈ v := by
                      rw [← List.count_pos_iff]
                      omega
                    exact hwidth y hyv
                . intro y hy
                  have hc := hcounts2 y hy
                  have := hnd y hy
                  omega
                . omega
                . intro hfull
                  rw [hwlen] at hfull
                  omega
                . show 11 * (sz - 1) ≤ 10 * w.length + 9
                  rw [hwlen]
                  omega
            | Empty i =>
                dsimp only at h
                have h2 : Data.Vu32 sz v = d2 :=
                  congrArg Prod.fst (Option.some.inj h)
                subst h2
                exact ⟨⟨h0, hLI, hwidth, hnd, hszlc, hstop⟩, hload⟩
            | Richer i =>
                dsimp only at h
                have h2 : Data.Vu32 sz v = d2 :=
                  congrArg Prod.fst (Option.some.inj h)
                subst h2
                exact ⟨⟨h0, hLI, hwidth, hnd, hszlc, hstop⟩, hload⟩
  | Su64 sz v =>
      have hWFs : WFsmall inv64 NUM_U64 sz v := hWF
      simp only [removeOp] at h
      by_cases hg : x ≥ inv64
      . rw [if_pos hg] at h
        have h2 : Data.Su64 sz v = d2 :=
          congrArg Prod.fst (Option.some.inj h)
        subst h2
        exact hWFs
      . rw [if_neg hg] at h
        obtain ⟨v2, sz2, b2, heqr, hWF2, hlen2, hcase⟩ :=
          smallRemove_WF inv64 NUM_U64 sz v (x % 2 ^ 64) hWFs
        rw [heqr] at h
        have h2 : Data.Su64 sz2 v2 = d2 :=
          congrArg Prod.fst (Option.some.inj h)
        subst h2
        exact hWF2
  | Vu64 sz v =>
      obtain ⟨⟨h0, hLI, hwidth, hnd, hszlc, hstop⟩, hload⟩ := hWF
      have hIW : inv64 < 2 ^ 64 := by decide
      simp only [removeOp] at h
      by_cases hg : x ≥ inv64
      . rw [if_pos hg] at h
        have h2 : Data.Vu64 sz v = d2 :=
          congrArg Prod.fst (Option.some.inj h)
        subst h2
        exact ⟨⟨h0, hLI, hwidth, hnd, hszlc, hstop⟩, hload⟩
      . rw [if_neg hg] at h
        cases hs : search hash v (x % 2 ^ 64) inv64 with
        | none =>
            rw [hs] at h
            exact Option.noConfusion h
        | some r =>
            rw [hs] at h
            cases r with
            | Present i =>
                dsimp only at h
                obtain ⟨hslot, hiL, hstale⟩ :=
                  searchLoop_present_val hash inv64 v (x % 2 ^ 64) h0
                    (v.length + 1) 0 i hs
                obtain ⟨w, heqb, hwlen, hLI2, hlc2, hcounts2⟩ :=
                  backShift_from_present hash inv64 v i h0 hLI hiL hstale
                    hstop
                rw [heqb] at h
                have h2 : Data.Vu64 (sz - 1) w = d2 :=
                  congrArg Prod.fst (Option.some.inj h)
                subst h2
                have hle : liveCount inv64 v ≤ v.length :=
                  List.length_filter_le _ v
                refine ⟨⟨?_, hLI2, ?_, ?_, ?_, ?_⟩, ?_⟩
                . rw [hwlen]
                  exact h0
                . intro y hy
                  by_cases hyi : y = inv64
                  . rw [hyi]
                    omega
                  . have hc := hcounts2 y hyi
                    have hpos : 0 < w.count y := List.count_pos_iff.mpr hy
                    have hyv : y ∈ v := by
                      rw [← List.count_pos_iff]
                      omega
                    exact hwidth y hyv
                . intro y hy
                  have hc := hcounts2 y hy
                  have := hnd y hy
                  omega
                . omega
                . intro hfull
                  rw [hwlen] at hfull
                  omega
                . show 11 * (sz - 1) ≤ 10 * w.length + 9
                  rw [hwlen]
                  omega
            | Empty i =>
                dsimp only at h
                have h2 : Data.Vu64 sz v = d2 :=
                  congrArg Prod.fst (Option.some.inj h)
                subst h2
                exact ⟨⟨h0, hLI, hwidth, hnd, hszlc, hstop⟩, hload⟩
            | Richer i =>
                dsimp only at h
                have h2 : Data.Vu64 sz v = d2 :=
                  congrArg Prod.fst (Option.some.inj h)
                subst h2
                exact ⟨⟨h0, hLI, hwidth, hnd, hszlc, hstop⟩, hload⟩
  | Badu64 sz v =>
      obtain ⟨t, inv, hv, hinvN, ⟨h0, hLI, hwidth, hnd, hszlc, hstop⟩,
        hload, halloc⟩ := hWF
      subst hv
      simp only [removeOp] at h
      rw [getD_concat_last, List.dropLast_concat] at h
      by_cases hg : x = inv
      . rw [if_pos hg] at h
        have h2 : Data.Badu64 sz (t ++ [inv]) = d2 :=
          congrArg Prod.fst (Option.some.inj h)
        subst h2
        exact ⟨t, inv, rfl, hinvN, ⟨h0, hLI, hwidth, hnd, hszlc, hstop⟩,
          hload, halloc⟩
      . rw [if_neg hg] at h
        cases hs : search hash t (x % 2 ^ 64) inv with
        | none =>
            rw [hs] at h
            exact Option.noConfusion h
        | some r =>
            rw [hs] at h
            cases r with
            | Present i =>
                dsimp only at h
                have hlend : (t ++ [inv]).length - 1 + 1 = t.length + 1 := by
                  simp
                rw [hlend] at h
                obtain ⟨hslot, hiL, hstale⟩ :=
                  searchLoop_present_val hash inv t (x % 2 ^ 64) h0
                    (t.length + 1) 0 i hs
                obtain ⟨w, heqb, hwlen, hLI2, hlc2, hcounts2⟩ :=
                  backShift_from_present hash inv t i h0 hLI hiL hstale
                    hstop
                rw [heqb] at h
                have h2 : Data.Badu64 (sz - 1) (w ++ [inv]) = d2 :=
                  congrArg Prod.fst (Option.some.inj h)
                subst h2
                have hle : liveCount inv t ≤ t.length :=
                  List.length_filter_le _ t
                refine ⟨w, inv, rfl, hinvN, ⟨?_, hLI2, ?_, ?_, ?_, ?_⟩,
                  ?_, ?_⟩
                . rw [hwlen]
                  exact h0
                . intro y hy
                  by_cases hyi : y = inv
                  . rw [hyi]
                    exact hinvN
                  . have hc := hcounts2 y hyi
                    have hpos : 0 < w.count y := List.count_pos_iff.mpr hy
                    have hyv : y ∈ t := by
                      rw [← List.count_pos_iff]
                      omega
                    exact hwidth y hyv
                . intro y hy
                  have hc := hcounts2 y hy
                  have := hnd y hy
                  omega
                . omega
                . intro hfull
                  rw [hwlen] at hfull
                  omega
                . rw [hwlen]
                  omega
                . rw [hwlen]
                  exact halloc
            | Empty i =>
                dsimp only at h
                have h2 : Data.Badu64 sz (t ++ [inv]) = d2 :=
                  congrArg Prod.fst (Option.some.inj h)
                subst h2
                exact ⟨t, inv, rfl, hinvN,
                  ⟨h0, hLI, hwidth, hnd, hszlc, hstop⟩, hload, halloc⟩
            | Richer i =>
                dsimp only at h
                have h2 : Data.Badu64 sz (t ++ [inv]) = d2 :=
                  congrArg Prod.fst (Option.some.inj h)
                subst h2
                exact ⟨t, inv, rfl, hinvN,
                  ⟨h0, hLI, hwidth, hnd, hszlc, hstop⟩, hload, halloc⟩


/-- `reserve` preserves well-formedness (it is implemented only for the
inline 8-bit form). -/
theorem reserveOp_WF (hash : Nat → Nat) (d d2 : Data) (n : Nat)
    (hWF : WF hash d) (h : reserveOp hash d n = some d2) :
    WF hash d2 := by
  cases d with
  | Su8 sz v =>
      obtain ⟨hlen, hszc, hadm, hnd⟩ := hWF
      simp only [reserveOp] at h
      by_cases hof : sz + n > NUM_U8
      . rw [if_pos hof] at h
        have hnp := load_of_nextPow2 (sz + n)
        have hWF0 : WF hash (Data.Vu8 0
            (List.replicate (nextPow2 ((sz + n) * 11 / 10)) inv8)) :=
          ⟨WFtable_replicate hash inv8 (2 ^ 8) 0 _ (nextPow2_pos _)
            (by decide) rfl, by omega⟩
        have htl : (v.take sz).length = sz := by
          rw [List.length_take]
          omega
        obtain ⟨d2x, heq, hWF2, hform2, hcap2, hlen2, hroomt, hfitst⟩ :=
          foldInsert_WF hash (v.take sz) _ hWF0 hnd
            (fun y hy =>
              ⟨by show y < inv8; exact hadm y hy,
               by show y % 2 ^ 8 = y
                  have := hadm y hy
                  have hIW : inv8 < 2 ^ 8 := by decide
                  exact Nat.mod_eq_of_lt (by omega),
               by show (liveList inv8 (List.replicate
                    (nextPow2 ((sz + n) * 11 / 10)) inv8)).count y = 0
                  rw [liveList_replicate]
                  rfl⟩)
            (by show 11 * (0 + (v.take sz).length) ≤
                  10 * (List.replicate (nextPow2 ((sz + n) * 11 / 10))
                    inv8).length + 9
                rw [htl, List.length_replicate]
                omega)
        rw [heq] at h
        have hdd := Option.some.inj h
        subst hdd
        exact hWF2
      . rw [if_neg hof] at h
        have hdd := Option.some.inj h
        subst hdd
        exact ⟨hlen, hszc, hadm, hnd⟩
  | Vu8 sz v => exact Option.noConfusion h
  | Su16 sz v => exact Option.noConfusion h
  | Vu16 sz v => exact Option.noConfusion h
  | Su32 sz v => exact Option.noConfusion h
  | Vu32 sz v => exact Option.noConfusion h
  | Su64 sz v => exact Option.noConfusion h
  | Vu64 sz v => exact Option.noConfusion h
  | Badu64 sz v => exact Option.noConfusion h

/-- `insert` preserves well-formedness: the reserve call leaves room and
an admissible representation, and the insert body keeps the invariants. -/
theorem insertOp_WF (hash : Nat → Nat) (d : Data) (x : Nat) (d2 : Data)
    (b : Bool) (hWF : WF hash d) (h : insertOp hash d x = some (d2, b)) :
    WF hash d2 := by
  unfold insertOp at h
  cases hres : reserveWithMax hash d x 1 with
  | none =>
      rw [hres] at h
      exact Option.noConfusion h
  | some d1 =>
      rw [hres] at h
      dsimp only at h
      obtain ⟨hWF1, _, hroom1, hfit1⟩ :=
        reserveWithMax_WF hash d x 1 d1 hWF hres
      obtain ⟨d2x, b2, heq, hWF2, _, _, _, _, _, _, _⟩ :=
        insertUnchecked_WF hash d1 x hWF1 hfit1 hroom1
      rw [heq] at h
      have h2 : d2x = d2 := congrArg Prod.fst (Option.some.inj h)
      subst h2
      exact hWF2

/-- Every reachable state is well-formed. -/
theorem Reach_WF (hash : Nat → Nat) (d : Data) (hR : Reach hash d) :
    WF hash d := by
  induction hR with
  | capacity cap => exact (withCapacity_WF hash cap).1
  | maxCapacity max cap d h => exact (withMaxCap_WF hash max cap d h).1
  | insertStep d d2 x b hR heq ih => exact insertOp_WF hash d x d2 b ih heq
  | removeStep d d2 x b hR heq ih => exact removeOp_WF hash d x d2 b ih heq
  | reserveStep d d2 n hR heq ih => exact reserveOp_WF hash d d2 n ih heq
  | reserveMaxStep d d2 max n hR heq ih =>
      exact (reserveWithMax_WF hash d max n d2 ih heq).1
  | drainStep d hR ih => exact drained_WF hash d ih

/-- Well-formedness implies the load bound on the actual live count. -/
theorem WF_loadOK (hash : Nat → Nat) (d : Data) (hWF : WF hash d) :
    loadOK d := by
  cases d with
  | Su8 sz v => trivial
  | Su16 sz v => trivial
  | Su32 sz v => trivial
  | Su64 sz v => trivial
  | Vu8 sz v =>
      obtain ⟨⟨_, _, _, _, hszlc, _⟩, hload⟩ := hWF
      show 11 * liveCount inv8 v ≤ 10 * v.length + 9
      omega
  | Vu16 sz v =>
      obtain ⟨⟨_, _, _, _, hszlc, _⟩, hload⟩ := hWF
      show 11 * liveCount inv16 v ≤ 10 * v.length + 9
      omega
  | Vu32 sz v =>
      obtain ⟨⟨_, _, _, _, hszlc, _⟩, hload⟩ := hWF
      show 11 * liveCount inv32 v ≤ 10 * v.length + 9
      omega
  | Vu64 sz v =>
      obtain ⟨⟨_, _, _, _, hszlc, _⟩, hload⟩ := hWF
      show 11 * liveCount inv64 v ≤ 10 * v.length + 9
      omega
  | Badu64 sz v =>
      obtain ⟨t, inv, hv, hinvN, ⟨_, _, _, _, hszlc, _⟩, hload, halloc⟩ :=
        hWF
      subst hv
      show 11 * (liveCount ((t ++ [inv]).getD ((t ++ [inv]).length - 1) 0)
        (t ++ [inv]).dropLast + 1) ≤ 10 * (t ++ [inv]).length + 9
      rw [getD_concat_last, List.dropLast_concat]
      have hlenc : (t ++ [inv]).length = t.length + 1 := by simp
      rw [hlenc]
      omega

/-- The live count is invariant under reversal. -/
theorem liveCount_reverse (inv : Nat) (s : List Nat) :
    liveCount inv s.reverse = liveCount inv s := by
  unfold liveCount
  rw [List.filter_reverse, List.length_reverse]

/-- The live cells of the reversed table are the reversed live cells. -/
theorem liveList_reverse (inv : Nat) (s : List Nat) :
    liveList inv s.reverse = (liveList inv s).reverse := by
  unfold liveList
  rw [List.filter_reverse]

/-- The iterator loop skips a leading sentinel cell. -/
theorem iterLoop_skip (inv : Nat) (s : List Nat) (n : Nat) :
    iterLoop inv (inv :: s) n = iterLoop inv s n := by
  cases n with
  | zero => simp [iterLoop]
  | succ m => simp [iterLoop]

/-- `contains` on the inline form `Su8` answers prefix membership for
admissible prefixes. -/
theorem mem_iff_containsB_Su8 (hash : Nat → Nat) (sz : Nat)
    (v : List Nat) (hadm : ∀ y ∈ v.take sz, y < inv8) (y : Nat) :
    y ∈ v.take sz ↔ containsB hash (Data.Su8 sz v) y = true := by
  have hIW : inv8 < 2 ^ 8 := by decide
  constructor
  . intro hm
    have hy : y < inv8 := hadm y hm
    have hg : ¬ y ≥ inv8 := by omega
    have hym : y % 2 ^ 8 = y := Nat.mod_eq_of_lt (by omega)
    cases hf : (v.take sz).findIdx? (fun z => z == y % 2 ^ 8) with
    | none =>
        exfalso
        have h2 := List.findIdx?_eq_none_iff.mp hf y hm
        rw [hym] at h2
        simp at h2
    | some i =>
        show containsB hash (Data.Su8 sz v) y = true
        simp only [containsB, containsOp]
        rw [if_neg hg, hf]
  . intro hc
    by_cases hg : y ≥ inv8
    . exfalso
      have h2 : containsB hash (Data.Su8 sz v) y = false := by
        simp only [containsB, containsOp]
        rw [if_pos hg]
      rw [h2] at hc
      cases hc
    . have hym : y % 2 ^ 8 = y := Nat.mod_eq_of_lt (by omega)
      cases hf : (v.take sz).findIdx? (fun z => z == y % 2 ^ 8) with
      | none =>
          exfalso
          have h2 : containsB hash (Data.Su8 sz v) y = false := by
            simp only [containsB, containsOp]
            rw [if_neg hg, hf]
          rw [h2] at hc
          cases hc
      | some i =>
          obtain ⟨hiL, hip⟩ := findIdx?_some_facts _ _ _ hf
          have hpv : (v.take sz).getD i 0 = y := by
            rw [hym] at hip
            simpa using hip
          rw [← hpv]
          apply slotVal_mem
          exact hiL

/-- `contains` on the inline form `Su16` answers prefix membership for
admissible prefixes. -/
theorem mem_iff_containsB_Su16 (hash : Nat → Nat) (sz : Nat)
    (v : List Nat) (hadm : ∀ y ∈ v.take sz, y < inv16) (y : Nat) :
    y ∈ v.take sz ↔ containsB hash (Data.Su16 sz v) y = true := by
  have hIW : inv16 < 2 ^ 16 := by decide
  constructor
  . intro hm
    have hy : y < inv16 := hadm y hm
    have hg : ¬ y ≥ inv16 := by omega
    have hym : y % 2 ^ 16 = y := Nat.mod_eq_of_lt (by omega)
    cases hf : (v.take sz).findIdx? (fun z => z == y % 2 ^ 16) with
    | none =>
        exfalso
        have h2 := List.findIdx?_eq_none_iff.mp hf y hm
        rw [hym] at h2
        simp at h2
    | some i =>
        show containsB hash (Data.Su16 sz v) y = true
        simp only [containsB, containsOp]
        rw [if_neg hg, hf]
  . intro hc
    by_cases hg : y ≥ inv16
    . exfalso
      have h2 : containsB hash (Data.Su16 sz v) y = false := by
        simp only [containsB, containsOp]
        rw [if_pos hg]
      rw [h2] at hc
      cases hc
    . have hym : y % 2 ^ 16 = y := Nat.mod_eq_of_lt (by omega)
      cases hf : (v.take sz).findIdx? (fun z => z == y % 2 ^ 16) with
      | none =>
          exfalso
          have h2 : containsB hash (Data.Su16 sz v) y = false := by
            simp only [containsB, containsOp]
            rw [if_neg hg, hf]
          rw [h2] at hc
          cases hc
      | some i =>
          obtain ⟨hiL, hip⟩ := findIdx?_some_facts _ _ _ hf
          have hpv : (v.take sz).getD i 0 = y := by
            rw [hym] at hip
            simpa using hip
          rw [← hpv]
          apply slotVal_mem
          exact hiL

/-- `contains` on the inline form `Su32` answers prefix membership for
admissible prefixes. -/
theorem mem_iff_containsB_Su32 (hash : Nat → Nat) (sz : Nat)
    (v : List Nat) (hadm : ∀ y ∈ v.take sz, y < inv32) (y : Nat) :
    y ∈ v.take sz ↔ containsB hash (Data.Su32 sz v) y = true := by
  have hIW : inv32 < 2 ^ 32 := by decide
  constructor
  . intro hm
    have hy : y < inv32 := hadm y hm
    have hg : ¬ y ≥ inv32 := by omega
    have hym : y % 2 ^ 32 = y := Nat.mod_eq_of_lt (by omega)
    cases hf : (v.take sz).findIdx? (fun z => z == y % 2 ^ 32) with
    | none =>
        exfalso
        have h2 := List.findIdx?_eq_none_iff.mp hf y hm
        rw [hym] at h2
        simp at h2
    | some i =>
        show containsB hash (Data.Su32 sz v) y = true
        simp only [containsB, containsOp]
        rw [if_neg hg, hf]
  . intro hc
    by_cases hg : y ≥ inv32
    . exfalso
      have h2 : containsB hash (Data.Su32 sz v) y = false := by
        simp only [containsB, containsOp]
        rw [if_pos hg]
      rw [h2] at hc
      cases hc
    . have hym : y % 2 ^ 32 = y := Nat.mod_eq_of_lt (by omega)
      cases hf : (v.take sz).findIdx? (fun z => z == y % 2 ^ 32) with
      | none =>
          exfalso
          have h2 : containsB hash (Data.Su32 sz v) y = false := by
            simp only [containsB, containsOp]
            rw [if_neg hg, hf]
          rw [h2] at hc
          cases hc
      | some i =>
          obtain ⟨hiL, hip⟩ := findIdx?_some_facts _ _ _ hf
          have hpv : (v.take sz).getD i 0 = y := by
            rw [hym] at hip
            simpa using hip
          rw [← hpv]
          apply slotVal_mem
          exact hiL

/-- `contains` on the inline form `Su64` answers prefix membership for
admissible prefixes. -/
theorem mem_iff_containsB_Su64 (hash : Nat → Nat) (sz : Nat)
    (v : List Nat) (hadm : ∀ y ∈ v.take sz, y < inv64) (y : Nat) :
    y ∈ v.take sz ↔ containsB hash (Data.Su64 sz v) y = true := by
  have hIW : inv64 < 2 ^ 64 := by decide
  constructor
  . intro hm
    have hy : y < inv64 := hadm y hm
    have hg : ¬ y ≥ inv64 := by omega
    have hym : y % 2 ^ 64 = y := Nat.mod_eq_of_lt (by omega)
    cases hf : (v.take sz).findIdx? (fun z => z == y % 2 ^ 64) with
    | none =>
        exfalso
        have h2 := List.findIdx?_eq_none_iff.mp hf y hm
        rw [hym] at h2
        simp at h2
    | some i =>
        show containsB hash (Data.Su64 sz v) y = true
        simp only [containsB, containsOp]
        rw [if_neg hg, hf]
  . intro hc
    by_cases hg : y ≥ inv64
    . exfalso
      have h2 : containsB hash (Data.Su64 sz v) y = false := by
        simp only [containsB, containsOp]
        rw [if_pos hg]
      rw [h2] at hc
      cases hc
    . have hym : y % 2 ^ 64 = y := Nat.mod_eq_of_lt (by omega)
      cases hf : (v.take sz).findIdx? (fun z => z == y % 2 ^ 64) with
      | none =>
          exfalso
          have h2 : containsB hash (Data.Su64 sz v) y = false := by
            simp only [containsB, containsOp]
            rw [if_neg hg, hf]
          rw [h2] at hc
          cases hc
      | some i =>
          obtain ⟨hiL, hip⟩ := findIdx?_some_facts _ _ _ hf
          have hpv : (v.take sz).getD i 0 = y := by
            rw [hym] at hip
            simpa using hip
          rw [← hpv]
          apply slotVal_mem
          exact hiL

/-- `contains` on the heap form `Vu8` answers live-cell membership. -/
theorem mem_iff_containsB_Vu8 (hash : Nat → Nat) (sz : Nat)
    (v : List Nat) (h0 : 0 < v.length) (hLI : LI hash inv8 v)
    (hwidth : ∀ y ∈ v, y < 2 ^ 8) (y : Nat) :
    (y ∈ v ∧ y ≠ inv8) ↔ containsB hash (Data.Vu8 sz v) y = true := by
  have hIW : inv8 < 2 ^ 8 := by decide
  have hIE : inv8 = 2 ^ 8 - 1 := rfl
  constructor
  . intro hmem
    obtain ⟨hmv, hyne⟩ := hmem
    have hy : y < inv8 := by
      have := hwidth y hmv
      omega
    have hg : ¬ y ≥ inv8 := by omega
    have hym : y % 2 ^ 8 = y := Nat.mod_eq_of_lt (by omega)
    obtain ⟨j, hjL, hjv⟩ := (mem_iff_slot v y).mp hmv
    obtain ⟨i, hi⟩ :=
      (search_mem_iff hash inv8 v y h0 hLI hyne).mpr ⟨j, hjL, hjv⟩
    show containsB hash (Data.Vu8 sz v) y = true
    simp only [containsB, containsOp]
    rw [if_neg hg, hym, hi]
  . intro hc
    by_cases hg : y ≥ inv8
    . exfalso
      have h2 : containsB hash (Data.Vu8 sz v) y = false := by
        simp only [containsB, containsOp]
        rw [if_pos hg]
      rw [h2] at hc
      cases hc
    . have hym : y % 2 ^ 8 = y := Nat.mod_eq_of_lt (by omega)
      have hyne : y ≠ inv8 := by omega
      cases hs : search hash v (y % 2 ^ 8) inv8 with
      | none =>
          exfalso
          have h2 : containsB hash (Data.Vu8 sz v) y = false := by
            simp only [containsB, containsOp]
            rw [if_neg hg, hs]
          rw [h2] at hc
          cases hc
      | some r =>
          cases r with
          | Present i =>
              obtain ⟨hslot, hiL, _⟩ :=
                searchLoop_present_val hash inv8 v (y % 2 ^ 8) h0
                  (v.length + 1) 0 i hs
              refine ⟨?_, hyne⟩
              rw [hym] at hslot
              rw [← hslot]
              exact slotVal_mem v i hiL
          | Empty i =>
              exfalso
              have h2 : containsB hash (Data.Vu8 sz v) y = false := by
                simp only [containsB, containsOp]
                rw [if_neg hg, hs]
              rw [h2] at hc
              cases hc
          | Richer i =>
              exfalso
              have h2 : containsB hash (Data.Vu8 sz v) y = false := by
                simp only [containsB, containsOp]
                rw [if_neg hg, hs]
              rw [h2] at hc
              cases hc

/-- `contains` on the heap form `Vu16` answers live-cell membership. -/
theorem mem_iff_containsB_Vu16 (hash : Nat → Nat) (sz : Nat)
    (v : List Nat) (h0 : 0 < v.length) (hLI : LI hash inv16 v)
    (hwidth : ∀ y ∈ v, y < 2 ^ 16) (y : Nat) :
    (y ∈ v ∧ y ≠ inv16) ↔ containsB hash (Data.Vu16 sz v) y = true := by
  have hIW : inv16 < 2 ^ 16 := by decide
  have hIE : inv16 = 2 ^ 16 - 1 := rfl
  constructor
  . intro hmem
    obtain ⟨hmv, hyne⟩ := hmem
    have hy : y < inv16 := by
      have := hwidth y hmv
      omega
    have hg : ¬ y ≥ inv16 := by omega
    have hym : y % 2 ^ 16 = y := Nat.mod_eq_of_lt (by omega)
    obtain ⟨j, hjL, hjv⟩ := (mem_iff_slot v y).mp hmv
    obtain ⟨i, hi⟩ :=
      (search_mem_iff hash inv16 v y h0 hLI hyne).mpr ⟨j, hjL, hjv⟩
    show containsB hash (Data.Vu16 sz v) y = true
    simp only [containsB, containsOp]
    rw [if_neg hg, hym, hi]
  . intro hc
    by_cases hg : y ≥ inv16
    . exfalso
      have h2 : containsB hash (Data.Vu16 sz v) y = false := by
        simp only [containsB, containsOp]
        rw [if_pos hg]
      rw [h2] at hc
      cases hc
    . have hym : y % 2 ^ 16 = y := Nat.mod_eq_of_lt (by omega)
      have hyne : y ≠ inv16 := by omega
      cases hs : search hash v (y % 2 ^ 16) inv16 with
      | none =>
          exfalso
          have h2 : containsB hash (Data.Vu16 sz v) y = false := by
            simp only [containsB, containsOp]
            rw [if_neg hg, hs]
          rw [h2] at hc
          cases hc
      | some r =>
          cases r with
          | Present i =>
              obtain ⟨hslot, hiL, _⟩ :=
                searchLoop_present_val hash inv16 v (y % 2 ^ 16) h0
                  (v.length + 1) 0 i hs
              refine ⟨?_, hyne⟩
              rw [hym] at hslot
              rw [← hslot]
              exact slotVal_mem v i hiL
          | Empty i =>
              exfalso
              have h2 : containsB hash (Data.Vu16 sz v) y = false := by
                simp only [containsB, containsOp]
                rw [if_neg hg, hs]
              rw [h2] at hc
              cases hc
          | Richer i =>
              exfalso
              have h2 : containsB hash (Data.Vu16 sz v) y = false := by
                simp only [containsB, containsOp]
                rw [if_neg hg, hs]
              rw [h2] at hc
              cases hc

/-- `contains` on the heap form `Vu32` answers live-cell membership. -/
theorem mem_iff_containsB_Vu32 (hash : Nat → Nat) (sz : Nat)
    (v : List Nat) (h0 : 0 < v.length) (hLI : LI hash inv32 v)
    (hwidth : ∀ y ∈ v, y < 2 ^ 32) (y : Nat) :
    (y ∈ v ∧ y ≠ inv32) ↔ containsB hash (Data.Vu32 sz v) y = true := by
  have hIW : inv32 < 2 ^ 32 := by decide
  have hIE : inv32 = 2 ^ 32 - 1 := rfl
  constructor
  . intro hmem
    obtain ⟨hmv, hyne⟩ := hmem
    have hy : y < inv32 := by
      have := hwidth y hmv
      omega
    have hg : ¬ y ≥ inv32 := by omega
    have hym : y % 2 ^ 32 = y := Nat.mod_eq_of_lt (by omega)
    obtain ⟨j, hjL, hjv⟩ := (mem_iff_slot v y).mp hmv
    obtain ⟨i, hi⟩ :=
      (search_mem_iff hash inv32 v y h0 hLI hyne).mpr ⟨j, hjL, hjv⟩
    show containsB hash (Data.Vu32 sz v) y = true
    simp only [containsB, containsOp]
    rw [if_neg hg, hym, hi]
  . intro hc
    by_cases hg : y ≥ inv32
    . exfalso
      have h2 : containsB hash (Data.Vu32 sz v) y = false := by
        simp only [containsB, containsOp]
        rw [if_pos hg]
      rw [h2] at hc
      cases hc
    . have hym : y % 2 ^ 32 = y := Nat.mod_eq_of_lt (by omega)
      have hyne : y ≠ inv32 := by omega
      cases hs : search hash v (y % 2 ^ 32) inv32 with
      | none =>
          exfalso
          have h2 : containsB hash (Data.Vu32 sz v) y = false := by
            simp only [containsB, containsOp]
            rw [if_neg hg, hs]
          rw [h2] at hc
          cases hc
      | some r =>
          cases r with
          | Present i =>
              obtain ⟨hslot, hiL, _⟩ :=
                searchLoop_present_val hash inv32 v (y % 2 ^ 32) h0
                  (v.length + 1) 0 i hs
              refine ⟨?_, hyne⟩
              rw [hym] at hslot
              rw [← hslot]
              exact slotVal_mem v i hiL
          | Empty i =>
              exfalso
              have h2 : containsB hash (Data.Vu32 sz v) y = false := by
                simp only [containsB, containsOp]
                rw [if_neg hg, hs]
              rw [h2] at hc
              cases hc
          | Richer i =>
              exfalso
              have h2 : containsB hash (Data.Vu32 sz v) y = false := by
                simp only [containsB, containsOp]
                rw [if_neg hg, hs]
              rw [h2] at hc
              cases hc

/-- `contains` on the heap form `Vu64` answers live-cell membership. -/
theorem mem_iff_containsB_Vu64 (hash : Nat → Nat) (sz : Nat)
    (v : List Nat) (h0 : 0 < v.length) (hLI : LI hash inv64 v)
    (hwidth : ∀ y ∈ v, y < 2 ^ 64) (y : Nat) :
    (y ∈ v ∧ y ≠ inv64) ↔ containsB hash (Data.Vu64 sz v) y = true := by
  have hIW : inv64 < 2 ^ 64 := by decide
  have hIE : inv64 = 2 ^ 64 - 1 := rfl
  constructor
  . intro hmem
    obtain ⟨hmv, hyne⟩ := hmem
    have hy : y < inv64 := by
      have := hwidth y hmv
      omega
    have hg : ¬ y ≥ inv64 := by omega
    have hym : y % 2 ^ 64 = y := Nat.mod_eq_of_lt (by omega)
    obtain ⟨j, hjL, hjv⟩ := (mem_iff_slot v y).mp hmv
    obtain ⟨i, hi⟩ :=
      (search_mem_iff hash inv64 v y h0 hLI hyne).mpr ⟨j, hjL, hjv⟩
    show containsB hash (Data.Vu64 sz v) y = true
    simp only [containsB, containsOp]
    rw [if_neg hg, hym, hi]
  . intro hc
    by_cases hg : y ≥ inv64
    . exfalso
      have h2 : containsB hash (Data.Vu64 sz v) y = false := by
        simp only [containsB, containsOp]
        rw [if_pos hg]
      rw [h2] at hc
      cases hc
    . have hym : y % 2 ^ 64 = y := Nat.mod_eq_of_lt (by omega)
      have hyne : y ≠ inv64 := by omega
      cases hs : search hash v (y % 2 ^ 64) inv64 with
      | none =>
          exfalso
          have h2 : containsB hash (Data.Vu64 sz v) y = false := by
            simp only [containsB, containsOp]
            rw [if_neg hg, hs]
          rw [h2] at hc
          cases hc
      | some r =>
          cases r with
          | Present i =>
              obtain ⟨hslot, hiL, _⟩ :=
                searchLoop_present_val hash inv64 v (y % 2 ^ 64) h0
                  (v.length + 1) 0 i hs
              refine ⟨?_, hyne⟩
              rw [hym] at hslot
              rw [← hslot]
              exact slotVal_mem v i hiL
          | Empty i =>
              exfalso
              have h2 : containsB hash (Data.Vu64 sz v) y = false := by
                simp only [containsB, containsOp]
                rw [if_neg hg, hs]
              rw [h2] at hc
              cases hc
          | Richer i =>
              exfalso
              have h2 : containsB hash (Data.Vu64 sz v) y = false := by
                simp only [containsB, containsOp]
                rw [if_neg hg, hs]
              rw [h2] at hc
              cases hc

/-- `contains` on the relocatable-sentinel form answers live-table
membership for 64-bit values. -/
theorem mem_iff_containsB_Bad (hash : Nat → Nat) (sz : Nat)
    (t : List Nat) (inv : Nat) (h0 : 0 < t.length) (hLI : LI hash inv t)
    (y : Nat) (hyN : y < 2 ^ 64) :
    (y ∈ t ∧ y ≠ inv) ↔
      containsB hash (Data.Badu64 sz (t ++ [inv])) y = true := by
  have hym : y % 2 ^ 64 = y := Nat.mod_eq_of_lt hyN
  constructor
  . intro hmem
    obtain ⟨hmv, hyne⟩ := hmem
    obtain ⟨j, hjL, hjv⟩ := (mem_iff_slot t y).mp hmv
    obtain ⟨i, hi⟩ :=
      (search_mem_iff hash inv t y h0 hLI hyne).mpr ⟨j, hjL, hjv⟩
    show containsB hash (Data.Badu64 sz (t ++ [inv])) y = true
    simp only [containsB, containsOp]
    rw [getD_concat_last, if_neg hyne, List.dropLast_concat, hym, hi]
  . intro hc
    by_cases hg : y = inv
    . exfalso
      have h2 : containsB hash (Data.Badu64 sz (t ++ [inv])) y = false := by
        simp only [containsB, containsOp]
        rw [getD_concat_last, if_pos hg]
      rw [h2] at hc
      cases hc
    . cases hs : search hash t (y % 2 ^ 64) inv with
      | none =>
          exfalso
          have h2 : containsB hash (Data.Badu64 sz (t ++ [inv])) y =
              false := by
            simp only [containsB, containsOp]
            rw [getD_concat_last, if_neg hg, List.dropLast_concat, hs]
          rw [h2] at hc
          cases hc
      | some r =>
          cases r with
          | Present i =>
              obtain ⟨hslot, hiL, _⟩ :=
                searchLoop_present_val hash inv t (y % 2 ^ 64) h0
                  (t.length + 1) 0 i hs
              refine ⟨?_, hg⟩
              rw [hym] at hslot
              rw [← hslot]
              exact slotVal_mem t i hiL
          | Empty i =>
              exfalso
              have h2 : containsB hash (Data.Badu64 sz (t ++ [inv])) y =
                  false := by
                simp only [containsB, containsOp]
                rw [getD_concat_last, if_neg hg, List.dropLast_concat, hs]
              rw [h2] at hc
              cases hc
          | Richer i =>
              exfalso
              have h2 : containsB hash (Data.Badu64 sz (t ++ [inv])) y =
                  false := by
                simp only [containsB, containsOp]
                rw [getD_concat_last, if_neg hg, List.dropLast_concat, hs]
              rw [h2] at hc
              cases hc

/-! Claim theorems. -/

/-- C1.  The claimed insert/remove parity with a reference set fails on the
code because not every insert completes: from an empty set, inserting
2^32, 2^32+1 and 2^32+2 reaches the `Vu64` heap form, and the subsequent
`insert(2^64-1)` hits the `unimplemented!()` arm of `reserve_with_max`
(u64set.rs:256) and panics, so there is no post-operation state whose
`len`/`contains` could agree with the reference set. -/
theorem c1_insert_sequence_panics :
    runOps mixHash (withCapacity 0)
      [Op.ins (2 ^ 32), Op.ins (2 ^ 32 + 1), Op.ins (2 ^ 32 + 2),
       Op.ins (2 ^ 64 - 1)] = none := by decide

/-- C2.  The public operation surface is not total: `reserve` is
implemented only for the inline 8-bit form, so on the heap state produced by
`with_capacity(23)` any `reserve(additional)` hits `unimplemented!()`
(u64set.rs:162); and in the `Vu64` heap form `reserve_with_max` with
`max = 2^64-1` — which `insert(2^64-1)` performs — hits `unimplemented!()`
(u64set.rs:256) instead of promoting to the relocatable-sentinel form. -/
theorem c2_operations_panic :
    (∀ hash : Nat → Nat, reserveOp hash (withCapacity 23) 1 = none) ∧
    (∀ (hash : Nat → Nat) (sz : Nat) (v : List Nat),
      reserveWithMax hash (Data.Vu64 sz v) (2 ^ 64 - 1) 1 = none) := by
  constructor
  · intro hash
    rfl
  · intro hash sz v
    simp [reserveWithMax, inv64]

/-- C4.  Map insert followed by get does not return the inserted value: from
an empty map, `insert(300, 1)` moves to the inline 16-bit form; then
`insert(65535, 7)` should promote (65535 is the 16-bit sentinel), but the
`Su16` escalation arm of `reserve_with_maxes` builds the promoted map and
drops it (`Some(n);`, u64set.rs:2877), so the key is truncated into the
16-bit array and `get(65535)` returns `None` while `len` reports 2. -/
theorem c4_su16_promotion_dropped :
    ((mapInsert mixHash (mapWithCapacity 0) 300 1).bind
        (fun r => mapInsert mixHash r.1 65535 7)).map
        (fun r => (mapGet mixHash r.1 65535, mapLen r.1)) =
      some (some none, 2) := by decide

/-- C6, counterexample.  Starting empty and inserting 2^32, 2^32+1, 2^32+2,
2^32+3 reaches a `Vu64` table of raw capacity 4 holding 4 live slots: the
load factor is 1 > 10/11, and the table length is 4, not
`next_pow2(ceil(1.1 * 4)) = 8` — the sizing rule of the code is
`next_pow2(cap * 11 / 10)` with flooring integer division (u64set.rs:90). -/
theorem c6_counterexample :
    runOps mixHash (withCapacity 0)
      [Op.ins (2 ^ 32), Op.ins (2 ^ 32 + 1), Op.ins (2 ^ 32 + 2),
       Op.ins (2 ^ 32 + 3)] =
      some (Data.Vu64 4 [4294967296, 4294967297, 4294967298, 4294967299]) ∧
    rawCapacity
      (Data.Vu64 4 [4294967296, 4294967297, 4294967298, 4294967299]) = 4 ∧
    liveCount inv64 [4294967296, 4294967297, 4294967298, 4294967299] = 4 ∧
    ¬ 11 * 4 ≤ 10 * 4 ∧
    rawCapacity
      (Data.Vu64 4 [4294967296, 4294967297, 4294967298, 4294967299]) ≠
      nextPow2 ((11 * 4 + 9) / 10) := by
  refine ⟨by decide, by decide, by decide, by decide, by decide⟩

/-- C8.  The signed round trip `from_u64(to_u64(t)) = t` fails at the
minimum 64-bit value: with the wrapping arithmetic of the release build,
`to_u64(i64::MIN) = 1` and `from_u64(1) = 0 ≠ i64::MIN` (in a debug build
`i64::MIN.abs()` already panics), contradicting the claimed losslessness at
the extreme values. -/
theorem c8_i64_min_roundtrip_fails :
    iFromU64 64 (iToU64 64 (-(2 ^ 63))) = 0 ∧ (-(2 ^ 63) : Int) ≠ 0 := by
  constructor
  · decide
  · decide

/-- C10.  Drain clears eagerly: the state installed by `drain()` before the
iterator yields anything (count zeroed, storage replaced by a fresh
sentinel-filled array) already has `len() = 0` and `contains(x)` false for
every `x`, for every starting state with at least one slot and every hash
function. -/
theorem c10_drain_clears_eagerly (hash : Nat → Nat) (d : Data)
    (h : 1 ≤ rawCapacity d) :
    lenD (drainedD d) = 0 ∧
    ∀ x, containsOp hash (drainedD d) x = some none := by
  cases d with
  | Su8 sz v =>
      exact ⟨rfl, fun x => by simp [drainedD, containsOp]⟩
  | Su16 sz v =>
      exact ⟨rfl, fun x => by simp [drainedD, containsOp]⟩
  | Su32 sz v =>
      exact ⟨rfl, fun x => by simp [drainedD, containsOp]⟩
  | Su64 sz v =>
      exact ⟨rfl, fun x => by simp [drainedD, containsOp]⟩
  | Vu8 sz v =>
      refine ⟨rfl, fun x => ?_⟩
      have hn : 0 < v.length := by simpa [rawCapacity] using h
      simp only [drainedD, containsOp]
      split
      · rfl
      · rw [search_replicate hash v.length hn _ inv8]
  | Vu16 sz v =>
      refine ⟨rfl, fun x => ?_⟩
      have hn : 0 < v.length := by simpa [rawCapacity] using h
      simp only [drainedD, containsOp]
      split
      · rfl
      · rw [search_replicate hash v.length hn _ inv16]
  | Vu32 sz v =>
      refine ⟨rfl, fun x => ?_⟩
      have hn : 0 < v.length := by simpa [rawCapacity] using h
      simp only [drainedD, containsOp]
      split
      · rfl
      · rw [search_replicate hash v.length hn _ inv32]
  | Vu64 sz v =>
      refine ⟨rfl, fun x => ?_⟩
      have hn : 0 < v.length := by simpa [rawCapacity] using h
      simp only [drainedD, containsOp]
      split
      · rfl
      · rw [search_replicate hash v.length hn _ inv64]
  | Badu64 sz v =>
      refine ⟨rfl, fun x => ?_⟩
      have hn2 : 2 ≤ v.length := by
        simp only [rawCapacity] at h
        omega
      simp only [drainedD, containsOp]
      have hlast : (List.replicate v.length inv64).getD
          ((List.replicate v.length inv64).length - 1) 0 = inv64 := by
        rw [List.length_replicate]
        exact getD_replicate _ _ _ _ (by omega)
      rw [hlast]
      split
      · rfl
      · have hdl : (List.replicate v.length inv64).dropLast =
            List.replicate (v.length - 1) inv64 := by
          rw [List.dropLast_eq_take, List.length_replicate, List.take_replicate]
          congr 1
          omega
        rw [hdl]
        rw [search_replicate hash (v.length - 1) (by omega) _ inv64]

/-- C3.  Sentinel relocation in the relocatable-sentinel 64-bit form: the
`Badu64` arm of `insert_unchecked` (u64set.rs:557) coincides, for every
hash function and every state, with the protocol as the spec words it
(pick a fresh sentinel by wrapping decrement until a non-contained value is
found, rewrite every cell holding the old sentinel, then do the ordinary
search-and-insert); and concretely, inserting 2^64-1 into an empty set and
then the ten values 2^64-2 .. 2^64-11 leaves all eleven values contained,
with the sentinel relocated away from 2^64-1. -/
theorem c3_sentinel_relocation :
    (∀ (hash : Nat → Nat) (sz : Nat) (v : List Nat) (x : Nat),
      insertUnchecked hash (Data.Badu64 sz v) x = specBadInsert hash sz v x) ∧
    (runOps mixHash (withCapacity 0)
        [Op.ins (2 ^ 64 - 1), Op.ins (2 ^ 64 - 2), Op.ins (2 ^ 64 - 3),
         Op.ins (2 ^ 64 - 4), Op.ins (2 ^ 64 - 5), Op.ins (2 ^ 64 - 6),
         Op.ins (2 ^ 64 - 7), Op.ins (2 ^ 64 - 8), Op.ins (2 ^ 64 - 9),
         Op.ins (2 ^ 64 - 10), Op.ins (2 ^ 64 - 11)] =
        some (Data.Badu64 11
          [18446744073709551604, 18446744073709551613, 18446744073709551610,
           18446744073709551607, 18446744073709551604, 18446744073709551604,
           18446744073709551614, 18446744073709551611, 18446744073709551608,
           18446744073709551605, 18446744073709551604, 18446744073709551615,
           18446744073709551612, 18446744073709551609, 18446744073709551606,
           18446744073709551604, 18446744073709551604]) ∧
      ((List.range 11).all (fun k => containsB mixHash
        (Data.Badu64 11
          [18446744073709551604, 18446744073709551613, 18446744073709551610,
           18446744073709551607, 18446744073709551604, 18446744073709551604,
           18446744073709551614, 18446744073709551611, 18446744073709551608,
           18446744073709551605, 18446744073709551604, 18446744073709551615,
           18446744073709551612, 18446744073709551609, 18446744073709551606,
           18446744073709551604, 18446744073709551604]) (inv64 - k)) = true) ∧
      currentSentinel
        (Data.Badu64 11
          [18446744073709551604, 18446744073709551613, 18446744073709551610,
           18446744073709551607, 18446744073709551604, 18446744073709551604,
           18446744073709551614, 18446744073709551611, 18446744073709551608,
           18446744073709551605, 18446744073709551604, 18446744073709551615,
           18446744073709551612, 18446744073709551609, 18446744073709551606,
           18446744073709551604, 18446744073709551604]) ≠ some inv64) := by
  refine ⟨?_, by decide, by decide, by decide⟩
  intro hash sz v x
  simp only [insertUnchecked, specBadInsert]
  cases hpick : (if x % 2 ^ 64 = v.getD (v.length - 1) 0 then
      badFindInvalid hash (Data.Badu64 sz v) (v.length + 2)
        ((v.getD (v.length - 1) 0 + (2 ^ 64 - 1)) % 2 ^ 64)
    else some (v.getD (v.length - 1) 0)) with
  | none => rfl
  | some inv2 =>
      by_cases he : v.getD (v.length - 1) 0 = inv2
      · simp only [he, ne_eq, not_true_eq_false, if_false, ite_false,
          not_false_eq_true, if_true, reduceIte]
        rw [map_ite_self, he]
      · simp only [he, ne_eq, not_false_eq_true, if_true, reduceIte]

/-- Witness for C10 at a concrete state. -/
theorem c10_drain_clears_eagerly_witness :
    lenD (drainedD (withCapacity 0)) = 0 ∧
    ∀ x, containsOp mixHash (drainedD (withCapacity 0)) x = some none :=
  c10_drain_clears_eagerly mixHash (withCapacity 0) (by decide)

/-- C5.  The Robin-Hood ordering invariant (every slot on the probe path
from a live slot's home to it is live with probe distance at least the
offset along the path) holds for the slot table of every state reachable
by the public constructor and operation surface, for every hash function;
moreover the insert body (search plus the steal loop) and the
backward-shift deletion loop each preserve the invariant on any table. -/
theorem c5_robin_hood_invariant (hash : Nat → Nat) :
    (∀ d : Data, Reach hash d → RHInvData hash d) ∧
    (∀ (inv : Nat) (v : List Nat) (value : Nat) (w : List Nat) (b : Bool),
      0 < v.length → RHInv hash inv v → nodupLive inv v → value ≠ inv →
      liveCount inv v < v.length →
      tableInsert hash inv v value = some (w, b) → RHInv hash inv w) ∧
    (∀ (inv : Nat) (v : List Nat) (i : Nat) (w : List Nat),
      0 < v.length → RHInv hash inv v → i < v.length →
      slotVal v i ≠ inv →
      (liveCount inv v = v.length → ∃ s, s < v.length ∧
        slotVal v s ≠ inv ∧ slotDist hash v s = 0) →
      backShiftLoop hash inv (v.length + 1) v i = some w →
      RHInv hash inv w) := by
  refine ⟨?_, ?_, ?_⟩
  . intro d hR
    have hWF := Reach_WF hash d hR
    cases d with
    | Su8 sz v => trivial
    | Su16 sz v => trivial
    | Su32 sz v => trivial
    | Su64 sz v => trivial
    | Vu8 sz v =>
        obtain ⟨⟨h0, hLI, _, _, _, _⟩, _⟩ := hWF
        exact RHInv_of_LI hash inv8 v h0 hLI
    | Vu16 sz v =>
        obtain ⟨⟨h0, hLI, _, _, _, _⟩, _⟩ := hWF
        exact RHInv_of_LI hash inv16 v h0 hLI
    | Vu32 sz v =>
        obtain ⟨⟨h0, hLI, _, _, _, _⟩, _⟩ := hWF
        exact RHInv_of_LI hash inv32 v h0 hLI
    | Vu64 sz v =>
        obtain ⟨⟨h0, hLI, _, _, _, _⟩, _⟩ := hWF
        exact RHInv_of_LI hash inv64 v h0 hLI
    | Badu64 sz v =>
        obtain ⟨t, inv, hv, _, ⟨h0, hLI, _, _, _, _⟩, _, _⟩ := hWF
        subst hv
        show RHInv hash ((t ++ [inv]).getD ((t ++ [inv]).length - 1) 0)
          (t ++ [inv]).dropLast
        rw [getD_concat_last, List.dropLast_concat]
        exact RHInv_of_LI hash inv t h0 hLI
  . intro inv v value w b h0 hRH hnd hval heq hroom
    have hLI := LI_of_RHInv hash inv v h0 hRH
    obtain ⟨w2, b2, heq2, hwlen, hLI2, _, _, _⟩ :=
      tableInsert_spec hash inv v value h0 hLI hnd hval heq
    rw [heq2] at hroom
    have h3 : w2 = w := congrArg Prod.fst (Option.some.inj hroom)
    subst h3
    apply RHInv_of_LI hash inv w2 ?_ hLI2
    rw [hwlen]
    exact h0
  . intro inv v i w h0 hRH hiL hstale hstop heq
    have hLI := LI_of_RHInv hash inv v h0 hRH
    obtain ⟨w2, heq2, hwlen, hLI2, _, _⟩ :=
      backShift_from_present hash inv v i h0 hLI hiL hstale hstop
    rw [heq2] at heq
    have h3 : w2 = w := Option.some.inj heq
    subst h3
    apply RHInv_of_LI hash inv w2 ?_ hLI2
    rw [hwlen]
    exact h0

/-- C5 witness: a concrete reachable four-element 64-bit heap state
satisfies the Robin-Hood ordering invariant. -/
theorem c5_robin_hood_invariant_witness :
    RHInvData mixHash
      (Data.Vu64 4 [4294967296, 4294967297, 4294967298, 4294967299]) := by
  apply (c5_robin_hood_invariant mixHash).1
  apply Reach.insertStep
    (Data.Vu64 3 [4294967296, 4294967297, 4294967298,
      18446744073709551615]) _ (2 ^ 32 + 3) true
  . apply Reach.insertStep (Data.Su64 2 [4294967296, 4294967297]) _
      (2 ^ 32 + 2) true
    . apply Reach.insertStep
        (Data.Su64 1 [4294967296, 18446744073709551615]) _ (2 ^ 32 + 1)
        true
      . apply Reach.insertStep (withCapacity 0) _ (2 ^ 32) true
        . exact Reach.capacity 0
        . decide
      . decide
    . decide
  . decide

/-- C6 (amended).  The sizing rule of the code floors instead of ceiling:
a heap table created for capacity `cap` has raw capacity
`next_pow2(cap * 11 / 10)` (integer division), and on every reachable
state the live count obeys `11 * live ≤ 10 * length + 9` - that is,
live ≤ (10 * length + 9) / 11, one element above the claimed
10/11 bound at the flooring boundary. -/
theorem c6_sizing_and_load (hash : Nat → Nat) :
    (∀ cap, NUM_U8 < cap →
      rawCapacity (withCapacity cap) = nextPow2 (cap * 11 / 10)) ∧
    (∀ d : Data, Reach hash d → loadOK d) := by
  constructor
  . intro cap hcap
    unfold withCapacity
    rw [if_neg (by omega)]
    by_cases h2 : cap < inv8
    . rw [if_pos h2]
      show (List.replicate (capacityToRaw cap) inv8).length = _
      rw [List.length_replicate]
      rfl
    . rw [if_neg h2]
      by_cases h3 : cap < inv16
      . rw [if_pos h3]
        show (List.replicate (capacityToRaw cap) inv16).length = _
        rw [List.length_replicate]
        rfl
      . rw [if_neg h3]
        by_cases h4 : cap < inv32
        . rw [if_pos h4]
          show (List.replicate (capacityToRaw cap) inv32).length = _
          rw [List.length_replicate]
          rfl
        . rw [if_neg h4]
          show (List.replicate (capacityToRaw cap) inv64).length = _
          rw [List.length_replicate]
          rfl
  . intro d hR
    exact WF_loadOK hash d (Reach_WF hash d hR)

/-- C6 witness: the sizing formula and load bound at the concrete
capacity 23 and at a concrete reachable four-element heap state. -/
theorem c6_sizing_and_load_witness :
    (NUM_U8 < 23 ∧
      rawCapacity (withCapacity 23) = nextPow2 (23 * 11 / 10)) ∧
    loadOK (withCapacity 23) ∧
    loadOK (Data.Vu64 4 [4294967296, 4294967297, 4294967298,
      4294967299]) := by
  refine ⟨⟨by decide, (c6_sizing_and_load mixHash).1 23 (by decide)⟩,
    (c6_sizing_and_load mixHash).2 _ (Reach.capacity 23), ?_⟩
  apply (c6_sizing_and_load mixHash).2
  apply Reach.insertStep
    (Data.Vu64 3 [4294967296, 4294967297, 4294967298,
      18446744073709551615]) _ (2 ^ 32 + 3) true
  . apply Reach.insertStep (Data.Su64 2 [4294967296, 4294967297]) _
      (2 ^ 32 + 2) true
    . apply Reach.insertStep
        (Data.Su64 1 [4294967296, 18446744073709551615]) _ (2 ^ 32 + 1)
        true
      . apply Reach.insertStep (withCapacity 0) _ (2 ^ 32) true
        . exact Reach.capacity 0
        . decide
      . decide
    . decide
  . decide

/-- C7.  On every reachable state the forced iterator yields exactly the
contained values - each once, no duplicates, no sentinel cells - and the
forced drain iterator yields the same values up to order, while the state
installed by `drain` has `len() = 0` and is itself reachable (every
operation remains available on it). -/
theorem c7_iter_drain (hash : Nat → Nat) (d : Data)
    (hR : Reach hash d) :
    ∃ l, iterListD d = some l ∧ l.Nodup ∧
      (∀ y, y < 2 ^ 64 → (y ∈ l ↔ containsB hash d y = true)) ∧
      (∃ dl, drainListD d = some dl ∧ dl.Perm l) ∧
      lenD (drainedD d) = 0 ∧ Reach hash (drainedD d) := by
  have hWF := Reach_WF hash d hR
  have hus : Reach hash (drainedD d) := Reach.drainStep d hR
  cases d with
  | Su8 sz v =>
      obtain ⟨hlen, hszc, hadm, hnd⟩ := hWF
      have htl : (v.take sz).length = sz := by
        rw [List.length_take]
        omega
      have hclean : ∀ y ∈ v.take sz, y ≠ inv8 := by
        intro y hy
        have := hadm y hy
        omega
      have hiter : iterListD (Data.Su8 sz v) = some (v.take sz) := by
        show iterLoop inv8 (v.take sz) sz = some (v.take sz)
        have h2 := iterLoop_clean inv8 (v.take sz) hclean
        rw [htl] at h2
        exact h2
      have hdrain : drainListD (Data.Su8 sz v) =
          some ((v.take sz).reverse) := by
        show drainLoop inv8 (v.take sz) sz = some ((v.take sz).reverse)
        unfold drainLoop
        have hrev : ∀ y ∈ (v.take sz).reverse, y ≠ inv8 := by
          intro y hy
          exact hclean y (List.mem_reverse.mp hy)
        have h2 := iterLoop_clean inv8 ((v.take sz).reverse) hrev
        rw [List.length_reverse, htl] at h2
        exact h2
      refine ⟨v.take sz, hiter, hnd, ?_, ⟨(v.take sz).reverse, hdrain,
        List.reverse_perm _⟩, rfl, hus⟩
      intro y hyN
      exact mem_iff_containsB_Su8 hash sz v hadm y
  | Vu8 sz v =>
      obtain ⟨⟨h0, hLI, hwidth, hnd, hszlc, hstop⟩, hload⟩ := hWF
      have hiter : iterListD (Data.Vu8 sz v) = some (liveList inv8 v) := by
        show iterLoop inv8 v sz = some (liveList inv8 v)
        rw [hszlc]
        exact iterLoop_live inv8 v
      have hdrain : drainListD (Data.Vu8 sz v) =
          some ((liveList inv8 v).reverse) := by
        show drainLoop inv8 v sz = some ((liveList inv8 v).reverse)
        unfold drainLoop
        have h2 := iterLoop_live inv8 v.reverse
        rw [liveCount_reverse, liveList_reverse, ← hszlc] at h2
        exact h2
      refine ⟨liveList inv8 v, hiter, liveList_nodup inv8 v hnd, ?_,
        ⟨(liveList inv8 v).reverse, hdrain, List.reverse_perm _⟩, rfl, hus⟩
      intro y hyN
      have h3 := mem_iff_containsB_Vu8 hash sz v h0 hLI hwidth y
      rw [← h3]
      exact mem_liveList inv8 y v
  | Su16 sz v =>
      obtain ⟨hlen, hszc, hadm, hnd⟩ := hWF
      have htl : (v.take sz).length = sz := by
        rw [List.length_take]
        omega
      have hclean : ∀ y ∈ v.take sz, y ≠ inv16 := by
        intro y hy
        have := hadm y hy
        omega
      have hiter : iterListD (Data.Su16 sz v) = some (v.take sz) := by
        show iterLoop inv16 (v.take sz) sz = some (v.take sz)
        have h2 := iterLoop_clean inv16 (v.take sz) hclean
        rw [htl] at h2
        exact h2
      have hdrain : drainListD (Data.Su16 sz v) =
          some ((v.take sz).reverse) := by
        show drainLoop inv16 (v.take sz) sz = some ((v.take sz).reverse)
        unfold drainLoop
        have hrev : ∀ y ∈ (v.take sz).reverse, y ≠ inv16 := by
          intro y hy
          exact hclean y (List.mem_reverse.mp hy)
        have h2 := iterLoop_clean inv16 ((v.take sz).reverse) hrev
        rw [List.length_reverse, htl] at h2
        exact h2
      refine ⟨v.take sz, hiter, hnd, ?_, ⟨(v.take sz).reverse, hdrain,
        List.reverse_perm _⟩, rfl, hus⟩
      intro y hyN
      exact mem_iff_containsB_Su16 hash sz v hadm y
  | Vu16 sz v =>
      obtain ⟨⟨h0, hLI, hwidth, hnd, hszlc, hstop⟩, hload⟩ := hWF
      have hiter : iterListD (Data.Vu16 sz v) = some (liveList inv16 v) := by
        show iterLoop inv16 v sz = some (liveList inv16 v)
        rw [hszlc]
        exact iterLoop_live inv16 v
      have hdrain : drainListD (Data.Vu16 sz v) =
          some ((liveList inv16 v).reverse) := by
        show drainLoop inv16 v sz = some ((liveList inv16 v).reverse)
        unfold drainLoop
        have h2 := iterLoop_live inv16 v.reverse
        rw [liveCount_reverse, liveList_reverse, ← hszlc] at h2
        exact h2
      refine ⟨liveList inv16 v, hiter, liveList_nodup inv16 v hnd, ?_,
        ⟨(liveList inv16 v).reverse, hdrain, List.reverse_perm _⟩, rfl, hus⟩
      intro y hyN
      have h3 := mem_iff_containsB_Vu16 hash sz v h0 hLI hwidth y
      rw [← h3]
      exact mem_liveList inv16 y v
  | Su32 sz v =>
      obtain ⟨hlen, hszc, hadm, hnd⟩ := hWF
      have htl : (v.take sz).length = sz := by
        rw [List.length_take]
        omega
      have hclean : ∀ y ∈ v.take sz, y ≠ inv32 := by
        intro y hy
        have := hadm y hy
        omega
      have hiter : iterListD (Data.Su32 sz v) = some (v.take sz) := by
        show iterLoop inv32 (v.take sz) sz = some (v.take sz)
        have h2 := iterLoop_clean inv32 (v.take sz) hclean
        rw [htl] at h2
        exact h2
      have hdrain : drainListD (Data.Su32 sz v) =
          some ((v.take sz).reverse) := by
        show drainLoop inv32 (v.take sz) sz = some ((v.take sz).reverse)
        unfold drainLoop
        have hrev : ∀ y ∈ (v.take sz).reverse, y ≠ inv32 := by
          intro y hy
          exact hclean y (List.mem_reverse.mp hy)
        have h2 := iterLoop_clean inv32 ((v.take sz).reverse) hrev
        rw [List.length_reverse, htl] at h2
        exact h2
      refine ⟨v.take sz, hiter, hnd, ?_, ⟨(v.take sz).reverse, hdrain,
        List.reverse_perm _⟩, rfl, hus⟩
      intro y hyN
      exact mem_iff_containsB_Su32 hash sz v hadm y
  | Vu32 sz v =>
      obtain ⟨⟨h0, hLI, hwidth, hnd, hszlc, hstop⟩, hload⟩ := hWF
      have hiter : iterListD (Data.Vu32 sz v) = some (liveList inv32 v) := by
        show iterLoop inv32 v sz = some (liveList inv32 v)
        rw [hszlc]
        exact iterLoop_live inv32 v
      have hdrain : drainListD (Data.Vu32 sz v) =
          some ((liveList inv32 v).reverse) := by
        show drainLoop inv32 v sz = some ((liveList inv32 v).reverse)
        unfold drainLoop
        have h2 := iterLoop_live inv32 v.reverse
        rw [liveCount_reverse, liveList_reverse, ← hszlc] at h2
        exact h2
      refine ⟨liveList inv32 v, hiter, liveList_nodup inv32 v hnd, ?_,
        ⟨(liveList inv32 v).reverse, hdrain, List.reverse_perm _⟩, rfl, hus⟩
      intro y hyN
      have h3 := mem_iff_containsB_Vu32 hash sz v h0 hLI hwidth y
      rw [← h3]
      exact mem_liveList inv32 y v
  | Su64 sz v =>
      obtain ⟨hlen, hszc, hadm, hnd⟩ := hWF
      have htl : (v.take sz).length = sz := by
        rw [List.length_take]
        omega
      have hclean : ∀ y ∈ v.take sz, y ≠ inv64 := by
        intro y hy
        have := hadm y hy
        omega
      have hiter : iterListD (Data.Su64 sz v) = some (v.take sz) := by
        show iterLoop inv64 (v.take sz) sz = some (v.take sz)
        have h2 := iterLoop_clean inv64 (v.take sz) hclean
        rw [htl] at h2
        exact h2
      have hdrain : drainListD (Data.Su64 sz v) =
          some ((v.take sz).reverse) := by
        show drainLoop inv64 (v.take sz) sz = some ((v.take sz).reverse)
        unfold drainLoop
        have hrev : ∀ y ∈ (v.take sz).reverse, y ≠ inv64 := by
          intro y hy
          exact hclean y (List.mem_reverse.mp hy)
        have h2 := iterLoop_clean inv64 ((v.take sz).reverse) hrev
        rw [List.length_reverse, htl] at h2
        exact h2
      refine ⟨v.take sz, hiter, hnd, ?_, ⟨(v.take sz).reverse, hdrain,
        List.reverse_perm _⟩, rfl, hus⟩
      intro y hyN
      exact mem_iff_containsB_Su64 hash sz v hadm y
  | Vu64 sz v =>
      obtain ⟨⟨h0, hLI, hwidth, hnd, hszlc, hstop⟩, hload⟩ := hWF
      have hiter : iterListD (Data.Vu64 sz v) = some (liveList inv64 v) := by
        show iterLoop inv64 v sz = some (liveList inv64 v)
        rw [hszlc]
        exact iterLoop_live inv64 v
      have hdrain : drainListD (Data.Vu64 sz v) =
          some ((liveList inv64 v).reverse) := by
        show drainLoop inv64 v sz = some ((liveList inv64 v).reverse)
        unfold drainLoop
        have h2 := iterLoop_live inv64 v.reverse
        rw [liveCount_reverse, liveList_reverse, ← hszlc] at h2
        exact h2
      refine ⟨liveList inv64 v, hiter, liveList_nodup inv64 v hnd, ?_,
        ⟨(liveList inv64 v).reverse, hdrain, List.reverse_perm _⟩, rfl, hus⟩
      intro y hyN
      have h3 := mem_iff_containsB_Vu64 hash sz v h0 hLI hwidth y
      rw [← h3]
      exact mem_liveList inv64 y v
  | Badu64 sz v =>
      obtain ⟨t, inv, hv, hinvN, ⟨h0, hLI, hwidth, hnd, hszlc, hstop⟩,
        hload, halloc⟩ := hWF
      subst hv
      have hiter : iterListD (Data.Badu64 sz (t ++ [inv])) =
          some (liveList inv t) := by
        show iterLoop ((t ++ [inv]).getD ((t ++ [inv]).length - 1) 0)
          (t ++ [inv]).dropLast sz = some (liveList inv t)
        rw [getD_concat_last, List.dropLast_concat, hszlc]
        exact iterLoop_live inv t
      have hdrain : drainListD (Data.Badu64 sz (t ++ [inv])) =
          some ((liveList inv t).reverse) := by
        show drainLoop ((t ++ [inv]).getD ((t ++ [inv]).length - 1) 0)
          (t ++ [inv]) sz = some ((liveList inv t).reverse)
        rw [getD_concat_last]
        unfold drainLoop
        have hrevc : (t ++ [inv]).reverse = inv :: t.reverse := by simp
        rw [hrevc, iterLoop_skip]
        have h2 := iterLoop_live inv t.reverse
        rw [liveCount_reverse, liveList_reverse, ← hszlc] at h2
        exact h2
      refine ⟨liveList inv t, hiter, liveList_nodup inv t hnd, ?_,
        ⟨(liveList inv t).reverse, hdrain, List.reverse_perm _⟩, ?_, hus⟩
      . intro y hyN
        have h3 := mem_iff_containsB_Bad hash sz t inv h0 hLI y hyN
        rw [← h3]
        exact mem_liveList inv y t
      . rfl

/-- C7 witness: the guarantee instantiated at a concrete reachable
four-element heap state. -/
theorem c7_iter_drain_witness :
    ∃ l, iterListD (Data.Vu64 4 [4294967296, 4294967297, 4294967298,
        4294967299]) = some l ∧ l.Nodup ∧
      (∀ y, y < 2 ^ 64 → (y ∈ l ↔ containsB mixHash
        (Data.Vu64 4 [4294967296, 4294967297, 4294967298, 4294967299]) y =
          true)) ∧
      (∃ dl, drainListD (Data.Vu64 4 [4294967296, 4294967297, 4294967298,
        4294967299]) = some dl ∧ dl.Perm l) ∧
      lenD (drainedD (Data.Vu64 4 [4294967296, 4294967297, 4294967298,
        4294967299])) = 0 ∧
      Reach mixHash (drainedD (Data.Vu64 4 [4294967296, 4294967297,
        4294967298, 4294967299])) := by
  apply c7_iter_drain mixHash
  apply Reach.insertStep
    (Data.Vu64 3 [4294967296, 4294967297, 4294967298,
      18446744073709551615]) _ (2 ^ 32 + 3) true
  . apply Reach.insertStep (Data.Su64 2 [4294967296, 4294967297]) _
      (2 ^ 32 + 2) true
    . apply Reach.insertStep
        (Data.Su64 1 [4294967296, 18446744073709551615]) _ (2 ^ 32 + 1)
        true
      . apply Reach.insertStep (withCapacity 0) _ (2 ^ 32) true
        . exact Reach.capacity 0
        . decide
      . decide
    . decide
  . decide

end TS
